import Mathlib

/-!
# fastgrep: the matching engine and the task queue

A shallow embedding of `src/regex_simd.c` and `src/search.c`.

Conventions of the embedding
* A buffer is the list of its bytes; its `size` is the length of the list.
  Offsets are natural numbers: `pos`, `pattern_len` and `size` all measure
  objects that live in one address space, so `pos + pattern_len` does not wrap.
* Pointers handed to the functions are taken to be non-null, except the
  pattern string of `pattern_create`, whose null case is an `Option`.
* `malloc`/`strdup` succeed; the one allocation whose failure the code can
  observe in a scan, the `realloc` inside `matchlist_add`, is an explicit
  parameter: `alloc` for one call (the outcome for the requested size), and
  `realloc` for a scan in which the outcome may differ from call to call.
* The regex scan hands `regexec` a NUL-terminated string, which may run past
  the buffer: `search_pattern_regex_mem` takes the memory at `data` and the
  `size` apart; `search_pattern_regex` is the case of a buffer followed by NUL.
* C `int` results are kept as integers (`0` is false).
-/

namespace Fastgrep

/-- A byte (`unsigned char`). -/
abbrev Byte := Fin 256

/-- The bytes of a string literal (used for readable concrete inputs). -/
def bytes (s : String) : List Byte := s.toList.map (fun c => Fin.ofNat c.toNat)

/-- `MatchType` of `regex_simd.h`. -/
inductive MatchType where
  | MATCH_ASCII
  | MATCH_REGEX
deriving DecidableEq, Repr

/-- What one call `regexec(&re, str, 1, &m, 0)` leaves behind: the return
value and the two offsets of `m`. -/
structure RegexecResult where
  result : Int
  rm_so : Int
  rm_eo : Int
deriving DecidableEq, Repr

/-- A compiled regular expression (`regex_t`), seen through the only thing the
code does with it: `regexec` on a NUL-terminated string. -/
abbrev regex_t := List Byte → RegexecResult

/-- The content of a `regex_t` that was never compiled; it is never executed,
because every use is guarded by `is_regex_compiled`. -/
def regex_unset : regex_t := fun _ => ⟨1, -1, -1⟩

/-- `Pattern` of `regex_simd.h`. -/
structure Pattern where
  pattern : List Byte
  pattern_len : Nat
  case_insensitive : Int
  type : MatchType
  regex_compiled : regex_t
  is_regex_compiled : Int

/-- `Match` of `regex_simd.h` (`end_` is the C field `end`). -/
structure Match where
  start : Nat
  end_ : Nat
  line_num : Nat
deriving DecidableEq, Repr

/-- `MatchList` of `regex_simd.h`: `matches_` (the C field `matches`) holds the
`count` initialised slots of the array, `capacity` is the number of allocated slots. -/
structure MatchList where
  matches_ : List Match
  capacity : Nat
deriving DecidableEq, Repr

/-- The field `count` of a `MatchList`. -/
def MatchList.count (list : MatchList) : Nat := list.matches_.length

def INITIAL_MATCH_CAPACITY : Nat := 1024

/-- `REG_EXTENDED` of `<regex.h>` (glibc value). -/
def REG_EXTENDED : Nat := 1

/-- `REG_ICASE` of `<regex.h>` (glibc value). -/
def REG_ICASE : Nat := 2

/-- `pattern_create`. `pattern_str` is NULL (`none`) or the content of the C
string, the bytes before its terminating NUL, so that `strlen` is its length.
`regcomp pat flags` is the regex engine's compile step: `none` when it returns
non-zero, the compiled expression otherwise. -/
def pattern_create (regcomp : List Byte → Nat → Option regex_t)
    (pattern_str : Option (List Byte)) (case_insensitive use_regex : Int) : Option Pattern :=
  match pattern_str with
  | none => none
  | some str =>
    let type := if use_regex ≠ 0 then MatchType.MATCH_REGEX else MatchType.MATCH_ASCII
    if type = MatchType.MATCH_REGEX then
      let flags := if case_insensitive ≠ 0 then REG_EXTENDED ||| REG_ICASE else REG_EXTENDED
      match regcomp str flags with
      | none => none
      | some re =>
        some ⟨str, str.length, case_insensitive, type, re, 1⟩
    else
      some ⟨str, str.length, case_insensitive, type, regex_unset, 0⟩

/-- `matchlist_create` (allocation succeeds). -/
def matchlist_create : MatchList := ⟨[], INITIAL_MATCH_CAPACITY⟩

/-- `matchlist_add`. `alloc n` tells whether the `realloc` to `n` slots that
this call makes succeeds. -/
def matchlist_add (alloc : Nat → Bool) (list : MatchList) (start end_ line_num : Nat) :
    Int × MatchList :=
  if list.count ≥ list.capacity then
    let new_capacity := list.capacity * 2
    if alloc new_capacity then
      (1, ⟨list.matches_ ++ [⟨start, end_, line_num⟩], new_capacity⟩)
    else
      (0, list)
  else
    (1, ⟨list.matches_ ++ [⟨start, end_, line_num⟩], list.capacity⟩)

/-- An allocator that never fails. -/
def alloc_ok : Nat → Bool := fun _ => true

/-- `memcmp(a + off, b, n)`, of which the callers only test `== 0`:
`0` when the `n` bytes agree, `1` otherwise. -/
def memcmp (a : List Byte) (off : Nat) (b : List Byte) (n : Nat) : Int :=
  if (List.range n).all (fun i => a.getD (off + i) 0 == b.getD i 0) then 0 else 1

/-- `tolower` of `<ctype.h>` in the "C" locale. -/
def tolower (c : Byte) : Byte :=
  if 65 ≤ c.val ∧ c.val ≤ 90 then Fin.ofNat (c.val + 32) else c

/-- `pattern_match_ascii`. -/
def pattern_match_ascii (pattern : Pattern) (data : List Byte) (pos : Nat) : Int :=
  if pos ≥ data.length ∨ pos + pattern.pattern_len > data.length then 0
  else if memcmp data pos pattern.pattern pattern.pattern_len = 0 then 1 else 0

/-- `pattern_match_ascii_case`: the `for` loop returns 0 at the first index
whose folded bytes differ and 1 when there is none. -/
def pattern_match_ascii_case (pattern : Pattern) (data : List Byte) (pos : Nat) : Int :=
  if pos ≥ data.length ∨ pos + pattern.pattern_len > data.length then 0
  else if (List.range pattern.pattern_len).all
      (fun i => tolower (pattern.pattern.getD i 0) == tolower (data.getD (pos + i) 0)) then 1
  else 0

/-- The `while (pos < size)` loop of `search_pattern_ascii`. Each iteration
ends in `pos++`, so the loop runs `size - pos` times; `fuel` counts the
iterations still allowed. (`last_was_newline` is written and never read.)
Every call of the scan is given the same `alloc`: a `realloc` to a given size
has the same outcome throughout the scan. `search_pattern_ascii_realloc_loop`
lets the outcome differ from call to call. -/
def search_pattern_ascii_loop (alloc : Nat → Bool) (pattern : Pattern) (data : List Byte) :
    Nat → Nat → Nat → MatchList → MatchList
  | 0, _, _, matches_ => matches_
  | fuel + 1, pos, line_num, matches_ =>
    if pos < data.length then
      let found :=
        if pattern.case_insensitive ≠ 0 then pattern_match_ascii_case pattern data pos
        else pattern_match_ascii pattern data pos
      if found ≠ 0 then
        search_pattern_ascii_loop alloc pattern data fuel (pos + 1) line_num
          (matchlist_add alloc matches_ pos (pos + pattern.pattern_len) line_num).2
      else if data.getD pos 0 = 10 then
        search_pattern_ascii_loop alloc pattern data fuel (pos + 1) (line_num + 1) matches_
      else
        search_pattern_ascii_loop alloc pattern data fuel (pos + 1) line_num matches_
    else matches_

/-- `search_pattern_ascii`: the final list and the returned `count > 0`. -/
def search_pattern_ascii (alloc : Nat → Bool) (pattern : Pattern) (data : List Byte)
    (matches_ : MatchList) : Int × MatchList :=
  let out := search_pattern_ascii_loop alloc pattern data data.length 0 1 matches_
  (if out.count > 0 then 1 else 0, out)

/-- The literal `Pattern` that `pattern_create(P, ci, 0)` returns. -/
def literal (P : List Byte) (ci : Int) : Pattern :=
  ⟨P, P.length, ci, MatchType.MATCH_ASCII, regex_unset, 0⟩

/-- The span `(start, end)` of a match. -/
def Match.span (m : Match) : Nat × Nat := (m.start, m.end_)

/-- Lane `i` of the vector that the unaligned load reads at `pattern->pattern`:
the pattern's own bytes, the terminating NUL of the string, then whatever
memory follows it (`beyond`). -/
def load_pattern (pattern : Pattern) (beyond : Nat → Byte) (i : Nat) : Byte :=
  if i < pattern.pattern.length then pattern.pattern.getD i 0
  else if i = pattern.pattern.length then 0
  else beyond i

/-- The body of the `for (i = 0; i < width; i++)` loop of a block: bit `i` of
`mask` is set when `data[pos + i]` equals lane `i` of the pattern vector
(`cmpeq` + `movemask`); a set bit is confirmed by the bounds test and `memcmp`. -/
def simd_lane (alloc : Nat → Bool) (pattern : Pattern) (data : List Byte) (vec : Nat → Byte)
    (pos line_num : Nat) (acc : MatchList) (i : Nat) : MatchList :=
  if data.getD (pos + i) 0 = vec i then
    if pos + i + pattern.pattern_len ≤ data.length then
      if memcmp data (pos + i) pattern.pattern pattern.pattern_len = 0 then
        (matchlist_add alloc acc (pos + i) (pos + i + pattern.pattern_len) line_num).2
      else acc
    else acc
  else acc

/-- The match part of one block of a vectorized kernel: `if (mask != 0)` and
the loop over the lanes. -/
def simd_block (alloc : Nat → Bool) (pattern : Pattern) (data : List Byte) (vec : Nat → Byte)
    (width pos line_num : Nat) (list : MatchList) : MatchList :=
  if (List.range width).any (fun i => data.getD (pos + i) 0 == vec i) then
    (List.range width).foldl (simd_lane alloc pattern data vec pos line_num) list
  else list

/-- The newline count of one block: `for (i = 0; i < width && pos + i < size; i++)`. -/
def simd_block_lines (data : List Byte) (width pos line_num : Nat) : Nat :=
  (List.range width).foldl (fun acc i =>
    if pos + i < data.length ∧ data.getD (pos + i) 0 = 10 then acc + 1 else acc) line_num

/-- The loop `while (pos + width <= size)` of a vectorized kernel; it yields
the cursor, the line counter and the list it leaves to the tail loop. -/
def simd_block_loop (alloc : Nat → Bool) (pattern : Pattern) (data : List Byte)
    (vec : Nat → Byte) (width : Nat) : Nat → Nat → Nat → MatchList → Nat × Nat × MatchList
  | 0, pos, line_num, list => (pos, line_num, list)
  | fuel + 1, pos, line_num, list =>
    if pos + width ≤ data.length then
      simd_block_loop alloc pattern data vec width fuel (pos + width)
        (simd_block_lines data width pos line_num)
        (simd_block alloc pattern data vec width pos line_num list)
    else (pos, line_num, list)

/-- The tail loop `while (pos < size)` of a vectorized kernel. -/
def simd_tail_loop (alloc : Nat → Bool) (pattern : Pattern) (data : List Byte) :
    Nat → Nat → Nat → MatchList → MatchList
  | 0, _, _, list => list
  | fuel + 1, pos, line_num, list =>
    if pos < data.length then
      simd_tail_loop alloc pattern data fuel (pos + 1)
        (if data.getD pos 0 = 10 then line_num + 1 else line_num)
        (if pattern_match_ascii pattern data pos ≠ 0 then
          (matchlist_add alloc list pos (pos + pattern.pattern_len) line_num).2
         else list)
    else list

/-- The body shared by `search_pattern_sse42` and `search_pattern_avx2`, which
differ only in the constant `width`. Both loops advance the cursor, so `size`
iterations are enough fuel for each (for `width > 0`). -/
def search_pattern_simd (width : Nat) (alloc : Nat → Bool) (beyond : Nat → Byte)
    (pattern : Pattern) (data : List Byte) (list : MatchList) : Int × MatchList :=
  if pattern.pattern_len = 0 then (0, list)
  else if pattern.pattern_len > width then search_pattern_ascii alloc pattern data list
  else
    let st := simd_block_loop alloc pattern data (load_pattern pattern beyond) width
      data.length 0 1 list
    let out := simd_tail_loop alloc pattern data data.length st.1 st.2.1 st.2.2
    (if out.count > 0 then 1 else 0, out)

/-- `search_pattern_sse42`. -/
def search_pattern_sse42 := search_pattern_simd 16

/-- `search_pattern_avx2`. -/
def search_pattern_avx2 := search_pattern_simd 32

/-- The NUL-terminated string that starts at `data + pos`. -/
def cstring_at (data : List Byte) (pos : Nat) : List Byte :=
  (data.drop pos).takeWhile (fun b => b ≠ 0)

/-- Conversion of an integer to `size_t` (64 bits). -/
def to_size_t (x : Int) : Nat := (x % 2 ^ 64).toNat

/-- The cast `(int)i` of a `size_t` to a 32-bit `int` (two's complement). -/
def to_int (i : Nat) : Int := ((i : Int) + 2 ^ 31) % 2 ^ 32 - 2 ^ 31

/-- The loop `while (pos <= size)` of `search_pattern_regex` over a buffer
`data` that is followed by a NUL byte, as a C string is: the string that
`regexec(data + pos)` reads ends within the buffer. The cursor need not
advance, so the loop is run on `fuel`: `none` means that `fuel` iterations did
not reach the exit. `search_pattern_regex_mem_loop` is the loop over any
memory. -/
def search_pattern_regex_loop (alloc : Nat → Bool) (pattern : Pattern) (data : List Byte) :
    Nat → Nat → Nat → MatchList → Option MatchList
  | 0, _, _, _ => none
  | fuel + 1, pos, line_num, list =>
    if pos ≤ data.length then
      let r := pattern.regex_compiled (cstring_at data pos)
      if r.result ≠ 0 ∨ r.rm_so = -1 then some list
      else
        let match_start := to_size_t (pos + r.rm_so)
        let match_end := to_size_t (pos + r.rm_eo)
        search_pattern_regex_loop alloc pattern data fuel
          (if match_end ≠ 0 then match_end else pos + 1) line_num
          (matchlist_add alloc list match_start match_end line_num).2
    else some list

/-- `search_pattern_regex` over a buffer that is followed by a NUL byte, run
for at most `fuel` iterations. -/
def search_pattern_regex (alloc : Nat → Bool) (fuel : Nat) (pattern : Pattern)
    (data : List Byte) (list : MatchList) : Option (Int × MatchList) :=
  if pattern.is_regex_compiled = 0 then some (0, list)
  else
    (search_pattern_regex_loop alloc pattern data fuel 0 1 list).map
      (fun out => (if out.count > 0 then 1 else 0, out))

/-- `is_simd_available`; the two flags say whether `__SSE4_2__` and `__AVX2__`
are defined in the build. -/
def is_simd_available (sse42 avx2 : Bool) : Int :=
  if sse42 then 1 else if avx2 then 1 else 0

/-- `search_pattern` in a build with the given `__AVX2__` / `__SSE4_2__`
definitions. -/
def search_pattern (avx2 sse42 : Bool) (alloc : Nat → Bool) (beyond : Nat → Byte) (fuel : Nat)
    (pattern : Pattern) (data : List Byte) (list : MatchList) : Option (Int × MatchList) :=
  let vectorizable : Bool :=
    pattern.type = MatchType.MATCH_ASCII ∧ pattern.case_insensitive = 0 ∧
      is_simd_available sse42 avx2 ≠ 0
  let a := if avx2 && vectorizable then search_pattern_avx2 alloc beyond pattern data list
    else (0, list)
  if a.1 ≠ 0 then some (1, a.2)
  else
    let s := if sse42 && vectorizable then search_pattern_sse42 alloc beyond pattern data a.2
      else (0, a.2)
    if s.1 ≠ 0 then some (1, s.2)
    else if pattern.type = MatchType.MATCH_ASCII then
      some (search_pattern_ascii alloc pattern data s.2)
    else search_pattern_regex alloc fuel pattern data s.2

/-- `SearchTask` of `search.h`; the two references are kept as the values they
point to, `file` being the bytes `file->data[0 .. file->size)`. -/
structure SearchTask where
  pattern : Pattern
  file : List Byte
  matches_ : MatchList
  file_index : Int

/-- `TaskQueue` of `search.h`: `tasks` holds the `count` initialised slots. -/
structure TaskQueue where
  tasks : List SearchTask
  capacity : Nat
  next_task : Nat

/-- The field `count` of a `TaskQueue`. -/
def TaskQueue.count (queue : TaskQueue) : Nat := queue.tasks.length

/-- `taskqueue_create`. -/
def taskqueue_create : TaskQueue := ⟨[], 0, 0⟩

/-- `taskqueue_add`. -/
def taskqueue_add (alloc : Nat → Bool) (queue : TaskQueue) (pattern : Pattern)
    (file : List Byte) (file_index : Int) : Int × TaskQueue :=
  if queue.count ≥ queue.capacity then
    let new_capacity := if queue.capacity = 0 then 16 else queue.capacity * 2
    if alloc new_capacity then
      (1, ⟨queue.tasks ++ [⟨pattern, file, matchlist_create, file_index⟩], new_capacity,
        queue.next_task⟩)
    else (0, queue)
  else
    (1, ⟨queue.tasks ++ [⟨pattern, file, matchlist_create, file_index⟩], queue.capacity,
      queue.next_task⟩)

/-- `taskqueue_get_next`, one atomic step under the queue's mutex. The
returned pointer `&queue->tasks[i]` is given as the index `i`; `none` is NULL. -/
def taskqueue_get_next (queue : TaskQueue) : Option Nat × TaskQueue :=
  if queue.next_task ≥ queue.count then (none, queue)
  else (some queue.next_task, { queue with next_task := queue.next_task + 1 })

/-- The files of a list enqueued one after the other, as the loop of
`search_multiple_files` does (`file_index = (int)i`, no allocation failure). -/
def enqueue_files (pattern : Pattern) (files : List (List Byte)) : TaskQueue :=
  (List.range files.length).foldl
    (fun queue i => (taskqueue_add alloc_ok queue pattern (files.getD i []) (to_int i)).2)
    taskqueue_create

/-- A run of claims: `sched` lists, in the order in which they took the mutex,
the workers that call `taskqueue_get_next`; the trace pairs each worker with
what its call returned. -/
def claim_trace : List Nat → TaskQueue → List (Nat × Option Nat) × TaskQueue
  | [], queue => ([], queue)
  | w :: sched, queue =>
    let r := taskqueue_get_next queue
    let rest := claim_trace sched r.2
    ((w, r.1) :: rest.1, rest.2)

/-- The 1-based line of offset `pos`: one more than the number of newline
bytes before it. -/
def line_of (data : List Byte) (pos : Nat) : Nat :=
  1 + (data.take pos).count 10

/-- The brute-force reference of the literal scan: every offset is tested on
its own. -/
def brute_force (P B : List Byte) : List (Nat × Nat) :=
  ((List.range B.length).filter
    (fun p => decide (p + P.length ≤ B.length) && decide ((B.drop p).take P.length = P))).map
    (fun p => (p, p + P.length))

/-- An engine for the expression `x*` on a text without `x`: it matches the
empty string at the start of every suffix. -/
def regex_empty_match : regex_t := fun _ => ⟨0, 0, 0⟩

/-- An engine for the expression `b`: the first `b` of the string, if any. -/
def regex_first_b : regex_t := fun s =>
  if s.indexOf 98 < s.length then ⟨0, s.indexOf 98, s.indexOf 98 + 1⟩ else ⟨1, -1, -1⟩

/-- A compiled regex `Pattern` around a given engine. -/
def regex_pattern (str : List Byte) (re : regex_t) : Pattern :=
  ⟨str, str.length, 0, MatchType.MATCH_REGEX, re, 1⟩

/-- A sequence of `matchlist_add` calls, one per triple `(start, end, line)`:
the values the calls return, in order, and the list they leave. -/
def matchlist_add_all (alloc : Nat → Bool) :
    MatchList → List (Nat × Nat × Nat) → List Int × MatchList
  | list, [] => ([], list)
  | list, t :: ts =>
    let r := matchlist_add alloc list t.1 t.2.1 t.2.2
    let rest := matchlist_add_all alloc r.2 ts
    (r.1 :: rest.1, rest.2)

/-- A sequence of `taskqueue_add` calls, one per `(pattern, file, file_index)`:
the values the calls return, in order, and the queue they leave. -/
def taskqueue_add_all (alloc : Nat → Bool) :
    TaskQueue → List (Pattern × List Byte × Int) → List Int × TaskQueue
  | queue, [] => ([], queue)
  | queue, t :: ts =>
    let r := taskqueue_add alloc queue t.1 t.2.1 t.2.2
    let rest := taskqueue_add_all alloc r.2 ts
    (r.1 :: rest.1, rest.2)

/-- The `for (i = 0; i < size; i++)` loop of `count_lines`; it runs `size - i`
times, `fuel` counts the iterations still allowed. -/
def count_lines_loop (data : List Byte) : Nat → Nat → Nat → Nat
  | 0, _, count => count
  | fuel + 1, i, count =>
    if i < data.length then
      count_lines_loop data fuel (i + 1) (if data.getD i 0 = 10 then count + 1 else count)
    else count

/-- `count_lines` of `file_reader.c`. -/
def count_lines (data : List Byte) : Nat :=
  if data.length = 0 then 0
  else
    let count := count_lines_loop data data.length 0 0
    if data.length > 0 ∧ data.getD (data.length - 1) 0 ≠ 10 then count + 1 else count

/-- The `for (i = 0; i < pos && i < size; i++)` loop of `get_line_number`; it
runs at most `pos - i` times. -/
def get_line_number_loop (data : List Byte) (pos : Nat) : Nat → Nat → Nat → Nat
  | 0, _, line => line
  | fuel + 1, i, line =>
    if i < pos ∧ i < data.length then
      get_line_number_loop data pos fuel (i + 1) (if data.getD i 0 = 10 then line + 1 else line)
    else line

/-- `get_line_number` of `file_reader.c`. -/
def get_line_number (data : List Byte) (pos : Nat) : Nat :=
  if pos ≥ data.length then 0
  else get_line_number_loop data pos pos 0 1

/-- The byte comparison of a literal pattern: case-folded when the flag is
set, exact otherwise. -/
def fold_byte (ci : Int) (c : Byte) : Byte := if ci ≠ 0 then tolower c else c

/-- The literal `P` (with flag `ci`) occurs in `B` at offset `p`. -/
def literal_occurs (P B : List Byte) (ci : Int) (p : Nat) : Prop :=
  p < B.length ∧ p + P.length ≤ B.length ∧
    ∀ i < P.length, fold_byte ci (P.getD i 0) = fold_byte ci (B.getD (p + i) 0)

/-- `SearchContext` of `search.h`, without the thread handles and the mutex;
`queue` is NULL (`none`) until `search_context_run` sets it. -/
structure SearchContext where
  queue : Option TaskQueue
  num_threads : Nat
  files_searched : Nat
  total_matches : Nat

/-- `search_context_create` (allocation succeeds). -/
def search_context_create (num_threads : Nat) : SearchContext :=
  ⟨none, if num_threads > 0 then num_threads else 1, 0, 0⟩

/-- What is fixed for every scan of a run: the build (`__AVX2__`, `__SSE4_2__`),
the allocator, the memory that follows the pattern string, and the fuel given
to a regex scan. -/
structure ScanEnv where
  avx2 : Bool
  sse42 : Bool
  alloc : Nat → Bool
  beyond : Nat → Byte
  fuel : Nat

/-- The call `search_pattern(task->pattern, task->file->data, task->file->size,
task->matches)` of `search_worker`. -/
def scan_task (env : ScanEnv) (task : SearchTask) : Option (Int × MatchList) :=
  search_pattern env.avx2 env.sse42 env.alloc env.beyond env.fuel task.pattern task.file
    task.matches_

/-- Where a thread that runs `search_worker` stands: about to call
`taskqueue_get_next`; holding `&tasks[i]` and about to scan it; having scanned
it and about to update the counters under `result_mutex`; returned. -/
inductive WorkerPc where
  | claim
  | scan (i : Nat)
  | account (i : Nat)
  | exited
deriving DecidableEq, Repr

/-- A run of `search_context_run` in progress: the shared queue, the two
counters of the context, and where each thread stands. -/
structure RunState where
  queue : TaskQueue
  files_searched : Nat
  total_matches : Nat
  pc : Nat → WorkerPc

/-- The threads' positions with that of thread `w` replaced. -/
def set_pc (pc : Nat → WorkerPc) (w : Nat) (x : WorkerPc) : Nat → WorkerPc :=
  fun v => if v = w then x else pc v

/-- Thread `w` evaluates the loop condition of `search_worker`:
`(task = taskqueue_get_next(context->queue)) != NULL`. -/
def worker_claim (w : Nat) (s : RunState) : RunState :=
  match (taskqueue_get_next s.queue).1 with
  | none =>
    { s with queue := (taskqueue_get_next s.queue).2, pc := set_pc s.pc w WorkerPc.exited }
  | some i =>
    { s with queue := (taskqueue_get_next s.queue).2, pc := set_pc s.pc w (WorkerPc.scan i) }

/-- Thread `w` scans the task it holds; the result goes to the task's
MatchSet. A scan that does not return leaves the thread where it is. -/
def worker_scan (env : ScanEnv) (w i : Nat) (s : RunState) : RunState :=
  match s.queue.tasks[i]? with
  | none => s
  | some task =>
    match scan_task env task with
    | none => s
    | some r =>
      { s with
        queue := { s.queue with tasks := s.queue.tasks.set i { task with matches_ := r.2 } },
        pc := set_pc s.pc w (WorkerPc.account i) }

/-- Thread `w` updates the counters under `result_mutex` and goes back to the
loop condition. -/
def worker_account (w i : Nat) (s : RunState) : RunState :=
  { s with
    files_searched := s.files_searched + 1,
    total_matches := s.total_matches +
      (match s.queue.tasks[i]? with
        | some task => task.matches_.count
        | none => 0),
    pc := set_pc s.pc w WorkerPc.claim }

/-- One atomic step of thread `w` in `search_worker`. -/
def search_worker_step (env : ScanEnv) (w : Nat) (s : RunState) : RunState :=
  match s.pc w with
  | WorkerPc.claim => worker_claim w s
  | WorkerPc.scan i => worker_scan env w i s
  | WorkerPc.account i => worker_account w i s
  | WorkerPc.exited => s

/-- The steps of a schedule, taken in order by the threads it names; a name
that is not one of the `num_threads` threads takes no step. -/
def run_schedule (env : ScanEnv) (num_threads : Nat) (sched : List Nat) (s : RunState) :
    RunState :=
  sched.foldl (fun s w => if w < num_threads then search_worker_step env w s else s) s

/-- `search_context_run` under the interleaving `sched` of its threads' atomic
steps (every `pthread_create` succeeds). The joins return when every thread has
returned: `none` when `sched` does not bring all threads there. -/
def search_context_run (env : ScanEnv) (context : SearchContext) (queue : TaskQueue)
    (sched : List Nat) : Option (Int × SearchContext) :=
  let final := run_schedule env context.num_threads sched
    ⟨queue, context.files_searched, context.total_matches, fun _ => WorkerPc.claim⟩
  if (List.range context.num_threads).all (fun w => final.pc w == WorkerPc.exited) then
    some (1, ⟨some final.queue, context.num_threads, final.files_searched,
      final.total_matches⟩)
  else none

/-- `search_multiple_files` under the interleaving `sched` (no allocation
failure while the queue is built): the value returned and `*results`. -/
def search_multiple_files (env : ScanEnv) (pattern : Pattern) (files : List (List Byte))
    (num_threads : Nat) (sched : List Nat) : Option (Int × List MatchList) :=
  match search_context_run env (search_context_create num_threads)
      (enqueue_files pattern files) sched with
  | none => none
  | some r =>
    match r.2.queue with
    | none => none
    | some queue => some (r.1, queue.tasks.map (fun task => task.matches_))

/-- The task a thread holds, if any. -/
def held (pc : WorkerPc) : Option Nat :=
  match pc with
  | WorkerPc.scan i => some i
  | WorkerPc.account i => some i
  | _ => none

/-- The sum of `f i` over the tasks `i` held by the threads `0 .. K-1`. -/
def sum_held (f : Nat → Nat) (pc : Nat → WorkerPc) (K : Nat) : Nat :=
  ((List.range K).map (fun w => match held (pc w) with
    | some i => f i
    | none => 0)).sum

/-- The number of matches the scan of task `i` of `tasks` leaves (0 when the
scan does not return). -/
def scan_count (env : ScanEnv) (tasks : List SearchTask) (i : Nat) : Nat :=
  match tasks[i]? with
  | some task =>
    (match scan_task env task with
      | some r => r.2.count
      | none => 0)
  | none => 0

/-- The invariant of a run over the tasks `T0` with `K` threads, the counters
having started at `fs0` and `tm0`: the cursor is within the queue; a held task
lies below the cursor and is held by one thread only; a thread has returned
only after the queue was drained; a task not yet scanned is as it was
enqueued, a task scanned holds the result of its scan; each counter, together
with what the threads still hold, accounts for the tasks below the cursor. -/
structure RunInv (env : ScanEnv) (T0 : List SearchTask) (K fs0 tm0 : Nat) (s : RunState) :
    Prop where
  len : s.queue.tasks.length = T0.length
  next_le : s.queue.next_task ≤ T0.length
  held_lt : ∀ w i, held (s.pc w) = some i → i < s.queue.next_task
  held_inj : ∀ w1 w2 i, held (s.pc w1) = some i → held (s.pc w2) = some i → w1 = w2
  outside : ∀ w, K ≤ w → s.pc w = WorkerPc.claim
  drained : ∀ w, s.pc w = WorkerPc.exited → T0.length ≤ s.queue.next_task
  fresh : ∀ i, (s.queue.next_task ≤ i ∨ ∃ w, s.pc w = WorkerPc.scan i) →
    s.queue.tasks[i]? = T0[i]?
  done : ∀ i t0, T0[i]? = some t0 → i < s.queue.next_task →
    (∀ w, s.pc w ≠ WorkerPc.scan i) →
      ∃ r, scan_task env t0 = some r ∧ s.queue.tasks[i]? = some { t0 with matches_ := r.2 }
  files : s.files_searched + sum_held (fun _ => 1) s.pc K = fs0 + s.queue.next_task
  total : s.total_matches + sum_held (scan_count env T0) s.pc K
    = tm0 + ((List.range s.queue.next_task).map (scan_count env T0)).sum

/-- A build without vectorized paths on a machine where no allocation fails. -/
def scalar_env : ScanEnv := ⟨false, false, alloc_ok, fun _ => 0, 0⟩

/-- A schedule in which thread 0 takes every task (three steps each) and
returns, and then every other thread finds the queue drained. -/
def sequential_schedule (num_threads num_tasks : Nat) : List Nat :=
  List.replicate (3 * num_tasks + 1) 0 ++ List.range num_threads

/-- Whether the scalar scan finds the pattern at `pos` (its `found` flag). -/
def found_at (pattern : Pattern) (data : List Byte) (pos : Nat) : Bool :=
  if pattern.case_insensitive ≠ 0 then pattern_match_ascii_case pattern data pos ≠ 0
  else pattern_match_ascii pattern data pos ≠ 0

/-- Whether `P` occurs in `B` at offset `p`, tested on its own. -/
def occurs (P B : List Byte) (p : Nat) : Bool :=
  decide (p + P.length ≤ B.length) && decide ((B.drop p).take P.length = P)

/-- Whether the pattern is confirmed at offset `q`: the bounds test and the
`memcmp` of the vectorized kernels. -/
def confirmed (pattern : Pattern) (data : List Byte) (q : Nat) : Bool :=
  decide (q + pattern.pattern_len ≤ data.length) &&
    decide (memcmp data q pattern.pattern pattern.pattern_len = 0)

/-- The loop `while (i > 0 && data[i - 1] != '\n') i--` of `find_line_start`;
it runs at most `i` times. -/
def find_line_start_loop (data : List Byte) : Nat → Nat → Nat
  | 0, i => i
  | fuel + 1, i =>
    if i > 0 ∧ data.getD (i - 1) 0 ≠ 10 then find_line_start_loop data fuel (i - 1) else i

/-- `find_line_start` of `file_reader.c`; the returned pointer `data + i` is
given as the offset `i`. -/
def find_line_start (data : List Byte) (pos : Nat) : Nat :=
  if pos ≥ data.length then 0 else find_line_start_loop data pos pos

/-- The loop `while (i < size && data[i] != '\n') i++` of `find_line_end`; it
runs at most `size - i` times. -/
def find_line_end_loop (data : List Byte) : Nat → Nat → Nat
  | 0, i => i
  | fuel + 1, i =>
    if i < data.length ∧ data.getD i 0 ≠ 10 then find_line_end_loop data fuel (i + 1) else i

/-- `find_line_end` of `file_reader.c`; the returned pointer `data + i` is
given as the offset `i`. -/
def find_line_end (data : List Byte) (pos : Nat) : Nat :=
  if pos ≥ data.length then data.length else find_line_end_loop data data.length pos

/-- The three lengths `output_match` passes to `fwrite` when colour is on:
`match_offset`, `match_len` and `line_len - match_offset - match_len`, computed
in the integers, so that an underflow of the unsigned computation shows as a
negative value. -/
def output_match_lengths (data : List Byte) (m : Match) : Int × Int × Int :=
  let line_start : Int := find_line_start data m.start
  let line_end : Int := find_line_end data m.start
  let line_len := line_end - line_start
  let match_offset := (m.start : Int) - line_start
  let match_len := (m.end_ : Int) - (m.start : Int)
  (match_offset, match_len, line_len - match_offset - match_len)

/-- The lists that `matchlist_create` and `matchlist_add` calls can produce,
each call with whatever outcome of its reallocation. -/
inductive MatchListReachable : MatchList → Prop where
  | create : MatchListReachable matchlist_create
  | add (alloc : Nat → Bool) (list : MatchList) (start end_ line_num : Nat) :
      MatchListReachable list →
        MatchListReachable (matchlist_add alloc list start end_ line_num).2

/-- The matches the scalar loop appends from `pos` on when no append fails. -/
def ascii_trace (pattern : Pattern) (data : List Byte) : Nat → Nat → Nat → List Match
  | 0, _, _ => []
  | fuel + 1, pos, line_num =>
    if pos < data.length then
      if found_at pattern data pos then
        ⟨pos, pos + pattern.pattern_len, line_num⟩ :: ascii_trace pattern data fuel (pos + 1) line_num
      else
        ascii_trace pattern data fuel (pos + 1)
          (if data.getD pos 0 = 10 then line_num + 1 else line_num)
    else []

/-- The spans of the offsets of `[a, a + k)` that lie in `B` and at which `P`
occurs, in increasing order. -/
def occ_spans (P B : List Byte) (a k : Nat) : List (Nat × Nat) :=
  ((List.range' a k).filter (fun p => decide (p < B.length) && occurs P B p)).map
    (fun p => (p, p + P.length))

/-- The loop `while (pos <= size)` of `search_pattern_regex` over the memory
that `data` points to: `mem` holds the readable bytes from `data` on, of which
the first `size` are the buffer. `regexec(data + pos)` is given the string that
runs from `pos` to the first NUL byte of the memory, wherever that is; it ends
inside the buffer only when the buffer holds a NUL or is followed by one.
`none` means that `fuel` iterations did not reach the exit. -/
def search_pattern_regex_mem_loop (alloc : Nat → Bool) (pattern : Pattern) (mem : List Byte)
    (size : Nat) : Nat → Nat → Nat → MatchList → Option MatchList
  | 0, _, _, _ => none
  | fuel + 1, pos, line_num, list =>
    if pos ≤ size then
      let r := pattern.regex_compiled (cstring_at mem pos)
      if r.result ≠ 0 ∨ r.rm_so = -1 then some list
      else
        let match_start := to_size_t (pos + r.rm_so)
        let match_end := to_size_t (pos + r.rm_eo)
        search_pattern_regex_mem_loop alloc pattern mem size fuel
          (if match_end ≠ 0 then match_end else pos + 1) line_num
          (matchlist_add alloc list match_start match_end line_num).2
    else some list

/-- `search_pattern_regex(pattern, data, size, matches)` over the memory `mem`
at `data`, run for at most `fuel` iterations. -/
def search_pattern_regex_mem (alloc : Nat → Bool) (fuel : Nat) (pattern : Pattern)
    (mem : List Byte) (size : Nat) (list : MatchList) : Option (Int × MatchList) :=
  if pattern.is_regex_compiled = 0 then some (0, list)
  else
    (search_pattern_regex_mem_loop alloc pattern mem size fuel 0 1 list).map
      (fun out => (if out.count > 0 then 1 else 0, out))

/-- The spans of the engine's hits in a regex scan of at most `fuel`
iterations that starts at `cursor`: each hit gives `(cursor + rm_so,
cursor + rm_eo)`, the scan goes on from the cursor the code computes and ends
at the first miss or when the cursor has passed the end of the buffer. -/
def regex_hit_spans (re : regex_t) (mem : List Byte) (size : Nat) : Nat → Nat → List (Nat × Nat)
  | 0, _ => []
  | fuel + 1, cursor =>
    if cursor ≤ size then
      let r := re (cstring_at mem cursor)
      if r.result ≠ 0 ∨ r.rm_so = -1 then []
      else
        (cursor + r.rm_so.toNat, cursor + r.rm_eo.toNat) ::
          regex_hit_spans re mem size fuel
            (if cursor + r.rm_eo.toNat ≠ 0 then cursor + r.rm_eo.toNat else cursor + 1)
    else []

/-- The loop of `search_pattern_ascii` with a `realloc` whose outcome may
differ from call to call. The loop calls `matchlist_add` at most once per
cursor position, so the outcomes of its successive calls are given per
position: `realloc pos n` tells whether the `realloc` to `n` slots made while
the cursor is at `pos` succeeds. -/
def search_pattern_ascii_realloc_loop (realloc : Nat → Nat → Bool) (pattern : Pattern)
    (data : List Byte) : Nat → Nat → Nat → MatchList → MatchList
  | 0, _, _, matches_ => matches_
  | fuel + 1, pos, line_num, matches_ =>
    if pos < data.length then
      let found :=
        if pattern.case_insensitive ≠ 0 then pattern_match_ascii_case pattern data pos
        else pattern_match_ascii pattern data pos
      if found ≠ 0 then
        search_pattern_ascii_realloc_loop realloc pattern data fuel (pos + 1) line_num
          (matchlist_add (realloc pos) matches_ pos (pos + pattern.pattern_len) line_num).2
      else if data.getD pos 0 = 10 then
        search_pattern_ascii_realloc_loop realloc pattern data fuel (pos + 1) (line_num + 1)
          matches_
      else
        search_pattern_ascii_realloc_loop realloc pattern data fuel (pos + 1) line_num matches_
    else matches_

/-- `search_pattern_ascii` with a `realloc` whose outcome may differ from call
to call: the final list and the returned `count > 0`. -/
def search_pattern_ascii_realloc (realloc : Nat → Nat → Bool) (pattern : Pattern)
    (data : List Byte) (matches_ : MatchList) : Int × MatchList :=
  let out := search_pattern_ascii_realloc_loop realloc pattern data data.length 0 1 matches_
  (if out.count > 0 then 1 else 0, out)

/-- A `realloc` that fails while the cursor is at offset 0 and succeeds at
every later call. -/
def realloc_fails_once : Nat → Nat → Bool := fun pos _ => decide (pos ≠ 0)

/-- A MatchSet filled to its initial capacity: 1024 matches, capacity 1024. -/
def matchlist_full : MatchList := ⟨List.replicate 1024 ⟨0, 1, 1⟩, 1024⟩

/-- The number of decimal digits at the start of a string. -/
def digits_len (s : List Byte) : Nat :=
  (s.takeWhile (fun b => decide (48 ≤ b.val ∧ b.val ≤ 57))).length

/-- The search of `error[0-9]+` from offset `i` of the string on: the leftmost
`error` followed by a digit, with all the digits that follow. -/
def regex_error_digits_from : List Byte → Nat → RegexecResult
  | [], _ => ⟨1, -1, -1⟩
  | c :: t, i =>
    if (c :: t).take 5 = bytes "error" ∧ digits_len ((c :: t).drop 5) ≥ 1 then
      ⟨0, i, i + 5 + digits_len ((c :: t).drop 5)⟩
    else regex_error_digits_from t (i + 1)

/-- An engine for the expression `error[0-9]+`. -/
def regex_error_digits : regex_t := fun s => regex_error_digits_from s 0

/-! ## The scalar literal scan -/

theorem matchlist_add_ok (list : MatchList) (s e n : Nat) :
    (matchlist_add alloc_ok list s e n).2.matches_ = list.matches_ ++ [⟨s, e, n⟩] := by
  unfold matchlist_add
  split <;> simp [alloc_ok]

theorem found_at_lt (pattern : Pattern) (data : List Byte) (pos : Nat)
    (h : found_at pattern data pos = true) : pos < data.length := by
  by_contra hlt
  have hge : pos ≥ data.length := Nat.le_of_not_lt hlt
  unfold found_at pattern_match_ascii_case pattern_match_ascii at h
  simp [hge] at h

/-- The spans the scalar loop appends: those of the offsets of `[pos, pos + fuel)`
at which the pattern is found, in increasing order. -/
theorem ascii_loop_spans (pattern : Pattern) (data : List Byte) :
    ∀ (fuel pos line_num : Nat) (list : MatchList),
      (search_pattern_ascii_loop alloc_ok pattern data fuel pos line_num list).matches_.map
          Match.span
        = list.matches_.map Match.span ++
          ((List.range' pos fuel).filter (found_at pattern data)).map
            (fun p => (p, p + pattern.pattern_len)) := by
  intro fuel
  induction fuel with
  | zero => intro pos line_num list; simp [search_pattern_ascii_loop]
  | succ fuel ih =>
    intro pos line_num list
    rw [search_pattern_ascii_loop, List.range'_succ, List.filter_cons]
    by_cases hlt : pos < data.length
    · by_cases hf : found_at pattern data pos = true
      · have hf2 : (if pattern.case_insensitive ≠ 0 then pattern_match_ascii_case pattern data pos
            else pattern_match_ascii pattern data pos) ≠ 0 := by
          unfold found_at at hf
          split at hf <;> simp_all
        simp only [hlt, if_true, hf2, ne_eq, not_false_eq_true, hf]
        rw [ih, matchlist_add_ok]
        simp [Match.span]
      · have hf2 : ¬ (if pattern.case_insensitive ≠ 0 then pattern_match_ascii_case pattern data pos
            else pattern_match_ascii pattern data pos) ≠ 0 := by
          unfold found_at at hf
          split at hf <;> simp_all
        simp only [hlt, if_true, hf2, if_false, hf]
        split <;> rw [ih] <;> simp
    · have hf : ¬ found_at pattern data pos = true := fun h => hlt (found_at_lt _ _ _ h)
      have hnil : (List.range' (pos + 1) fuel).filter (found_at pattern data) = [] := by
        rw [List.filter_eq_nil_iff]
        intro p hp h
        have := found_at_lt _ _ _ h
        rw [List.mem_range'_1] at hp
        omega
      simp [hlt, hf, hnil]

/-- The fuel of the scalar loop is enough: once `pos + fuel` reaches the size
of the buffer, more fuel changes nothing, so the loop has left through its
exit test `pos < size`. -/
theorem ascii_loop_fuel (alloc : Nat → Bool) (pattern : Pattern) (data : List Byte) :
    ∀ (fuel pos line_num : Nat) (list : MatchList), data.length ≤ pos + fuel →
      search_pattern_ascii_loop alloc pattern data (fuel + 1) pos line_num list
        = search_pattern_ascii_loop alloc pattern data fuel pos line_num list := by
  intro fuel
  induction fuel with
  | zero =>
    intro pos line_num list h
    have hlt : ¬ pos < data.length := by omega
    simp [search_pattern_ascii_loop, hlt]
  | succ fuel ih =>
    intro pos line_num list h
    rw [search_pattern_ascii_loop]
    conv_rhs => rw [search_pattern_ascii_loop]
    by_cases hlt : pos < data.length
    · simp only [if_pos hlt]
      rw [ih (pos + 1) _ _ (by omega), ih (pos + 1) _ _ (by omega), ih (pos + 1) _ _ (by omega)]
    · rw [if_neg hlt, if_neg hlt]

theorem ascii_spans (pattern : Pattern) (data : List Byte) :
    (search_pattern_ascii alloc_ok pattern data matchlist_create).2.matches_.map Match.span
      = ((List.range data.length).filter (found_at pattern data)).map
          (fun p => (p, p + pattern.pattern_len)) := by
  simp [search_pattern_ascii, ascii_loop_spans, matchlist_create, List.range_eq_range']

theorem memcmp_eq_zero_iff (a : List Byte) (off : Nat) (b : List Byte) (n : Nat) :
    memcmp a off b n = 0 ↔ ∀ i < n, a.getD (off + i) 0 = b.getD i 0 := by
  unfold memcmp
  split
  · rename_i h
    simp only [List.all_eq_true, List.mem_range, beq_iff_eq] at h
    exact ⟨fun _ => h, fun _ => rfl⟩
  · rename_i h
    simp only [List.all_eq_true, List.mem_range, beq_iff_eq] at h
    exact ⟨fun h1 => absurd h1 (by decide), fun h1 => absurd h1 h⟩

theorem slice_eq_iff (a b : List Byte) (off : Nat) (h : off + b.length ≤ a.length) :
    (a.drop off).take b.length = b ↔ ∀ i < b.length, a.getD (off + i) 0 = b.getD i 0 := by
  constructor
  · intro heq i hi
    have hb : b.getD i 0 = ((a.drop off).take b.length).getD i 0 := by rw [heq]
    rw [hb]
    simp [List.getD_eq_getElem?_getD, List.getElem?_take, hi]
  · intro hall
    apply List.ext_getElem
    · simp; omega
    · intro i h1 h2
      have := hall i h2
      rw [List.getD_eq_getElem?_getD, List.getD_eq_getElem?_getD,
        List.getElem?_eq_getElem (by omega), List.getElem?_eq_getElem h2] at this
      simpa using this

theorem found_at_literal (P B : List Byte) (p : Nat) (hp : p < B.length) :
    found_at (literal P 0) B p = occurs P B p := by
  unfold found_at pattern_match_ascii occurs
  simp only [literal, ne_eq, not_true_eq_false, if_false]
  by_cases hle : p + P.length ≤ B.length
  · have h1 : ¬ (p ≥ B.length ∨ p + P.length > B.length) := by omega
    rw [if_neg h1]
    by_cases hm : memcmp B p P P.length = 0
    · have := (slice_eq_iff B P p hle).2 ((memcmp_eq_zero_iff _ _ _ _).1 hm)
      simp [hm, hle, this]
    · have : ¬ (B.drop p).take P.length = P := fun h =>
        hm ((memcmp_eq_zero_iff _ _ _ _).2 ((slice_eq_iff B P p hle).1 h))
      simp [hm, this]
  · have h1 : (p ≥ B.length ∨ p + P.length > B.length) := by omega
    simp [h1, hle]

theorem ascii_spans_literal (P B : List Byte) :
    (search_pattern_ascii alloc_ok (literal P 0) B matchlist_create).2.matches_.map Match.span
      = brute_force P B := by
  rw [ascii_spans, brute_force]
  congr 1
  apply List.filter_congr
  intro p hp
  rw [List.mem_range] at hp
  rw [found_at_literal P B p hp]
  rfl

theorem pairwise_of_span_map (l : List Match) (ps : List Nat) (f : Nat → Nat)
    (h : l.map Match.span = ps.map (fun p => (p, f p))) (hps : ps.Pairwise (· < ·)) :
    l.Pairwise (fun a b => a.start < b.start) := by
  have h1 : (l.map Match.span).Pairwise (fun a b => a.1 < b.1) := by
    rw [h, List.pairwise_map]
    exact hps
  rw [List.pairwise_map] at h1
  exact h1

/-- C1: on a fresh MatchSet the case-sensitive scalar scan reports exactly the
spans of the brute-force reference (every offset `p` with `p + |P| ≤ |B|` and
`B[p, p+|P|) = P`), each once, in strictly increasing order of start, and no
span ends past the end of the buffer. -/
theorem search_pattern_ascii_eq_brute_force (P B : List Byte) :
    (search_pattern_ascii alloc_ok (literal P 0) B matchlist_create).2.matches_.map Match.span
        = brute_force P B ∧
      (search_pattern_ascii alloc_ok (literal P 0) B matchlist_create).2.matches_.Pairwise
        (fun a b => a.start < b.start) ∧
      ∀ m ∈ (search_pattern_ascii alloc_ok (literal P 0) B matchlist_create).2.matches_,
        m.end_ ≤ B.length := by
  refine ⟨ascii_spans_literal P B, ?_, ?_⟩
  · apply pairwise_of_span_map _ _ (fun p => p + P.length) (ascii_spans_literal P B)
    exact List.Pairwise.filter _ (List.pairwise_lt_range _)
  · intro m hm
    have hmem : m.span ∈ brute_force P B := by
      rw [← ascii_spans_literal P B]
      exact List.mem_map_of_mem _ hm
    unfold brute_force at hmem
    simp only [List.mem_map, List.mem_filter, Bool.and_eq_true, decide_eq_true_eq] at hmem
    obtain ⟨p, ⟨_, hle, _⟩, hspan⟩ := hmem
    have : m.end_ = p + P.length := by
      have := congrArg Prod.snd hspan
      simpa [Match.span] using this.symm
    omega

theorem filter_range_lt (n m : Nat) (h : m ≤ n) (f : Nat → Bool)
    (hf : ∀ p < n, f p = decide (p < m)) : (List.range n).filter f = List.range m := by
  have hsplit : List.range n = List.range' 0 m ++ List.range' (0 + m) (n - m) := by
    rw [List.range_eq_range', List.range'_append_1]
    congr 1
    omega
  rw [hsplit, List.filter_append, List.range_eq_range' m]
  have h1 : (List.range' 0 m).filter f = List.range' 0 m := by
    rw [List.filter_eq_self]
    intro p hp
    rw [List.mem_range'_1] at hp
    rw [hf p (by omega)]
    simp
    omega
  have h2 : (List.range' (0 + m) (n - m)).filter f = [] := by
    rw [List.filter_eq_nil_iff]
    intro p hp
    rw [List.mem_range'_1] at hp
    rw [hf p (by omega)]
    simp
    omega
  rw [h1, h2, List.append_nil]

theorem occurs_replicate (c : Byte) (k n p : Nat) :
    occurs (List.replicate k c) (List.replicate n c) p = decide (p + k ≤ n) := by
  unfold occurs
  by_cases h : p + k ≤ n
  · have hmin : min k (n - p) = k := by omega
    simp [h, hmin]
  · simp [h]

theorem brute_force_replicate (c : Byte) (k n : Nat) (hk : 1 ≤ k) (hn : k ≤ n) :
    brute_force (List.replicate k c) (List.replicate n c)
      = (List.range (n - k + 1)).map (fun i => (i, i + k)) := by
  unfold brute_force
  have hfilter : (List.range (List.replicate n c).length).filter
      (fun p => decide (p + (List.replicate k c).length ≤ (List.replicate n c).length) &&
        decide (((List.replicate n c).drop p).take (List.replicate k c).length
          = List.replicate k c)) = List.range (n - k + 1) := by
    simp only [List.length_replicate]
    apply filter_range_lt n (n - k + 1) (by omega)
    intro p _
    have := occurs_replicate c k n p
    unfold occurs at this
    simp only [List.length_replicate] at this
    rw [this, decide_eq_decide]
    omega
  rw [hfilter]
  simp

/-- C7: overlapping occurrences are all reported: the pattern `c^k` (`k ≥ 1`)
over the buffer `c^n` (`n ≥ k`) yields exactly the `n - k + 1` spans
`[i, i + k)`, `i = 0 .. n - k`, in that order; `"aa"` over `"aaa"` yields
exactly `[0,2)` and `[1,3)`. -/
theorem search_pattern_ascii_overlapping (c : Byte) (k n : Nat) (hk : 1 ≤ k) (hn : k ≤ n) :
    (search_pattern_ascii alloc_ok (literal (List.replicate k c) 0) (List.replicate n c)
        matchlist_create).2.matches_.map Match.span
        = (List.range (n - k + 1)).map (fun i => (i, i + k)) ∧
      (search_pattern_ascii alloc_ok (literal (List.replicate k c) 0) (List.replicate n c)
        matchlist_create).2.count = n - k + 1 ∧
      (search_pattern_ascii alloc_ok (literal (bytes "aa") 0) (bytes "aaa")
        matchlist_create).2.matches_.map Match.span = [(0, 2), (1, 3)] := by
  have hspans := (ascii_spans_literal (List.replicate k c) (List.replicate n c)).trans
    (brute_force_replicate c k n hk hn)
  refine ⟨hspans, ?_, by decide⟩
  have := congrArg List.length hspans
  simpa [MatchList.count] using this

theorem search_pattern_ascii_overlapping_witness :
    (1 ≤ 2 ∧ 2 ≤ 3) ∧
      (search_pattern_ascii alloc_ok (literal (List.replicate 2 (97 : Byte)) 0)
          (List.replicate 3 97) matchlist_create).2.matches_.map Match.span
        = (List.range (3 - 2 + 1)).map (fun i => (i, i + 2)) :=
  ⟨by decide, (search_pattern_ascii_overlapping 97 2 3 (by decide) (by decide)).1⟩

/-! ## Case-insensitive scan -/

theorem tolower_zero : tolower 0 = 0 := by decide

set_option maxRecDepth 100000 in
theorem tolower_eq_newline (c : Byte) : tolower c = 10 ↔ c = 10 := by
  revert c
  decide

theorem getD_map_tolower (l : List Byte) (i : Nat) :
    (l.map tolower).getD i 0 = tolower (l.getD i 0) := by
  by_cases h : i < l.length
  · simp [List.getD_eq_getElem?_getD, List.getElem?_eq_getElem, h]
  · have h1 : l.length ≤ i := Nat.le_of_not_lt h
    simp [List.getD_eq_getElem?_getD, List.getElem?_eq_none, h1, tolower_zero]

theorem match_case_eq_match_lower (P B : List Byte) (ci : Int) (pos : Nat) :
    pattern_match_ascii_case (literal P ci) B pos
      = pattern_match_ascii (literal (P.map tolower) 0) (B.map tolower) pos := by
  unfold pattern_match_ascii_case pattern_match_ascii
  simp only [literal, List.length_map]
  by_cases hb : pos ≥ B.length ∨ pos + P.length > B.length
  · simp only [hb, if_true]
  · simp only [hb, if_false]
    by_cases hall : ∀ i < P.length, tolower (P.getD i 0) = tolower (B.getD (pos + i) 0)
    · have h1 : ((List.range P.length).all
          (fun i => tolower (P.getD i 0) == tolower (B.getD (pos + i) 0))) = true := by
        simp only [List.all_eq_true, List.mem_range, beq_iff_eq]
        exact hall
      have h2 : memcmp (B.map tolower) pos (P.map tolower) P.length = 0 := by
        rw [memcmp_eq_zero_iff]
        intro i hi
        rw [getD_map_tolower, getD_map_tolower, hall i hi]
      rw [if_pos h1, if_pos h2]
    · have h1 : ¬ ((List.range P.length).all
          (fun i => tolower (P.getD i 0) == tolower (B.getD (pos + i) 0))) = true := by
        simp only [List.all_eq_true, List.mem_range, beq_iff_eq]
        exact hall
      have h2 : ¬ memcmp (B.map tolower) pos (P.map tolower) P.length = 0 := by
        rw [memcmp_eq_zero_iff]
        intro h
        apply hall
        intro i hi
        have := h i hi
        rw [getD_map_tolower, getD_map_tolower] at this
        exact this.symm
      rw [if_neg h1, if_neg h2]

theorem ascii_loop_case_eq_lower (alloc : Nat → Bool) (P B : List Byte) (ci : Int)
    (hci : ci ≠ 0) : ∀ (fuel pos line_num : Nat) (list : MatchList),
      search_pattern_ascii_loop alloc (literal P ci) B fuel pos line_num list
        = search_pattern_ascii_loop alloc (literal (P.map tolower) 0) (B.map tolower)
            fuel pos line_num list := by
  intro fuel
  induction fuel with
  | zero => intro pos line_num list; rfl
  | succ fuel ih =>
    intro pos line_num list
    have hnl : (B.map tolower).getD pos 0 = 10 ↔ B.getD pos 0 = 10 := by
      rw [getD_map_tolower, tolower_eq_newline]
    have hm := match_case_eq_match_lower P B ci pos
    have hc1 : (literal P ci).case_insensitive ≠ 0 := hci
    have hc2 : ¬ (literal (P.map tolower) 0).case_insensitive ≠ 0 := by simp [literal]
    have hlen : (literal (P.map tolower) 0).pattern_len = (literal P ci).pattern_len := by
      simp [literal]
    rw [search_pattern_ascii_loop, search_pattern_ascii_loop]
    simp only [if_pos hc1, if_neg hc2, hm, hlen, List.length_map, ih, hnl]

theorem found_at_case_iff (P B : List Byte) (ci : Int) (hci : ci ≠ 0) (p : Nat) :
    found_at (literal P ci) B p = true ↔
      (p < B.length ∧ p + P.length ≤ B.length ∧
        ∀ i < P.length, tolower (P.getD i 0) = tolower (B.getD (p + i) 0)) := by
  have hc1 : (literal P ci).case_insensitive ≠ 0 := hci
  have hlen : (literal P ci).pattern_len = P.length := rfl
  have hpat : (literal P ci).pattern = P := rfl
  unfold found_at pattern_match_ascii_case
  rw [if_pos hc1, hlen, hpat]
  by_cases hb : p ≥ B.length ∨ p + P.length > B.length
  · have hb2 : ¬ (p < B.length ∧ p + P.length ≤ B.length ∧
        ∀ i < P.length, tolower (P.getD i 0) = tolower (B.getD (p + i) 0)) := by
      intro h
      omega
    rw [if_pos hb]
    simp only [hb2, iff_false]
    simp
  · have h1 : p < B.length := by omega
    have h2 : p + P.length ≤ B.length := by omega
    rw [if_neg hb]
    simp only [h1, h2, true_and]
    by_cases hall : ((List.range P.length).all
        (fun i => tolower (P.getD i 0) == tolower (B.getD (p + i) 0))) = true
    · rw [if_pos hall]
      simp only [List.all_eq_true, List.mem_range, beq_iff_eq] at hall
      exact ⟨fun _ => hall, fun _ => by decide⟩
    · rw [if_neg hall]
      simp only [List.all_eq_true, List.mem_range, beq_iff_eq] at hall
      exact ⟨fun h => absurd h (by decide), fun h => absurd h hall⟩

/-- C8: with the case-insensitive flag set the scalar scan reports the span
`(s, e)` exactly when `e = s + |P|`, `s < |B|`, `s + |P| ≤ |B|` and
`tolower(P[i]) = tolower(B[s+i])` for every `i < |P|`; its result (list and
return value) is that of the case-sensitive scan of the lower-cased pattern
over the lower-cased buffer; `"HELLO"` over `"hello HeLLo HELLO"` yields
exactly 3 matches, at starts 0, 6 and 12. -/
theorem search_pattern_ascii_case_insensitive (P B : List Byte) (ci : Int) (hci : ci ≠ 0) :
    (∀ s e : Nat,
        (s, e) ∈ (search_pattern_ascii alloc_ok (literal P ci) B
            matchlist_create).2.matches_.map Match.span ↔
          (e = s + P.length ∧ s < B.length ∧ s + P.length ≤ B.length ∧
            ∀ i < P.length, tolower (P.getD i 0) = tolower (B.getD (s + i) 0))) ∧
      (∀ alloc : Nat → Bool,
        search_pattern_ascii alloc (literal P ci) B matchlist_create
          = search_pattern_ascii alloc (literal (P.map tolower) 0) (B.map tolower)
              matchlist_create) ∧
      (search_pattern_ascii alloc_ok (literal (bytes "HELLO") 1) (bytes "hello HeLLo HELLO")
          matchlist_create).2.matches_.map Match.start = [0, 6, 12] := by
  refine ⟨?_, ?_, by decide⟩
  · intro s e
    rw [ascii_spans]
    simp only [List.mem_map, List.mem_filter, List.mem_range, Prod.mk.injEq]
    constructor
    · rintro ⟨p, ⟨_, hf⟩, rfl, rfl⟩
      exact ⟨rfl, (found_at_case_iff P B ci hci p).1 hf⟩
    · rintro ⟨rfl, h⟩
      exact ⟨s, ⟨h.1, (found_at_case_iff P B ci hci s).2 h⟩, rfl, rfl⟩
  · intro alloc
    unfold search_pattern_ascii
    simp only [ascii_loop_case_eq_lower alloc P B ci hci, List.length_map]

theorem search_pattern_ascii_case_insensitive_witness :
    (1 : Int) ≠ 0 ∧
      search_pattern_ascii alloc_ok (literal (bytes "HELLO") 1) (bytes "hello HeLLo HELLO")
          matchlist_create
        = search_pattern_ascii alloc_ok (literal ((bytes "HELLO").map tolower) 0)
            ((bytes "hello HeLLo HELLO").map tolower) matchlist_create :=
  ⟨by decide,
    (search_pattern_ascii_case_insensitive (bytes "HELLO") (bytes "hello HeLLo HELLO") 1
      (by decide)).2.1 alloc_ok⟩

/-! ## Line numbers of the scalar scan -/

/-- C3 (evaluation): the pattern `"\nb"` over `"a\nb\nb"`. The second match
starts at offset 3, which is on line 2, and is reported with line 1: the
newline at offset 1 began a match and was not counted. -/
theorem search_pattern_ascii_line_after_newline_match :
    (search_pattern_ascii alloc_ok (literal (bytes "\nb") 0) (bytes "a\nb\nb")
        matchlist_create).2.matches_ = [⟨1, 3, 1⟩, ⟨3, 5, 1⟩] ∧
      line_of (bytes "a\nb\nb") 1 = 1 ∧ line_of (bytes "a\nb\nb") 3 = 2 := by
  decide

/-! ## The vectorized kernels -/

theorem simd_lane_skip (alloc : Nat → Bool) (pattern : Pattern) (data : List Byte)
    (vec : Nat → Byte) (pos line_num : Nat) (acc : MatchList) (i : Nat)
    (h : ¬ (data.getD (pos + i) 0 = vec i ∧ confirmed pattern data (pos + i) = true)) :
    simd_lane alloc pattern data vec pos line_num acc i = acc := by
  unfold simd_lane
  by_cases h1 : data.getD (pos + i) 0 = vec i
  · rw [if_pos h1]
    by_cases h2 : pos + i + pattern.pattern_len ≤ data.length
    · rw [if_pos h2]
      by_cases h3 : memcmp data (pos + i) pattern.pattern pattern.pattern_len = 0
      · exact absurd ⟨h1, by simp [confirmed, h2, h3]⟩ h
      · rw [if_neg h3]
    · rw [if_neg h2]
  · rw [if_neg h1]

/-- A lane's outcome depends on the pattern vector only where the pattern is
confirmed. -/
theorem simd_lane_congr (alloc : Nat → Bool) (pattern : Pattern) (data : List Byte)
    (vec vec2 : Nat → Byte) (pos line_num : Nat) (acc : MatchList) (i : Nat)
    (h : confirmed pattern data (pos + i) = true → vec i = vec2 i) :
    simd_lane alloc pattern data vec pos line_num acc i
      = simd_lane alloc pattern data vec2 pos line_num acc i := by
  by_cases hc : confirmed pattern data (pos + i) = true
  · unfold simd_lane
    rw [h hc]
  · rw [simd_lane_skip _ _ _ _ _ _ _ _ (fun hh => hc hh.2),
      simd_lane_skip _ _ _ _ _ _ _ _ (fun hh => hc hh.2)]

theorem simd_block_eq_foldl (alloc : Nat → Bool) (pattern : Pattern) (data : List Byte)
    (vec : Nat → Byte) (width pos line_num : Nat) (list : MatchList) :
    simd_block alloc pattern data vec width pos line_num list
      = (List.range width).foldl (simd_lane alloc pattern data vec pos line_num) list := by
  unfold simd_block
  by_cases hany : (List.range width).any (fun i => data.getD (pos + i) 0 == vec i) = true
  · rw [if_pos hany]
  · rw [if_neg hany]
    have hno : ∀ i ∈ List.range width, ¬ data.getD (pos + i) 0 = vec i := by
      intro i hi heq
      apply hany
      rw [List.any_eq_true]
      exact ⟨i, hi, beq_iff_eq.2 heq⟩
    have hfold : ∀ (l : List Nat), (∀ i ∈ l, ¬ data.getD (pos + i) 0 = vec i) →
        ∀ acc : MatchList, l.foldl (simd_lane alloc pattern data vec pos line_num) acc = acc := by
      intro l
      induction l with
      | nil => intro _ acc; rfl
      | cons i l ih =>
        intro hl acc
        rw [List.foldl_cons,
          simd_lane_skip _ _ _ _ _ _ _ _ (fun hh => hl i (List.mem_cons_self _ _) hh.1)]
        exact ih (fun j hj => hl j (List.mem_cons_of_mem _ hj)) acc
    exact (hfold _ hno list).symm

theorem simd_block_congr (alloc : Nat → Bool) (pattern : Pattern) (data : List Byte)
    (vec vec2 : Nat → Byte) (width pos line_num : Nat) (list : MatchList)
    (h : ∀ i < width, confirmed pattern data (pos + i) = true → vec i = vec2 i) :
    simd_block alloc pattern data vec width pos line_num list
      = simd_block alloc pattern data vec2 width pos line_num list := by
  rw [simd_block_eq_foldl, simd_block_eq_foldl]
  apply List.foldl_ext
  intro acc i hi
  exact simd_lane_congr _ _ _ _ _ _ _ _ _ (h i (List.mem_range.1 hi))

theorem simd_block_loop_congr (alloc : Nat → Bool) (pattern : Pattern) (data : List Byte)
    (vec vec2 : Nat → Byte) (width : Nat)
    (h : ∀ q i, i < width → confirmed pattern data (q + i) = true → vec i = vec2 i) :
    ∀ (fuel pos line_num : Nat) (list : MatchList),
      simd_block_loop alloc pattern data vec width fuel pos line_num list
        = simd_block_loop alloc pattern data vec2 width fuel pos line_num list := by
  intro fuel
  induction fuel with
  | zero => intro pos line_num list; rfl
  | succ fuel ih =>
    intro pos line_num list
    rw [simd_block_loop, simd_block_loop, ih,
      simd_block_congr alloc pattern data vec vec2 width pos line_num list (h pos)]

/-- The result of a kernel depends on the bytes that follow the pattern only
through the lanes at which the pattern is confirmed somewhere in the buffer. -/
theorem search_pattern_simd_congr (width : Nat) (alloc : Nat → Bool) (b1 b2 : Nat → Byte)
    (pattern : Pattern) (data : List Byte) (list : MatchList)
    (h : ∀ q i, i < width → confirmed pattern data (q + i) = true →
      load_pattern pattern b1 i = load_pattern pattern b2 i) :
    search_pattern_simd width alloc b1 pattern data list
      = search_pattern_simd width alloc b2 pattern data list := by
  unfold search_pattern_simd
  rw [simd_block_loop_congr alloc pattern data _ _ width h]

/-- Lanes up to the terminating NUL do not depend on what follows the string. -/
theorem load_pattern_le (pattern : Pattern) (b1 b2 : Nat → Byte) (i : Nat)
    (h : i ≤ pattern.pattern.length) : load_pattern pattern b1 i = load_pattern pattern b2 i := by
  unfold load_pattern
  by_cases h1 : i < pattern.pattern.length
  · rw [if_pos h1, if_pos h1]
  · have h2 : i = pattern.pattern.length := by omega
    rw [if_neg h1, if_neg h1, if_pos h2, if_pos h2]

/-- When every confirmed offset of the buffer is at most `|P|`, a kernel's
result does not depend on the bytes that follow the pattern string. -/
theorem search_pattern_simd_beyond (width : Nat) (P B : List Byte)
    (hq : ∀ q < B.length + 1, confirmed (literal P 0) B q = true → q ≤ P.length)
    (alloc : Nat → Bool) (beyond : Nat → Byte) (list : MatchList) :
    search_pattern_simd width alloc beyond (literal P 0) B list
      = search_pattern_simd width alloc (fun _ => 0) (literal P 0) B list := by
  apply search_pattern_simd_congr
  intro q i _ hc
  apply load_pattern_le
  have hlt : q + i < B.length + 1 := by
    simp only [confirmed, Bool.and_eq_true, decide_eq_true_eq] at hc
    omega
  have := hq (q + i) hlt hc
  have hlen : (literal P 0).pattern.length = P.length := rfl
  omega

/-- C2 (evaluation): the literal `"ab"` over `"xab"` padded with `x` to one
block. The scalar scan reports the occurrence at offset 1; both kernels report
nothing, whatever bytes follow the pattern in memory: lane 1 of the pattern
vector holds `b`, the buffer holds `a` there, so the candidate is never
confirmed. -/
theorem simd_kernels_miss_unaligned_match (beyond : Nat → Byte) :
    search_pattern_ascii alloc_ok (literal (bytes "ab") 0) (bytes "xabxxxxxxxxxxxxx")
        matchlist_create = (1, ⟨[⟨1, 3, 1⟩], 1024⟩) ∧
      search_pattern_sse42 alloc_ok beyond (literal (bytes "ab") 0) (bytes "xabxxxxxxxxxxxxx")
        matchlist_create = (0, ⟨[], 1024⟩) ∧
      search_pattern_ascii alloc_ok (literal (bytes "ab") 0)
        (bytes "xabxxxxxxxxxxxxxxxxxxxxxxxxxxxxx") matchlist_create = (1, ⟨[⟨1, 3, 1⟩], 1024⟩) ∧
      search_pattern_avx2 alloc_ok beyond (literal (bytes "ab") 0)
        (bytes "xabxxxxxxxxxxxxxxxxxxxxxxxxxxxxx") matchlist_create = (0, ⟨[], 1024⟩) := by
  refine ⟨by decide, ?_, by decide, ?_⟩
  · unfold search_pattern_sse42
    rw [search_pattern_simd_beyond 16 _ _ (by decide)]
    decide
  · unfold search_pattern_avx2
    rw [search_pattern_simd_beyond 32 _ _ (by decide)]
    decide

/-! ## The dispatcher -/

theorem search_pattern_literal_beyond (avx2 sse42 : Bool) (P B : List Byte)
    (hq : ∀ q < B.length + 1, confirmed (literal P 0) B q = true → q ≤ P.length)
    (alloc : Nat → Bool) (beyond : Nat → Byte) (fuel : Nat) (list : MatchList) :
    search_pattern avx2 sse42 alloc beyond fuel (literal P 0) B list
      = search_pattern avx2 sse42 alloc (fun _ => 0) 0 (literal P 0) B list := by
  have htype : (literal P 0).type = MatchType.MATCH_ASCII := rfl
  unfold search_pattern search_pattern_avx2 search_pattern_sse42
  simp only [search_pattern_simd_beyond _ P B hq alloc beyond, htype, if_true]

/-- C9 (evaluation): the literal `"ab"` over `"abab"` padded with `x` to 32
bytes, on a fresh MatchSet. The build without vectorized paths always runs the
reference strategy of the pattern's type, here the two matches of the scalar
scan; every build with a vectorized path returns 1 with
the match at offset 0 only, whatever bytes follow the pattern in memory: the
kernel that ran found one match, so the dispatcher returned its result. -/
theorem search_pattern_depends_on_build (beyond : Nat → Byte) (fuel : Nat) :
    (∀ (alloc : Nat → Bool) (pattern : Pattern) (data : List Byte) (list : MatchList),
        search_pattern false false alloc beyond fuel pattern data list
          = if pattern.type = MatchType.MATCH_ASCII then
              some (search_pattern_ascii alloc pattern data list)
            else search_pattern_regex alloc fuel pattern data list) ∧
      search_pattern_ascii alloc_ok (literal (bytes "ab") 0)
        (bytes "ababxxxxxxxxxxxxxxxxxxxxxxxxxxxx") matchlist_create
        = (1, ⟨[⟨0, 2, 1⟩, ⟨2, 4, 1⟩], 1024⟩) ∧
      search_pattern false false alloc_ok beyond fuel (literal (bytes "ab") 0)
        (bytes "ababxxxxxxxxxxxxxxxxxxxxxxxxxxxx") matchlist_create
        = some (1, ⟨[⟨0, 2, 1⟩, ⟨2, 4, 1⟩], 1024⟩) ∧
      search_pattern true true alloc_ok beyond fuel (literal (bytes "ab") 0)
        (bytes "ababxxxxxxxxxxxxxxxxxxxxxxxxxxxx") matchlist_create
        = some (1, ⟨[⟨0, 2, 1⟩], 1024⟩) ∧
      search_pattern true false alloc_ok beyond fuel (literal (bytes "ab") 0)
        (bytes "ababxxxxxxxxxxxxxxxxxxxxxxxxxxxx") matchlist_create
        = some (1, ⟨[⟨0, 2, 1⟩], 1024⟩) ∧
      search_pattern false true alloc_ok beyond fuel (literal (bytes "ab") 0)
        (bytes "ababxxxxxxxxxxxxxxxxxxxxxxxxxxxx") matchlist_create
        = some (1, ⟨[⟨0, 2, 1⟩], 1024⟩) := by
  have hq : ∀ q < (bytes "ababxxxxxxxxxxxxxxxxxxxxxxxxxxxx").length + 1,
      confirmed (literal (bytes "ab") 0) (bytes "ababxxxxxxxxxxxxxxxxxxxxxxxxxxxx") q = true →
        q ≤ (bytes "ab").length := by decide
  refine ⟨?_, by decide, ?_, ?_, ?_, ?_⟩
  · intro alloc pattern data list
    simp [search_pattern]
  all_goals
    rw [search_pattern_literal_beyond _ _ _ _ hq]
    decide

/-! ## The regex scan -/

/-- A zero-width match at a cursor `pos > 0` leaves the cursor where it is:
from there the loop never reaches its exit. -/
theorem regex_loop_stuck (alloc : Nat → Bool) (pattern : Pattern) (data : List Byte)
    (pos : Nat) (h0 : 0 < pos) (hle : pos ≤ data.length) (h64 : pos < 2 ^ 64)
    (hre : pattern.regex_compiled (cstring_at data pos) = ⟨0, 0, 0⟩) :
    ∀ (fuel line_num : Nat) (list : MatchList),
      search_pattern_regex_loop alloc pattern data fuel pos line_num list = none := by
  intro fuel
  induction fuel with
  | zero => intro line_num list; rfl
  | succ fuel ih =>
    intro line_num list
    have hsz : to_size_t ((pos : Int) + 0) = pos := by
      unfold to_size_t
      have h1 : ((pos : Int) + 0) % 2 ^ 64 = (pos : Int) := by
        rw [Int.add_zero]
        apply Int.emod_eq_of_lt
        · omega
        · exact_mod_cast h64
      rw [h1]
      simp
    have hne : to_size_t ((pos : Int) + 0) ≠ 0 := by omega
    rw [search_pattern_regex_loop, if_pos hle]
    simp only [hre]
    rw [if_neg (by decide), if_pos hne, hsz]
    exact ih _ _

/-- C4 (evaluation): an engine that matches the empty string at the start of
every suffix (as `x*` does on a text without `x`) over the buffer `"ab"`. The
first iteration moves the cursor from 0 to 1; at cursor 1 the match end is 1,
which is non-zero, so the cursor stays at 1 and the loop never exits: no
amount of fuel yields a result. -/
theorem search_pattern_regex_zero_width_diverges (fuel : Nat) :
    search_pattern_regex alloc_ok fuel (regex_pattern (bytes "x*") regex_empty_match)
      (bytes "ab") matchlist_create = none := by
  unfold search_pattern_regex
  rw [if_neg (by decide)]
  cases fuel with
  | zero => rfl
  | succ fuel =>
    rw [search_pattern_regex_loop, if_pos (by decide)]
    have hre : (regex_pattern (bytes "x*") regex_empty_match).regex_compiled
        (cstring_at (bytes "ab") 0) = ⟨0, 0, 0⟩ := rfl
    simp only [hre]
    rw [if_neg (by decide), if_neg (by decide),
      regex_loop_stuck alloc_ok _ (bytes "ab") (0 + 1) (by decide) (by decide) (by decide) rfl]
    rfl

/-- C5 (evaluation): an engine for the expression `b` over `"a\nb"`. The one
match starts at offset 2, which is on line 2, and is reported with line 1. -/
theorem search_pattern_regex_line_constant :
    search_pattern_regex alloc_ok 2 (regex_pattern (bytes "b") regex_first_b) (bytes "a\nb")
        matchlist_create = some (1, ⟨[⟨2, 3, 1⟩], 1024⟩) ∧
      line_of (bytes "a\nb") 2 = 2 := by
  decide

/-! ## Construction -/

/-- C6 (counterexample): `pattern_create("", 0, 0)` returns a literal
`Pattern` of length 0, not NULL. -/
theorem pattern_create_empty_not_rejected :
    (pattern_create (fun _ _ => none) (some []) 0 0).map
      (fun p => (p.pattern, p.pattern_len, p.type, p.is_regex_compiled))
      = some ([], 0, MatchType.MATCH_ASCII, 0) := by
  decide

/-- C6 (amended): for the empty string `pattern_create` returns NULL exactly
when `use_regex` is non-zero and the engine's compile step fails on it; with
`use_regex = 0` it returns, for every `case_insensitive`, the literal
`Pattern` of the empty string, whose `pattern_len` is 0. -/
theorem pattern_create_empty (regcomp : List Byte → Nat → Option regex_t)
    (case_insensitive use_regex : Int) :
    (pattern_create regcomp (some []) case_insensitive use_regex = none ↔
        (use_regex ≠ 0 ∧
          regcomp [] (if case_insensitive ≠ 0 then REG_EXTENDED ||| REG_ICASE else REG_EXTENDED)
            = none)) ∧
      pattern_create regcomp (some []) case_insensitive 0 = some (literal [] case_insensitive) ∧
      (literal [] case_insensitive).pattern_len = 0 := by
  refine ⟨?_, rfl, rfl⟩
  unfold pattern_create
  by_cases hre : use_regex = 0
  · simp [hre]
  · simp only [ne_eq, hre, not_false_eq_true, if_true, true_and]
    cases regcomp [] (if case_insensitive ≠ 0 then REG_EXTENDED ||| REG_ICASE else REG_EXTENDED)
      <;> simp

/-! ## The task queue -/

theorem taskqueue_add_ok (queue : TaskQueue) (pattern : Pattern) (file : List Byte)
    (file_index : Int) :
    (taskqueue_add alloc_ok queue pattern file file_index).2.tasks
        = queue.tasks ++ [⟨pattern, file, matchlist_create, file_index⟩] ∧
      (taskqueue_add alloc_ok queue pattern file file_index).2.next_task = queue.next_task := by
  unfold taskqueue_add
  split <;> simp [alloc_ok]

theorem enqueue_fold (pattern : Pattern) (files : List (List Byte)) :
    ∀ (l : List Nat) (queue : TaskQueue),
      (l.foldl (fun queue i =>
          (taskqueue_add alloc_ok queue pattern (files.getD i []) (to_int i)).2) queue).tasks
        = queue.tasks ++ l.map (fun i => ⟨pattern, files.getD i [], matchlist_create, to_int i⟩) ∧
      (l.foldl (fun queue i =>
          (taskqueue_add alloc_ok queue pattern (files.getD i []) (to_int i)).2) queue).next_task
        = queue.next_task := by
  intro l
  induction l with
  | nil => intro queue; simp
  | cons i l ih =>
    intro queue
    rw [List.foldl_cons]
    obtain ⟨h1, h2⟩ := ih (taskqueue_add alloc_ok queue pattern (files.getD i []) (to_int i)).2
    obtain ⟨h3, h4⟩ := taskqueue_add_ok queue pattern (files.getD i []) (to_int i)
    rw [h1, h2, h3, h4]
    simp

theorem enqueue_files_count (pattern : Pattern) (files : List (List Byte)) :
    (enqueue_files pattern files).count = files.length ∧
      (enqueue_files pattern files).next_task = 0 := by
  unfold enqueue_files TaskQueue.count
  obtain ⟨h1, h2⟩ := enqueue_fold pattern files (List.range files.length) taskqueue_create
  rw [h1, h2]
  simp [taskqueue_create]

/-- A run of claims on a queue whose cursor is within its count: the first
`count - next_task` calls return the slots from the cursor on, one after the
other, every later call returns NULL; only the cursor changes. -/
theorem claim_trace_spec : ∀ (sched : List Nat) (queue : TaskQueue),
    queue.next_task ≤ queue.count →
      (claim_trace sched queue).1.map Prod.snd
          = (List.range' queue.next_task
              (min sched.length (queue.count - queue.next_task))).map some
            ++ List.replicate (sched.length - (queue.count - queue.next_task)) none ∧
        (claim_trace sched queue).1.map Prod.fst = sched ∧
        (claim_trace sched queue).2.next_task
          = queue.next_task + min sched.length (queue.count - queue.next_task) ∧
        (claim_trace sched queue).2.tasks = queue.tasks ∧
        (claim_trace sched queue).2.capacity = queue.capacity := by
  intro sched
  induction sched with
  | nil => intro queue _; simp [claim_trace]
  | cons w sched ih =>
    intro queue hle
    unfold claim_trace
    by_cases hge : queue.next_task ≥ queue.count
    · have heq : queue.count - queue.next_task = 0 := by omega
      have hstep : taskqueue_get_next queue = (none, queue) := by
        unfold taskqueue_get_next
        rw [if_pos hge]
      obtain ⟨h1, h2, h3, h4, h5⟩ := ih queue hle
      simp only [hstep, List.map_cons, h1, h2, h3, h4, h5, heq]
      simp [List.replicate_succ]
    · have hstep : taskqueue_get_next queue
          = (some queue.next_task, { queue with next_task := queue.next_task + 1 }) := by
        unfold taskqueue_get_next
        rw [if_neg hge]
      have hle2 : ({ queue with next_task := queue.next_task + 1 } : TaskQueue).next_task
          ≤ ({ queue with next_task := queue.next_task + 1 } : TaskQueue).count := by
        show queue.next_task + 1 ≤ queue.count
        omega
      obtain ⟨h1, h2, h3, h4, h5⟩ := ih { queue with next_task := queue.next_task + 1 } hle2
      have hc : ({ queue with next_task := queue.next_task + 1 } : TaskQueue).count
          = queue.count := rfl
      simp only [hstep, List.map_cons, h1, h2, h3, h4, h5, hc]
      have hmin : min (sched.length + 1) (queue.count - queue.next_task)
          = min sched.length (queue.count - (queue.next_task + 1)) + 1 := by omega
      have hrep : sched.length + 1 - (queue.count - queue.next_task)
          = sched.length - (queue.count - (queue.next_task + 1)) := by omega
      refine ⟨?_, trivial, ?_, trivial, trivial⟩
      · rw [List.length_cons, hmin, hrep, List.range'_succ]
        simp
      · rw [List.length_cons, hmin]
        omega

/-- C10: claim-once dispensing. For the queue built from `n` files and any run
of `taskqueue_get_next` calls (each an atomic step, issued by any workers in
any order): the cursor starts at 0; the calls return slot 0, 1, ..., n-1 in
this order and then only NULL; after the run the cursor is `min(calls, n)`,
so it grew by one per successful claim, never went back and never exceeds
`count`; the tasks of the queue are untouched; and the call after the run
returns NULL and leaves the queue unchanged when `n` calls or more were made
(otherwise it claims the next slot). -/
theorem taskqueue_claim_once (pattern : Pattern) (files : List (List Byte)) (sched : List Nat) :
    (enqueue_files pattern files).next_task = 0 ∧
      (enqueue_files pattern files).count = files.length ∧
      (claim_trace sched (enqueue_files pattern files)).1.map Prod.snd
        = (List.range (min sched.length files.length)).map some
          ++ List.replicate (sched.length - files.length) none ∧
      (claim_trace sched (enqueue_files pattern files)).1.map Prod.fst = sched ∧
      (claim_trace sched (enqueue_files pattern files)).2.next_task
        = min sched.length files.length ∧
      (claim_trace sched (enqueue_files pattern files)).2.tasks
        = (enqueue_files pattern files).tasks ∧
      taskqueue_get_next (claim_trace sched (enqueue_files pattern files)).2
        = (if files.length ≤ sched.length then
            (none, (claim_trace sched (enqueue_files pattern files)).2)
          else
            (some sched.length,
              { (claim_trace sched (enqueue_files pattern files)).2 with
                next_task := sched.length + 1 })) := by
  obtain ⟨hc, hn⟩ := enqueue_files_count pattern files
  have hle : (enqueue_files pattern files).next_task ≤ (enqueue_files pattern files).count := by
    omega
  obtain ⟨h1, h2, h3, h4, _⟩ := claim_trace_spec sched _ hle
  have hnext : (claim_trace sched (enqueue_files pattern files)).2.next_task
      = min sched.length files.length := by
    rw [h3, hn, hc]
    simp
  have hcount : (claim_trace sched (enqueue_files pattern files)).2.count = files.length := by
    unfold TaskQueue.count
    rw [h4]
    exact hc
  refine ⟨hn, hc, ?_, h2, hnext, h4, ?_⟩
  · rw [h1, hn, hc, List.range_eq_range']
    simp
  · unfold taskqueue_get_next
    rw [hnext, hcount]
    by_cases hd : files.length ≤ sched.length
    · rw [if_pos hd, if_pos (by omega)]
    · rw [if_neg hd, if_neg (by omega)]
      have : min sched.length files.length = sched.length := by omega
      rw [this]

/-! ## Appending to a MatchSet -/

theorem matchlist_add_ok_ret (list : MatchList) (s e n : Nat) :
    (matchlist_add alloc_ok list s e n).1 = 1 := by
  unfold matchlist_add
  split <;> simp [alloc_ok]

theorem matchlist_add_all_ok : ∀ (ts : List (Nat × Nat × Nat)) (list : MatchList),
    (matchlist_add_all alloc_ok list ts).1 = List.replicate ts.length 1 ∧
      (matchlist_add_all alloc_ok list ts).2.matches_
        = list.matches_ ++ ts.map (fun t => ⟨t.1, t.2.1, t.2.2⟩) := by
  intro ts
  induction ts with
  | nil => intro list; simp [matchlist_add_all]
  | cons t ts ih =>
    intro list
    obtain ⟨h1, h2⟩ := ih (matchlist_add alloc_ok list t.1 t.2.1 t.2.2).2
    unfold matchlist_add_all
    simp only [h1, h2, matchlist_add_ok, matchlist_add_ok_ret]
    simp [List.replicate_succ]

theorem matchlist_add_extends (alloc : Nat → Bool) (list : MatchList) (s e n : Nat) :
    ∃ t, (matchlist_add alloc list s e n).2.matches_ = list.matches_ ++ t := by
  unfold matchlist_add
  by_cases h1 : list.count ≥ list.capacity
  · rw [if_pos h1]
    by_cases h2 : alloc (list.capacity * 2) = true
    · exact ⟨[⟨s, e, n⟩], by simp [h2]⟩
    · exact ⟨[], by simp [h2]⟩
  · rw [if_neg h1]
    exact ⟨[⟨s, e, n⟩], rfl⟩

/-- C14: appending keeps insertion order. For every sequence of triples added
with `matchlist_add` to a list fresh from `matchlist_create` (no allocation
failure, any length): every call returns 1, the final count is the number of
triples, the stored matches are the triples in the order of the calls; an
append (with any allocator, on any list) leaves the elements stored earlier
as a prefix of the result; after `(10,15,5)` and 2000 further triples the
count is 2001 and element 0 is still `(10,15,5)`. -/
theorem matchlist_add_keeps_order (ts : List (Nat × Nat × Nat)) :
    (matchlist_add_all alloc_ok matchlist_create ts).1 = List.replicate ts.length 1 ∧
      (matchlist_add_all alloc_ok matchlist_create ts).2.count = ts.length ∧
      (matchlist_add_all alloc_ok matchlist_create ts).2.matches_
        = ts.map (fun t => ⟨t.1, t.2.1, t.2.2⟩) ∧
      (∀ (alloc : Nat → Bool) (list : MatchList) (s e n : Nat),
        ∃ t, (matchlist_add alloc list s e n).2.matches_ = list.matches_ ++ t) ∧
      (matchlist_add_all alloc_ok matchlist_create
        ((10, 15, 5) :: (List.range 2000).map (fun i => (i, i + 5, i)))).2.count = 2001 ∧
      (matchlist_add_all alloc_ok matchlist_create
        ((10, 15, 5) :: (List.range 2000).map (fun i => (i, i + 5, i)))).2.matches_.head?
          = some ⟨10, 15, 5⟩ := by
  have hgen : ∀ ts : List (Nat × Nat × Nat),
      (matchlist_add_all alloc_ok matchlist_create ts).2.matches_
        = ts.map (fun t => ⟨t.1, t.2.1, t.2.2⟩) := by
    intro ts
    rw [(matchlist_add_all_ok ts matchlist_create).2]
    rfl
  refine ⟨(matchlist_add_all_ok ts matchlist_create).1, ?_, hgen ts,
    matchlist_add_extends, ?_, ?_⟩
  · unfold MatchList.count
    rw [hgen, List.length_map]
  · unfold MatchList.count
    rw [hgen, List.length_map, List.length_cons, List.length_map, List.length_range]
  · rw [hgen, List.map_cons, List.head?_cons]

/-! ## 'Pattern not found' -/

theorem found_at_iff_literal_occurs (P B : List Byte) (ci : Int) (p : Nat) :
    found_at (literal P ci) B p = true ↔ literal_occurs P B ci p := by
  by_cases hci : ci = 0
  · subst hci
    unfold literal_occurs fold_byte
    simp only [ne_eq, not_true_eq_false, if_false]
    unfold found_at pattern_match_ascii
    have hlen : (literal P 0).pattern_len = P.length := rfl
    have hpat : (literal P 0).pattern = P := rfl
    have hc : ¬ (literal P 0).case_insensitive ≠ 0 := by simp [literal]
    rw [if_neg hc, hlen, hpat]
    by_cases hb : p ≥ B.length ∨ p + P.length > B.length
    · rw [if_pos hb]
      constructor
      · intro h
        exact absurd h (by decide)
      · intro h
        omega
    · rw [if_neg hb]
      by_cases hm : memcmp B p P P.length = 0
      · rw [if_pos hm]
        have := (memcmp_eq_zero_iff _ _ _ _).1 hm
        exact ⟨fun _ => ⟨by omega, by omega, fun i hi => (this i hi).symm⟩, fun _ => by decide⟩
      · rw [if_neg hm]
        constructor
        · intro h
          exact absurd h (by decide)
        · intro h
          exact absurd ((memcmp_eq_zero_iff _ _ _ _).2 (fun i hi => (h.2.2 i hi).symm)) hm
  · rw [found_at_case_iff P B ci hci p]
    unfold literal_occurs fold_byte
    simp only [ne_eq, hci, not_false_eq_true, if_true]

theorem ascii_matches_eq_nil_iff (pattern : Pattern) (data : List Byte) :
    (search_pattern_ascii alloc_ok pattern data matchlist_create).2.matches_ = [] ↔
      ∀ p, found_at pattern data p = false := by
  have h := ascii_spans pattern data
  constructor
  · intro hnil p
    rw [hnil, List.map_nil] at h
    have hf : (List.range data.length).filter (found_at pattern data) = [] := by
      have := h.symm
      rwa [List.map_eq_nil_iff] at this
    rw [List.filter_eq_nil_iff] at hf
    by_cases hp : p < data.length
    · have := hf p (List.mem_range.2 hp)
      simpa using this
    · by_contra hne
      have : found_at pattern data p = true := by simpa using hne
      exact hp (found_at_lt _ _ _ this)
  · intro hall
    have hf : (List.range data.length).filter (found_at pattern data) = [] := by
      rw [List.filter_eq_nil_iff]
      intro p _
      simp [hall p]
    rw [hf, List.map_nil, List.map_eq_nil_iff] at h
    exact h

/-- C15: 'pattern not found' is an ordinary empty result. For every literal
`P` (with either flag) and buffer `B` scanned into a fresh MatchSet,
`search_pattern_ascii` returns non-zero exactly when `P` occurs at some offset
of `B`, and exactly when the MatchSet is non-empty afterwards; when `P` occurs
nowhere the return value is 0 and the count is 0; `"xyz"` over
`"hello world"` returns 0 with no match. -/
theorem search_pattern_ascii_not_found (P B : List Byte) (ci : Int) :
    ((search_pattern_ascii alloc_ok (literal P ci) B matchlist_create).1 ≠ 0 ↔
        ∃ p, literal_occurs P B ci p) ∧
      ((search_pattern_ascii alloc_ok (literal P ci) B matchlist_create).1 ≠ 0 ↔
        (search_pattern_ascii alloc_ok (literal P ci) B matchlist_create).2.count > 0) ∧
      ((∃ p, literal_occurs P B ci p) ∨
        ((search_pattern_ascii alloc_ok (literal P ci) B matchlist_create).1 = 0 ∧
          (search_pattern_ascii alloc_ok (literal P ci) B matchlist_create).2.count = 0)) ∧
      search_pattern_ascii alloc_ok (literal (bytes "xyz") 0) (bytes "hello world")
        matchlist_create = (0, ⟨[], 1024⟩) := by
  have hret : (search_pattern_ascii alloc_ok (literal P ci) B matchlist_create).1 ≠ 0 ↔
      (search_pattern_ascii alloc_ok (literal P ci) B matchlist_create).2.count > 0 := by
    unfold search_pattern_ascii
    simp only
    split <;> simp_all
  have hcount : (search_pattern_ascii alloc_ok (literal P ci) B matchlist_create).2.count > 0 ↔
      ∃ p, literal_occurs P B ci p := by
    unfold MatchList.count
    rw [gt_iff_lt, List.length_pos, ne_eq, ascii_matches_eq_nil_iff]
    constructor
    · intro h
      by_contra hno
      apply h
      intro p
      by_contra hp
      have : found_at (literal P ci) B p = true := by simpa using hp
      exact hno ⟨p, (found_at_iff_literal_occurs P B ci p).1 this⟩
    · rintro ⟨p, hp⟩ hall
      have := (found_at_iff_literal_occurs P B ci p).2 hp
      rw [hall p] at this
      exact absurd this (by decide)
  refine ⟨hret.trans hcount, hret, ?_, by decide⟩
  by_cases hex : ∃ p, literal_occurs P B ci p
  · exact Or.inl hex
  · right
    have h1 : ¬ (search_pattern_ascii alloc_ok (literal P ci) B matchlist_create).2.count > 0 :=
      fun h => hex (hcount.1 h)
    have h2 : ¬ (search_pattern_ascii alloc_ok (literal P ci) B matchlist_create).1 ≠ 0 :=
      fun h => h1 (hret.1 h)
    exact ⟨by simpa using h2, by omega⟩

/-! ## Construction of literal and regex patterns -/

/-- C16: literal construction succeeds. For every string `s` (in particular
every non-empty one) and every flag `ci`, `pattern_create(s, ci, 0)` returns a
`Pattern` whose bytes are `s`, whose `pattern_len` is the length of `s`, whose
`case_insensitive` is `ci`, whose type is `MATCH_ASCII` and whose
`is_regex_compiled` is 0; `pattern_create("hello", 0, 0)` has pattern
`"hello"` and `pattern_len` 5. -/
theorem pattern_create_literal (regcomp : List Byte → Nat → Option regex_t)
    (s : List Byte) (ci : Int) :
    pattern_create regcomp (some s) ci 0 = some (literal s ci) ∧
      (literal s ci).pattern = s ∧
      (literal s ci).pattern_len = s.length ∧
      (literal s ci).case_insensitive = ci ∧
      (literal s ci).type = MatchType.MATCH_ASCII ∧
      (literal s ci).is_regex_compiled = 0 ∧
      (pattern_create regcomp (some (bytes "hello")) 0 0).map
        (fun p => (p.pattern, p.pattern_len)) = some (bytes "hello", 5) := by
  exact ⟨rfl, rfl, rfl, rfl, rfl, rfl, rfl⟩

/-- C17: regex construction. `pattern_create(s, ci, 1)` hands `s` to the
engine's compile step with flags in which `REG_EXTENDED` is always set and
`REG_ICASE` is set exactly when `ci` is non-zero; it returns NULL exactly when
that step fails, and otherwise the `Pattern` with the compiled expression,
type `MATCH_REGEX` and `is_regex_compiled = 1`. -/
theorem pattern_create_regex (regcomp : List Byte → Nat → Option regex_t)
    (s : List Byte) (ci : Int) :
    pattern_create regcomp (some s) ci 1
        = (regcomp s (if ci ≠ 0 then REG_EXTENDED ||| REG_ICASE else REG_EXTENDED)).map
            (fun re => ⟨s, s.length, ci, MatchType.MATCH_REGEX, re, 1⟩) ∧
      (if ci ≠ 0 then REG_EXTENDED ||| REG_ICASE else REG_EXTENDED) &&& REG_EXTENDED
        = REG_EXTENDED ∧
      ((if ci ≠ 0 then REG_EXTENDED ||| REG_ICASE else REG_EXTENDED) &&& REG_ICASE ≠ 0 ↔
        ci ≠ 0) ∧
      (pattern_create regcomp (some s) ci 1 = none ↔
        regcomp s (if ci ≠ 0 then REG_EXTENDED ||| REG_ICASE else REG_EXTENDED) = none) := by
  have hmain : pattern_create regcomp (some s) ci 1
      = (regcomp s (if ci ≠ 0 then REG_EXTENDED ||| REG_ICASE else REG_EXTENDED)).map
          (fun re => ⟨s, s.length, ci, MatchType.MATCH_REGEX, re, 1⟩) := by
    unfold pattern_create
    simp only [ne_eq, one_ne_zero, not_false_eq_true, if_true]
    cases regcomp s (if ¬ci = 0 then REG_EXTENDED ||| REG_ICASE else REG_EXTENDED) <;> rfl
  refine ⟨hmain, ?_, ?_, ?_⟩
  · by_cases hci : ci = 0
    · simp only [ne_eq, hci, not_true_eq_false, if_false]
      decide
    · simp only [ne_eq, hci, not_false_eq_true, if_true]
      decide
  · by_cases hci : ci = 0
    · simp only [ne_eq, hci, not_true_eq_false, if_false, iff_false, not_not]
      decide
    · simp only [ne_eq, hci, not_false_eq_true, if_true, iff_true]
      decide
  · rw [hmain, Option.map_eq_none']

/-! ## Enqueueing -/

theorem taskqueue_add_all_spec (alloc : Nat → Bool) :
    ∀ (items : List (Pattern × List Byte × Int)) (queue : TaskQueue),
      (taskqueue_add_all alloc queue items).2.tasks
          = queue.tasks ++
            ((items.zip (taskqueue_add_all alloc queue items).1).filter
              (fun x => decide (x.2 ≠ 0))).map
              (fun x => ⟨x.1.1, x.1.2.1, matchlist_create, x.1.2.2⟩) ∧
        (taskqueue_add_all alloc queue items).2.next_task = queue.next_task := by
  intro items
  induction items with
  | nil => intro queue; simp [taskqueue_add_all]
  | cons t ts ih =>
    intro queue
    obtain ⟨h1, h2⟩ := ih (taskqueue_add alloc queue t.1 t.2.1 t.2.2).2
    unfold taskqueue_add_all
    simp only [List.zip_cons_cons, List.filter_cons, h1, h2]
    unfold taskqueue_add
    by_cases hc : queue.count ≥ queue.capacity
    · by_cases ha : alloc (if queue.capacity = 0 then 16 else queue.capacity * 2) = true
      · simp [hc, ha]
      · simp [hc, ha]
    · simp [hc]

theorem taskqueue_add_all_ok :
    ∀ (items : List (Pattern × List Byte × Int)) (queue : TaskQueue),
      (taskqueue_add_all alloc_ok queue items).1 = List.replicate items.length 1 ∧
        (taskqueue_add_all alloc_ok queue items).2.tasks
          = queue.tasks ++ items.map (fun t => ⟨t.1, t.2.1, matchlist_create, t.2.2⟩) := by
  intro items
  induction items with
  | nil => intro queue; simp [taskqueue_add_all]
  | cons t ts ih =>
    intro queue
    obtain ⟨h1, h2⟩ := ih (taskqueue_add alloc_ok queue t.1 t.2.1 t.2.2).2
    have h3 : (taskqueue_add alloc_ok queue t.1 t.2.1 t.2.2).1 = 1 := by
      unfold taskqueue_add
      split <;> simp [alloc_ok]
    unfold taskqueue_add_all
    simp only [h1, h2, h3, (taskqueue_add_ok queue t.1 t.2.1 t.2.2).1]
    simp [List.replicate_succ]

/-- C18: enqueue appends and touches nothing else. A queue from
`taskqueue_create` has count 0 and cursor 0. When `taskqueue_add` returns
non-zero the tasks are the old tasks followed by one task with the given
pattern, file and `file_index` and a fresh MatchSet (count 0), so the count
grew by one and every earlier task is unchanged; when it returns 0 the tasks
are the old ones; the cursor `next_task` is never changed. After
any sequence of enqueues the queue holds, after the tasks it had, the tasks of
the successful calls in the order of the calls; without allocation failure
every call succeeds and a queue from `taskqueue_create` holds exactly the
enqueued tasks in enqueue order. -/
theorem taskqueue_add_frame (alloc : Nat → Bool) (queue : TaskQueue) (pattern : Pattern)
    (file : List Byte) (file_index : Int) (items : List (Pattern × List Byte × Int)) :
    taskqueue_create.count = 0 ∧ taskqueue_create.next_task = 0 ∧
      (taskqueue_add alloc queue pattern file file_index).2.tasks
        = (if (taskqueue_add alloc queue pattern file file_index).1 ≠ 0 then
            queue.tasks ++ [⟨pattern, file, matchlist_create, file_index⟩]
          else queue.tasks) ∧
      (taskqueue_add alloc queue pattern file file_index).2.count
        = (if (taskqueue_add alloc queue pattern file file_index).1 ≠ 0 then queue.count + 1
          else queue.count) ∧
      (taskqueue_add alloc queue pattern file file_index).2.next_task = queue.next_task ∧
      matchlist_create.count = 0 ∧
      (taskqueue_add_all alloc queue items).2.tasks
        = queue.tasks ++
          ((items.zip (taskqueue_add_all alloc queue items).1).filter
            (fun x => decide (x.2 ≠ 0))).map
            (fun x => ⟨x.1.1, x.1.2.1, matchlist_create, x.1.2.2⟩) ∧
      (taskqueue_add_all alloc queue items).2.next_task = queue.next_task ∧
      (taskqueue_add_all alloc_ok taskqueue_create items).1 = List.replicate items.length 1 ∧
      (taskqueue_add_all alloc_ok taskqueue_create items).2.tasks
        = items.map (fun t => ⟨t.1, t.2.1, matchlist_create, t.2.2⟩) := by
  refine ⟨rfl, rfl, ?_, ?_, ?_, rfl, (taskqueue_add_all_spec alloc items queue).1,
    (taskqueue_add_all_spec alloc items queue).2, (taskqueue_add_all_ok items _).1, ?_⟩
  · unfold taskqueue_add
    by_cases hc : queue.count ≥ queue.capacity
    · by_cases ha : alloc (if queue.capacity = 0 then 16 else queue.capacity * 2) = true
      · simp [hc, ha]
      · simp [hc, ha]
    · simp [hc]
  · unfold taskqueue_add TaskQueue.count
    by_cases hc : queue.tasks.length ≥ queue.capacity
    · by_cases ha : alloc (if queue.capacity = 0 then 16 else queue.capacity * 2) = true
      · simp [hc, ha]
      · simp [hc, ha]
    · simp [hc]
  · unfold taskqueue_add
    by_cases hc : queue.count ≥ queue.capacity
    · by_cases ha : alloc (if queue.capacity = 0 then 16 else queue.capacity * 2) = true
      · simp [hc, ha]
      · simp [hc, ha]
    · simp [hc]
  · rw [(taskqueue_add_all_ok items _).2]
    rfl

/-! ## Line helpers -/

theorem getD_eq_getElem_byte (l : List Byte) (i : Nat) (h : i < l.length) :
    l.getD i 0 = l[i] := by
  rw [List.getD_eq_getElem?_getD, List.getElem?_eq_getElem h]
  rfl

theorem take_drop_succ (l : List Byte) (i n : Nat) (h : i < l.length) :
    (l.drop i).take (n + 1) = l[i] :: (l.drop (i + 1)).take n := by
  rw [List.drop_eq_getElem_cons h, List.take_succ_cons]

theorem count_lines_loop_spec (data : List Byte) :
    ∀ (fuel i count : Nat), i + fuel ≤ data.length →
      count_lines_loop data fuel i count = count + ((data.drop i).take fuel).count 10 := by
  intro fuel
  induction fuel with
  | zero => intro i count _; simp [count_lines_loop]
  | succ fuel ih =>
    intro i count h
    have hi : i < data.length := by omega
    rw [count_lines_loop, if_pos hi, ih _ _ (by omega), take_drop_succ data i fuel hi,
      List.count_cons, getD_eq_getElem_byte data i hi]
    by_cases hnl : data[i] = 10
    · simp [hnl]
      omega
    · simp [hnl]

theorem get_line_number_loop_spec (data : List Byte) (pos : Nat) (hpos : pos ≤ data.length) :
    ∀ (fuel i line : Nat), i + fuel = pos →
      get_line_number_loop data pos fuel i line = line + ((data.drop i).take fuel).count 10 := by
  intro fuel
  induction fuel with
  | zero => intro i line _; simp [get_line_number_loop]
  | succ fuel ih =>
    intro i line h
    have hi : i < data.length := by omega
    have hc : i < pos ∧ i < data.length := ⟨by omega, hi⟩
    rw [get_line_number_loop, if_pos hc, ih _ _ (by omega), take_drop_succ data i fuel hi,
      List.count_cons, getD_eq_getElem_byte data i hi]
    by_cases hnl : data[i] = 10
    · simp [hnl]
      omega
    · simp [hnl]

/-- C19: `count_lines` is 0 for the empty buffer and otherwise the number of
newline bytes, plus 1 when the last byte is not a newline;
`"line1\nline2\nline3"` has 3 lines and `"line1"` has 1. -/
theorem count_lines_spec (B : List Byte) :
    count_lines B
        = (if B = [] then 0
          else B.count 10 + (if B.getLast? = some 10 then 0 else 1)) ∧
      count_lines (bytes "line1\nline2\nline3") = 3 ∧
      count_lines (bytes "line1") = 1 := by
  refine ⟨?_, by decide, by decide⟩
  unfold count_lines
  by_cases hB : B = []
  · simp [hB]
  · have hlen : B.length ≠ 0 := fun h => hB (List.length_eq_zero.1 h)
    have hpos : B.length > 0 := Nat.pos_of_ne_zero hlen
    have hloop := count_lines_loop_spec B B.length 0 0 (by omega)
    rw [List.drop_zero, List.take_length, Nat.zero_add] at hloop
    have hlast : B.getD (B.length - 1) 0 = 10 ↔ B.getLast? = some 10 := by
      rw [List.getLast?_eq_getElem?, getD_eq_getElem_byte B (B.length - 1) (by omega),
        List.getElem?_eq_getElem (by omega)]
      simp
    rw [if_neg hlen, if_neg hB]
    simp only [hloop]
    by_cases hl : B.getLast? = some 10
    · have h1 : ¬ (B.length > 0 ∧ B.getD (B.length - 1) 0 ≠ 10) := fun h => h.2 (hlast.2 hl)
      rw [if_neg h1, if_pos hl]
      rfl
    · have h1 : B.length > 0 ∧ B.getD (B.length - 1) 0 ≠ 10 := ⟨hpos, fun h => hl (hlast.1 h)⟩
      rw [if_pos h1, if_neg hl]

/-- C20: for an offset `pos < |B|`, `get_line_number` returns one more than
the number of newline bytes in `B[0, pos)`, so a newline byte is on the line
it terminates; in `"line1\nline2\nline3\nline4"` the offsets 0, 6 and 12 are
on lines 1, 2 and 3, and the newline at offset 5 is on line 1. -/
theorem get_line_number_spec (B : List Byte) (pos : Nat) (h : pos < B.length) :
    get_line_number B pos = 1 + (B.take pos).count 10 ∧
      get_line_number (bytes "line1\nline2\nline3\nline4") 0 = 1 ∧
      get_line_number (bytes "line1\nline2\nline3\nline4") 6 = 2 ∧
      get_line_number (bytes "line1\nline2\nline3\nline4") 12 = 3 ∧
      get_line_number (bytes "line1\nline2\nline3\nline4") 5 = 1 := by
  refine ⟨?_, by decide, by decide, by decide, by decide⟩
  unfold get_line_number
  rw [if_neg (by omega), get_line_number_loop_spec B pos (by omega) pos 0 1 (by omega),
    List.drop_zero]

theorem get_line_number_spec_witness :
    6 < (bytes "line1\nline2\nline3\nline4").length ∧
      get_line_number (bytes "line1\nline2\nline3\nline4") 6
        = 1 + ((bytes "line1\nline2\nline3\nline4").take 6).count 10 :=
  ⟨by decide, (get_line_number_spec (bytes "line1\nline2\nline3\nline4") 6 (by decide)).1⟩

/-! ## The worker pool -/

theorem set_pc_same (pc : Nat → WorkerPc) (w : Nat) (x : WorkerPc) : set_pc pc w x w = x := by
  simp [set_pc]

theorem set_pc_ne (pc : Nat → WorkerPc) (w : Nat) (x : WorkerPc) (v : Nat) (h : v ≠ w) :
    set_pc pc w x v = pc v := by
  simp [set_pc, h]

theorem sum_held_set_ge (f : Nat → Nat) (pc : Nat → WorkerPc) (w : Nat) (x : WorkerPc)
    (K : Nat) (h : K ≤ w) : sum_held f (set_pc pc w x) K = sum_held f pc K := by
  unfold sum_held
  congr 1
  apply List.map_congr_left
  intro v hv
  rw [List.mem_range] at hv
  rw [set_pc_ne pc w x v (by omega)]

theorem sum_held_succ (f : Nat → Nat) (pc : Nat → WorkerPc) (K : Nat) :
    sum_held f pc (K + 1) = sum_held f pc K +
      (match held (pc K) with
        | some i => f i
        | none => 0) := by
  unfold sum_held
  rw [List.range_succ, List.map_append, List.sum_append]
  simp

/-- Replacing the position of one thread changes the sum over the held tasks
by the difference of that thread's terms. -/
theorem sum_held_set (f : Nat → Nat) (pc : Nat → WorkerPc) (w : Nat) (x : WorkerPc) :
    ∀ K, w < K →
      sum_held f (set_pc pc w x) K +
          (match held (pc w) with
            | some i => f i
            | none => 0)
        = sum_held f pc K +
          (match held x with
            | some i => f i
            | none => 0) := by
  intro K
  induction K with
  | zero => intro h; omega
  | succ K ih =>
    intro h
    rw [sum_held_succ, sum_held_succ]
    by_cases hw : w = K
    · subst hw
      rw [sum_held_set_ge f pc w x w (Nat.le_refl _), set_pc_same]
      omega
    · have := ih (by omega)
      rw [set_pc_ne pc w x K (fun h => hw h.symm)]
      omega

theorem runinv_claim (env : ScanEnv) (T0 : List SearchTask) (K fs0 tm0 : Nat) (s : RunState)
    (w : Nat) (hw : w < K) (hpc : s.pc w = WorkerPc.claim) (h : RunInv env T0 K fs0 tm0 s) :
    RunInv env T0 K fs0 tm0 (worker_claim w s) := by
  have hsum : ∀ f x, sum_held f (set_pc s.pc w x) K
      = sum_held f s.pc K + (match held x with
        | some i => f i
        | none => 0) := by
    intro f x
    have := sum_held_set f s.pc w x K hw
    rw [hpc] at this
    simpa [held] using this
  by_cases hge : s.queue.next_task ≥ s.queue.count
  · have hs : worker_claim w s = { s with pc := set_pc s.pc w WorkerPc.exited } := by
      unfold worker_claim taskqueue_get_next
      rw [if_pos hge]
    rw [hs]
    have hcount : s.queue.count = T0.length := h.len
    refine ⟨h.len, h.next_le, ?_, ?_, ?_, ?_, ?_, ?_, ?_, ?_⟩
    · intro v i hv
      by_cases hvw : v = w
      · subst hvw
        simp only [set_pc_same] at hv
        exact absurd hv (by simp [held])
      · simp only [set_pc_ne _ _ _ _ hvw] at hv
        exact h.held_lt v i hv
    · intro v1 v2 i h1 h2
      by_cases hv1 : v1 = w
      · subst hv1
        simp only [set_pc_same] at h1
        exact absurd h1 (by simp [held])
      · by_cases hv2 : v2 = w
        · subst hv2
          simp only [set_pc_same] at h2
          exact absurd h2 (by simp [held])
        · simp only [set_pc_ne _ _ _ _ hv1] at h1
          simp only [set_pc_ne _ _ _ _ hv2] at h2
          exact h.held_inj v1 v2 i h1 h2
    · intro v hv
      show set_pc s.pc w WorkerPc.exited v = WorkerPc.claim
      rw [set_pc_ne _ _ _ _ (by omega)]
      exact h.outside v hv
    · intro v hv
      by_cases hvw : v = w
      · show T0.length ≤ s.queue.next_task
        omega
      · simp only [set_pc_ne _ _ _ _ hvw] at hv
        exact h.drained v hv
    · intro i hi
      apply h.fresh i
      rcases hi with hi | ⟨v, hv⟩
      · exact Or.inl hi
      · right
        by_cases hvw : v = w
        · subst hvw
          simp only [set_pc_same] at hv
          exact absurd hv (by simp)
        · simp only [set_pc_ne _ _ _ _ hvw] at hv
          exact ⟨v, hv⟩
    · intro i t0 ht0 hi hno
      apply h.done i t0 ht0 hi
      intro v hv
      by_cases hvw : v = w
      · subst hvw
        rw [hpc] at hv
        exact absurd hv (by simp)
      · apply hno v
        show set_pc s.pc w WorkerPc.exited v = WorkerPc.scan i
        rw [set_pc_ne _ _ _ _ hvw]
        exact hv
    · show s.files_searched + sum_held (fun _ => 1) (set_pc s.pc w WorkerPc.exited) K = _
      rw [hsum]
      exact h.files
    · show s.total_matches + sum_held (scan_count env T0) (set_pc s.pc w WorkerPc.exited) K = _
      rw [hsum]
      exact h.total
  · have hs : worker_claim w s
        = { s with queue := { s.queue with next_task := s.queue.next_task + 1 },
                   pc := set_pc s.pc w (WorkerPc.scan s.queue.next_task) } := by
      unfold worker_claim taskqueue_get_next
      rw [if_neg hge]
    rw [hs]
    have hcount : s.queue.count = T0.length := h.len
    have hlt : s.queue.next_task < T0.length := by omega
    refine ⟨h.len, ?_, ?_, ?_, ?_, ?_, ?_, ?_, ?_, ?_⟩
    · show s.queue.next_task + 1 ≤ T0.length
      omega
    · intro v i hv
      show i < s.queue.next_task + 1
      by_cases hvw : v = w
      · subst hvw
        simp only [set_pc_same, held, Option.some.injEq] at hv
        omega
      · simp only [set_pc_ne _ _ _ _ hvw] at hv
        have := h.held_lt v i hv
        omega
    · intro v1 v2 i h1 h2
      by_cases hv1 : v1 = w
      · by_cases hv2 : v2 = w
        · rw [hv1, hv2]
        · subst hv1
          simp only [set_pc_same, held, Option.some.injEq] at h1
          simp only [set_pc_ne _ _ _ _ hv2] at h2
          have := h.held_lt v2 i h2
          omega
      · by_cases hv2 : v2 = w
        · subst hv2
          simp only [set_pc_same, held, Option.some.injEq] at h2
          simp only [set_pc_ne _ _ _ _ hv1] at h1
          have := h.held_lt v1 i h1
          omega
        · simp only [set_pc_ne _ _ _ _ hv1] at h1
          simp only [set_pc_ne _ _ _ _ hv2] at h2
          exact h.held_inj v1 v2 i h1 h2
    · intro v hv
      show set_pc s.pc w (WorkerPc.scan s.queue.next_task) v = WorkerPc.claim
      rw [set_pc_ne _ _ _ _ (by omega)]
      exact h.outside v hv
    · intro v hv
      show T0.length ≤ s.queue.next_task + 1
      by_cases hvw : v = w
      · subst hvw
        simp only [set_pc_same] at hv
        exact absurd hv (by simp)
      · simp only [set_pc_ne _ _ _ _ hvw] at hv
        have := h.drained v hv
        omega
    · intro i hi
      show s.queue.tasks[i]? = T0[i]?
      apply h.fresh i
      rcases hi with hi | ⟨v, hv⟩
      · left
        have : s.queue.next_task + 1 ≤ i := hi
        omega
      · by_cases hvw : v = w
        · subst hvw
          simp only [set_pc_same, WorkerPc.scan.injEq] at hv
          left
          omega
        · simp only [set_pc_ne _ _ _ _ hvw] at hv
          exact Or.inr ⟨v, hv⟩
    · intro i t0 ht0 hi hno
      show ∃ r, scan_task env t0 = some r ∧ s.queue.tasks[i]? = some { t0 with matches_ := r.2 }
      have hi2 : i < s.queue.next_task + 1 := hi
      have hne : i ≠ s.queue.next_task := by
        intro heq
        apply hno w
        show set_pc s.pc w (WorkerPc.scan s.queue.next_task) w = WorkerPc.scan i
        rw [set_pc_same, heq]
      apply h.done i t0 ht0 (by omega)
      intro v hv
      by_cases hvw : v = w
      · subst hvw
        rw [hpc] at hv
        exact absurd hv (by simp)
      · apply hno v
        show set_pc s.pc w (WorkerPc.scan s.queue.next_task) v = WorkerPc.scan i
        rw [set_pc_ne _ _ _ _ hvw]
        exact hv
    · show s.files_searched + sum_held (fun _ => 1)
        (set_pc s.pc w (WorkerPc.scan s.queue.next_task)) K = fs0 + (s.queue.next_task + 1)
      rw [hsum]
      have := h.files
      simp only [held]
      omega
    · show s.total_matches + sum_held (scan_count env T0)
        (set_pc s.pc w (WorkerPc.scan s.queue.next_task)) K
          = tm0 + ((List.range (s.queue.next_task + 1)).map (scan_count env T0)).sum
      rw [hsum, List.range_succ, List.map_append, List.sum_append]
      have := h.total
      simp only [held, List.map_cons, List.map_nil, List.sum_cons, List.sum_nil]
      omega

theorem runinv_scan (env : ScanEnv) (T0 : List SearchTask) (K fs0 tm0 : Nat) (s : RunState)
    (w i : Nat) (hw : w < K) (hpc : s.pc w = WorkerPc.scan i) (h : RunInv env T0 K fs0 tm0 s) :
    RunInv env T0 K fs0 tm0 (worker_scan env w i s) := by
  have hheld : held (s.pc w) = some i := by rw [hpc]; rfl
  have hi : i < s.queue.next_task := h.held_lt w i hheld
  have hilen : i < s.queue.tasks.length := by
    have := h.next_le
    have := h.len
    omega
  have hfresh : s.queue.tasks[i]? = T0[i]? := h.fresh i (Or.inr ⟨w, hpc⟩)
  have htask : s.queue.tasks[i]? = some s.queue.tasks[i] := List.getElem?_eq_getElem hilen
  unfold worker_scan
  rw [htask]
  simp only
  cases hres : scan_task env s.queue.tasks[i] with
  | none => exact h
  | some r =>
    simp only
    have hsum : ∀ f, sum_held f (set_pc s.pc w (WorkerPc.account i)) K = sum_held f s.pc K := by
      intro f
      have := sum_held_set f s.pc w (WorkerPc.account i) K hw
      rw [hpc] at this
      simp only [held] at this
      omega
    refine ⟨?_, h.next_le, ?_, ?_, ?_, ?_, ?_, ?_, ?_, ?_⟩
    · show (s.queue.tasks.set i _).length = T0.length
      rw [List.length_set]
      exact h.len
    · intro v j hv
      show j < s.queue.next_task
      by_cases hvw : v = w
      · subst hvw
        simp only [set_pc_same, held, Option.some.injEq] at hv
        omega
      · simp only [set_pc_ne _ _ _ _ hvw] at hv
        exact h.held_lt v j hv
    · intro v1 v2 j h1 h2
      by_cases hv1 : v1 = w
      · by_cases hv2 : v2 = w
        · rw [hv1, hv2]
        · subst hv1
          simp only [set_pc_same, held, Option.some.injEq] at h1
          simp only [set_pc_ne _ _ _ _ hv2] at h2
          subst h1
          exact (h.held_inj v2 v1 i h2 hheld).symm
      · by_cases hv2 : v2 = w
        · subst hv2
          simp only [set_pc_same, held, Option.some.injEq] at h2
          simp only [set_pc_ne _ _ _ _ hv1] at h1
          subst h2
          exact h.held_inj v1 v2 i h1 hheld
        · simp only [set_pc_ne _ _ _ _ hv1] at h1
          simp only [set_pc_ne _ _ _ _ hv2] at h2
          exact h.held_inj v1 v2 j h1 h2
    · intro v hv
      show set_pc s.pc w (WorkerPc.account i) v = WorkerPc.claim
      rw [set_pc_ne _ _ _ _ (by omega)]
      exact h.outside v hv
    · intro v hv
      show T0.length ≤ s.queue.next_task
      by_cases hvw : v = w
      · subst hvw
        simp only [set_pc_same] at hv
        exact absurd hv (by simp)
      · simp only [set_pc_ne _ _ _ _ hvw] at hv
        exact h.drained v hv
    · intro j hj
      show (s.queue.tasks.set i _)[j]? = T0[j]?
      have hji : i ≠ j := by
        rcases hj with hj | ⟨v, hv⟩
        · have : s.queue.next_task ≤ j := hj
          omega
        · by_cases hvw : v = w
          · subst hvw
            simp only [set_pc_same] at hv
            exact absurd hv (by simp)
          · simp only [set_pc_ne _ _ _ _ hvw] at hv
            intro heq
            subst heq
            have hv2 : held (s.pc v) = some i := by rw [hv]; rfl
            exact hvw (h.held_inj v w i hv2 hheld)
      rw [List.getElem?_set_ne hji]
      apply h.fresh j
      rcases hj with hj | ⟨v, hv⟩
      · exact Or.inl hj
      · right
        by_cases hvw : v = w
        · subst hvw
          simp only [set_pc_same] at hv
          exact absurd hv (by simp)
        · simp only [set_pc_ne _ _ _ _ hvw] at hv
          exact ⟨v, hv⟩
    · intro j t0 ht0 hj hno
      show ∃ r2, scan_task env t0 = some r2 ∧
        (s.queue.tasks.set i _)[j]? = some { t0 with matches_ := r2.2 }
      by_cases hji : i = j
      · subst hji
        have ht : s.queue.tasks[i] = t0 := by
          have := hfresh
          rw [htask, ht0] at this
          exact Option.some.inj this
        refine ⟨r, ?_, ?_⟩
        · rw [← ht]
          exact hres
        · rw [List.getElem?_set_self hilen, ht]
      · rw [List.getElem?_set_ne hji]
        apply h.done j t0 ht0 hj
        intro v hv
        by_cases hvw : v = w
        · subst hvw
          rw [hpc] at hv
          simp only [WorkerPc.scan.injEq] at hv
          exact hji hv
        · apply hno v
          show set_pc s.pc w (WorkerPc.account i) v = WorkerPc.scan j
          rw [set_pc_ne _ _ _ _ hvw]
          exact hv
    · show s.files_searched + sum_held (fun _ => 1) (set_pc s.pc w (WorkerPc.account i)) K = _
      rw [hsum]
      exact h.files
    · show s.total_matches + sum_held (scan_count env T0)
        (set_pc s.pc w (WorkerPc.account i)) K = _
      rw [hsum]
      exact h.total

theorem runinv_account (env : ScanEnv) (T0 : List SearchTask) (K fs0 tm0 : Nat) (s : RunState)
    (w i : Nat) (hw : w < K) (hpc : s.pc w = WorkerPc.account i)
    (h : RunInv env T0 K fs0 tm0 s) :
    RunInv env T0 K fs0 tm0 (worker_account w i s) := by
  have hheld : held (s.pc w) = some i := by rw [hpc]; rfl
  have hi : i < s.queue.next_task := h.held_lt w i hheld
  have hiT : i < T0.length := by
    have := h.next_le
    omega
  have hnoscan : ∀ v, s.pc v ≠ WorkerPc.scan i := by
    intro v hv
    have hv2 : held (s.pc v) = some i := by rw [hv]; rfl
    have := h.held_inj v w i hv2 hheld
    subst this
    rw [hpc] at hv
    exact absurd hv (by simp)
  obtain ⟨r, hr, htask⟩ := h.done i T0[i] (List.getElem?_eq_getElem hiT) hi hnoscan
  have hcnt : (match s.queue.tasks[i]? with
      | some task => task.matches_.count
      | none => 0) = scan_count env T0 i := by
    rw [htask]
    unfold scan_count
    rw [List.getElem?_eq_getElem hiT]
    simp only [hr]
  have hsum : ∀ f, sum_held f (set_pc s.pc w WorkerPc.claim) K + f i = sum_held f s.pc K := by
    intro f
    have := sum_held_set f s.pc w WorkerPc.claim K hw
    rw [hpc] at this
    simp only [held] at this
    omega
  unfold worker_account
  rw [hcnt]
  refine ⟨h.len, h.next_le, ?_, ?_, ?_, ?_, ?_, ?_, ?_, ?_⟩
  · intro v j hv
    show j < s.queue.next_task
    by_cases hvw : v = w
    · subst hvw
      simp only [set_pc_same] at hv
      exact absurd hv (by simp [held])
    · simp only [set_pc_ne _ _ _ _ hvw] at hv
      exact h.held_lt v j hv
  · intro v1 v2 j h1 h2
    by_cases hv1 : v1 = w
    · subst hv1
      simp only [set_pc_same] at h1
      exact absurd h1 (by simp [held])
    · by_cases hv2 : v2 = w
      · subst hv2
        simp only [set_pc_same] at h2
        exact absurd h2 (by simp [held])
      · simp only [set_pc_ne _ _ _ _ hv1] at h1
        simp only [set_pc_ne _ _ _ _ hv2] at h2
        exact h.held_inj v1 v2 j h1 h2
  · intro v hv
    show set_pc s.pc w WorkerPc.claim v = WorkerPc.claim
    rw [set_pc_ne _ _ _ _ (by omega)]
    exact h.outside v hv
  · intro v hv
    show T0.length ≤ s.queue.next_task
    by_cases hvw : v = w
    · subst hvw
      simp only [set_pc_same] at hv
      exact absurd hv (by simp)
    · simp only [set_pc_ne _ _ _ _ hvw] at hv
      exact h.drained v hv
  · intro j hj
    show s.queue.tasks[j]? = T0[j]?
    apply h.fresh j
    rcases hj with hj | ⟨v, hv⟩
    · exact Or.inl hj
    · right
      by_cases hvw : v = w
      · subst hvw
        simp only [set_pc_same] at hv
        exact absurd hv (by simp)
      · simp only [set_pc_ne _ _ _ _ hvw] at hv
        exact ⟨v, hv⟩
  · intro j t0 ht0 hj hno
    show ∃ r2, scan_task env t0 = some r2 ∧ s.queue.tasks[j]? = some { t0 with matches_ := r2.2 }
    apply h.done j t0 ht0 hj
    intro v hv
    by_cases hvw : v = w
    · subst hvw
      rw [hpc] at hv
      exact absurd hv (by simp)
    · apply hno v
      show set_pc s.pc w WorkerPc.claim v = WorkerPc.scan j
      rw [set_pc_ne _ _ _ _ hvw]
      exact hv
  · show s.files_searched + 1 + sum_held (fun _ => 1) (set_pc s.pc w WorkerPc.claim) K
      = fs0 + s.queue.next_task
    have := hsum (fun _ => 1)
    have := h.files
    omega
  · show s.total_matches + scan_count env T0 i
      + sum_held (scan_count env T0) (set_pc s.pc w WorkerPc.claim) K
        = tm0 + ((List.range s.queue.next_task).map (scan_count env T0)).sum
    have := hsum (scan_count env T0)
    have := h.total
    omega

theorem runinv_step (env : ScanEnv) (T0 : List SearchTask) (K fs0 tm0 : Nat) (s : RunState)
    (w : Nat) (hw : w < K) (h : RunInv env T0 K fs0 tm0 s) :
    RunInv env T0 K fs0 tm0 (search_worker_step env w s) := by
  unfold search_worker_step
  cases hpc : s.pc w with
  | claim => exact runinv_claim env T0 K fs0 tm0 s w hw hpc h
  | scan i => exact runinv_scan env T0 K fs0 tm0 s w i hw hpc h
  | account i => exact runinv_account env T0 K fs0 tm0 s w i hw hpc h
  | exited => exact h

theorem runinv_run (env : ScanEnv) (T0 : List SearchTask) (K fs0 tm0 : Nat) :
    ∀ (sched : List Nat) (s : RunState), RunInv env T0 K fs0 tm0 s →
      RunInv env T0 K fs0 tm0 (run_schedule env K sched s) := by
  intro sched
  induction sched with
  | nil => intro s h; exact h
  | cons w sched ih =>
    intro s h
    unfold run_schedule
    rw [List.foldl_cons]
    apply ih
    by_cases hw : w < K
    · rw [if_pos hw]
      exact runinv_step env T0 K fs0 tm0 s w hw h
    · rw [if_neg hw]
      exact h

theorem runinv_init (env : ScanEnv) (T0 : List SearchTask) (K fs0 tm0 cap : Nat) :
    RunInv env T0 K fs0 tm0 ⟨⟨T0, cap, 0⟩, fs0, tm0, fun _ => WorkerPc.claim⟩ := by
  have hsum : ∀ f, sum_held f (fun _ => WorkerPc.claim) K = 0 := by
    intro f
    unfold sum_held
    simp [held]
  refine ⟨rfl, Nat.zero_le _, ?_, ?_, ?_, ?_, ?_, ?_, ?_, ?_⟩
  · intro w i hv
    exact absurd hv (by simp [held])
  · intro w1 w2 i hv
    exact absurd hv (by simp [held])
  · intro w _
    rfl
  · intro w hv
    exact absurd hv (by simp)
  · intro i _
    rfl
  · intro i t0 _ hi
    exact absurd hi (Nat.not_lt_zero _)
  · show fs0 + sum_held (fun _ => 1) (fun _ => WorkerPc.claim) K = fs0 + 0
    rw [hsum]
  · show tm0 + sum_held (scan_count env T0) (fun _ => WorkerPc.claim) K
      = tm0 + ((List.range 0).map (scan_count env T0)).sum
    rw [hsum]
    simp

/-- What the invariant gives once every thread has returned. -/
theorem runinv_complete (env : ScanEnv) (T0 : List SearchTask) (K fs0 tm0 : Nat) (s : RunState)
    (h : RunInv env T0 K fs0 tm0 s) (hK : 0 < K) (hall : ∀ w < K, s.pc w = WorkerPc.exited) :
    s.files_searched = fs0 + T0.length ∧
      s.total_matches = tm0 + ((List.range T0.length).map (scan_count env T0)).sum ∧
      s.queue.tasks.length = T0.length ∧
      ∀ i (hi : i < T0.length), ∃ r, scan_task env T0[i] = some r ∧
        s.queue.tasks[i]? = some { T0[i] with matches_ := r.2 } := by
  have hnext : s.queue.next_task = T0.length := by
    have h1 := h.drained 0 (hall 0 hK)
    have h2 := h.next_le
    omega
  have hpcs : ∀ w, held (s.pc w) = none := by
    intro w
    by_cases hw : w < K
    · rw [hall w hw]
      rfl
    · rw [h.outside w (by omega)]
      rfl
  have hsum : ∀ f, sum_held f s.pc K = 0 := by
    intro f
    unfold sum_held
    apply List.sum_eq_zero
    intro x hx
    rw [List.mem_map] at hx
    obtain ⟨w, _, hwx⟩ := hx
    rw [hpcs w] at hwx
    exact hwx.symm
  refine ⟨?_, ?_, h.len, ?_⟩
  · have := h.files
    rw [hsum, hnext] at this
    omega
  · have := h.total
    rw [hsum, hnext] at this
    omega
  · intro i hi
    apply h.done i T0[i] (List.getElem?_eq_getElem hi) (by omega)
    intro w hw
    have := hpcs w
    rw [hw] at this
    exact absurd this (by simp [held])

theorem scan_count_of_done (env : ScanEnv) (T0 : List SearchTask) (i : Nat) (hi : i < T0.length)
    (r : Int × MatchList) (hr : scan_task env T0[i] = some r) :
    scan_count env T0 i = r.2.count := by
  unfold scan_count
  rw [List.getElem?_eq_getElem hi]
  simp only [hr]

/-- A run of `search_context_run` that returns: it returns 1, the queue keeps
its tasks with each MatchSet replaced by the result of the task's scan (which
returned), `files_searched` grew by the number of tasks and `total_matches` by
the sum of the counts of the final MatchSets. -/
theorem search_context_run_spec (env : ScanEnv) (context : SearchContext)
    (hK : 0 < context.num_threads) (T0 : List SearchTask) (cap : Nat) (sched : List Nat)
    (r : Int × SearchContext)
    (hrun : search_context_run env context ⟨T0, cap, 0⟩ sched = some r) :
    r.1 = 1 ∧ r.2.files_searched = context.files_searched + T0.length ∧
      ∃ q, r.2.queue = some q ∧ q.tasks.length = T0.length ∧
        r.2.total_matches
          = context.total_matches + (q.tasks.map (fun task => task.matches_.count)).sum ∧
        ∀ i (hi : i < T0.length), ∃ res, scan_task env T0[i] = some res ∧
          q.tasks[i]? = some { T0[i] with matches_ := res.2 } := by
  unfold search_context_run at hrun
  simp only at hrun
  split at hrun
  · rename_i hall
    have hinv := runinv_run env T0 context.num_threads context.files_searched
      context.total_matches sched _
      (runinv_init env T0 context.num_threads context.files_searched context.total_matches cap)
    have hall2 : ∀ w < context.num_threads,
        (run_schedule env context.num_threads sched
          ⟨⟨T0, cap, 0⟩, context.files_searched, context.total_matches,
            fun _ => WorkerPc.claim⟩).pc w = WorkerPc.exited := by
      intro w hw
      rw [List.all_eq_true] at hall
      exact beq_iff_eq.1 (hall w (List.mem_range.2 hw))
    obtain ⟨h1, h2, h3, h4⟩ := runinv_complete env T0 _ _ _ _ hinv hK hall2
    have hlist : (run_schedule env context.num_threads sched
          ⟨⟨T0, cap, 0⟩, context.files_searched, context.total_matches,
            fun _ => WorkerPc.claim⟩).queue.tasks.map (fun task => task.matches_.count)
        = (List.range T0.length).map (scan_count env T0) := by
      apply List.ext_getElem
      · rw [List.length_map, List.length_map, List.length_range, h3]
      · intro i hi1 hi2
        rw [List.length_map, List.length_range] at hi2
        obtain ⟨res, hres, htask⟩ := h4 i hi2
        rw [List.getElem_map, List.getElem_map, List.getElem_range,
          scan_count_of_done env T0 i hi2 res hres]
        have hlt : i < (run_schedule env context.num_threads sched
            ⟨⟨T0, cap, 0⟩, context.files_searched, context.total_matches,
              fun _ => WorkerPc.claim⟩).queue.tasks.length := by omega
        rw [List.getElem?_eq_getElem hlt] at htask
        rw [Option.some.inj htask]
    have hr := (Option.some.inj hrun).symm
    subst hr
    refine ⟨rfl, h1, _, rfl, h3, ?_, h4⟩
    show (run_schedule env context.num_threads sched
          ⟨⟨T0, cap, 0⟩, context.files_searched, context.total_matches,
            fun _ => WorkerPc.claim⟩).total_matches = _
    rw [h2, hlist]
  · exact absurd hrun (by simp)

/-! ### A schedule that completes -/

theorem run_schedule_append (env : ScanEnv) (K : Nat) (l1 l2 : List Nat) (s : RunState) :
    run_schedule env K (l1 ++ l2) s = run_schedule env K l2 (run_schedule env K l1 s) := by
  unfold run_schedule
  rw [List.foldl_append]

theorem run_schedule_cons (env : ScanEnv) (K w : Nat) (hw : w < K) (l : List Nat)
    (s : RunState) :
    run_schedule env K (w :: l) s = run_schedule env K l (search_worker_step env w s) := by
  unfold run_schedule
  rw [List.foldl_cons, if_pos hw]

theorem worker_claim_take (w : Nat) (s : RunState) (h : s.queue.next_task < s.queue.count) :
    (worker_claim w s).pc = set_pc s.pc w (WorkerPc.scan s.queue.next_task) ∧
      (worker_claim w s).queue.next_task = s.queue.next_task + 1 := by
  unfold worker_claim taskqueue_get_next
  rw [if_neg (by omega)]
  exact ⟨rfl, rfl⟩

theorem worker_claim_exit (w : Nat) (s : RunState) (h : s.queue.next_task ≥ s.queue.count) :
    (worker_claim w s).pc = set_pc s.pc w WorkerPc.exited ∧
      (worker_claim w s).queue = s.queue := by
  unfold worker_claim taskqueue_get_next
  rw [if_pos h]
  exact ⟨rfl, rfl⟩

theorem worker_scan_returns (env : ScanEnv) (w i : Nat) (s : RunState) (task : SearchTask)
    (ht : s.queue.tasks[i]? = some task) (hs : scan_task env task ≠ none) :
    (worker_scan env w i s).pc = set_pc s.pc w (WorkerPc.account i) ∧
      (worker_scan env w i s).queue.next_task = s.queue.next_task := by
  unfold worker_scan
  rw [ht]
  simp only
  cases hres : scan_task env task with
  | none => exact absurd hres hs
  | some r => exact ⟨rfl, rfl⟩

/-- Three steps of thread 0 from a state in which every thread is at the loop
condition and a task is left: the task is claimed, scanned and accounted, and
every thread is at the loop condition again. -/
theorem sequential_round (env : ScanEnv) (T0 : List SearchTask) (K fs0 tm0 : Nat)
    (hK : 0 < K) (hscan : ∀ i (hi : i < T0.length), scan_task env T0[i] ≠ none) (s : RunState)
    (h : RunInv env T0 K fs0 tm0 s) (hpc : ∀ w, s.pc w = WorkerPc.claim)
    (hnext : s.queue.next_task < T0.length) :
    (∀ w, (run_schedule env K [0, 0, 0] s).pc w = WorkerPc.claim) ∧
      (run_schedule env K [0, 0, 0] s).queue.next_task = s.queue.next_task + 1 := by
  have hcount : s.queue.count = T0.length := h.len
  have e1 : search_worker_step env 0 s = worker_claim 0 s := by
    unfold search_worker_step
    rw [hpc 0]
  obtain ⟨p1, n1⟩ := worker_claim_take 0 s (by omega)
  have i1 : RunInv env T0 K fs0 tm0 (worker_claim 0 s) := by
    rw [← e1]
    exact runinv_step env T0 K fs0 tm0 s 0 hK h
  have hpc1 : (worker_claim 0 s).pc 0 = WorkerPc.scan s.queue.next_task := by
    rw [p1, set_pc_same]
  have e2 : search_worker_step env 0 (worker_claim 0 s)
      = worker_scan env 0 s.queue.next_task (worker_claim 0 s) := by
    unfold search_worker_step
    rw [hpc1]
  have ht : (worker_claim 0 s).queue.tasks[s.queue.next_task]? = some T0[s.queue.next_task] := by
    rw [i1.fresh s.queue.next_task (Or.inr ⟨0, hpc1⟩), List.getElem?_eq_getElem hnext]
  obtain ⟨p2, n2⟩ := worker_scan_returns env 0 s.queue.next_task (worker_claim 0 s) _ ht
    (hscan _ hnext)
  have hpc2 : (worker_scan env 0 s.queue.next_task (worker_claim 0 s)).pc 0
      = WorkerPc.account s.queue.next_task := by
    rw [p2, set_pc_same]
  have e3 : search_worker_step env 0 (worker_scan env 0 s.queue.next_task (worker_claim 0 s))
      = worker_account 0 s.queue.next_task
          (worker_scan env 0 s.queue.next_task (worker_claim 0 s)) := by
    unfold search_worker_step
    rw [hpc2]
  rw [run_schedule_cons env K 0 hK, run_schedule_cons env K 0 hK, run_schedule_cons env K 0 hK,
    e1, e2, e3]
  constructor
  · intro w
    show set_pc (worker_scan env 0 s.queue.next_task (worker_claim 0 s)).pc 0 WorkerPc.claim w
      = WorkerPc.claim
    by_cases hw : w = 0
    · rw [hw, set_pc_same]
    · rw [set_pc_ne _ _ _ _ hw, p2, set_pc_ne _ _ _ _ hw, p1, set_pc_ne _ _ _ _ hw]
      exact hpc w
  · show (worker_scan env 0 s.queue.next_task (worker_claim 0 s)).queue.next_task
      = s.queue.next_task + 1
    rw [n2, n1]

theorem replicate_three_mul_succ (m : Nat) :
    List.replicate (3 * (m + 1)) 0 = [0, 0, 0] ++ List.replicate (3 * m) 0 := by
  have : 3 * (m + 1) = 3 * m + 1 + 1 + 1 := by omega
  rw [this, List.replicate_succ, List.replicate_succ, List.replicate_succ]
  rfl

theorem sequential_rounds (env : ScanEnv) (T0 : List SearchTask) (K fs0 tm0 : Nat)
    (hK : 0 < K) (hscan : ∀ i (hi : i < T0.length), scan_task env T0[i] ≠ none) :
    ∀ (m : Nat) (s : RunState), RunInv env T0 K fs0 tm0 s → (∀ w, s.pc w = WorkerPc.claim) →
      s.queue.next_task + m = T0.length →
        (∀ w, (run_schedule env K (List.replicate (3 * m) 0) s).pc w = WorkerPc.claim) ∧
          (run_schedule env K (List.replicate (3 * m) 0) s).queue.next_task = T0.length := by
  intro m
  induction m with
  | zero =>
    intro s _ hpc hnext
    exact ⟨hpc, by simpa [run_schedule] using hnext⟩
  | succ m ih =>
    intro s h hpc hnext
    obtain ⟨hp, hn⟩ := sequential_round env T0 K fs0 tm0 hK hscan s h hpc (by omega)
    rw [replicate_three_mul_succ, run_schedule_append]
    exact ih _ (runinv_run env T0 K fs0 tm0 _ s h) hp (by omega)

/-- Once the queue is drained and thread 0 has returned, one step of each
thread makes all of them return. -/
theorem sequential_exits (env : ScanEnv) (T0 : List SearchTask) (K fs0 tm0 : Nat) :
    ∀ (k : Nat) (s : RunState), k ≤ K → RunInv env T0 K fs0 tm0 s →
      s.queue.next_task = T0.length → s.pc 0 = WorkerPc.exited →
      (∀ w, w ≠ 0 → s.pc w = WorkerPc.claim) →
        ∀ w < k, (run_schedule env K (List.range k) s).pc w = WorkerPc.exited := by
  intro k
  induction k with
  | zero => intro s _ _ _ _ _ w hw; omega
  | succ k ih =>
    intro s hk h hnext h0 hrest
    have hgen : ∀ j, j ≤ K → (run_schedule env K (List.range j) s).queue.next_task = T0.length ∧
        (run_schedule env K (List.range j) s).pc 0 = WorkerPc.exited ∧
        ∀ w, j ≤ w → w ≠ 0 → (run_schedule env K (List.range j) s).pc w = WorkerPc.claim := by
      intro j
      induction j with
      | zero => intro _; exact ⟨hnext, h0, fun w _ hw => hrest w hw⟩
      | succ j ihj =>
        intro hj
        obtain ⟨a1, a2, a3⟩ := ihj (by omega)
        have hinv := runinv_run env T0 K fs0 tm0 (List.range j) s h
        rw [List.range_succ, run_schedule_append, run_schedule_cons env K j (by omega)]
        show (search_worker_step env j _).queue.next_task = T0.length ∧
          (search_worker_step env j _).pc 0 = WorkerPc.exited ∧
          ∀ w, j + 1 ≤ w → w ≠ 0 → (search_worker_step env j _).pc w = WorkerPc.claim
        by_cases hj0 : j = 0
        · have e : search_worker_step env j (run_schedule env K (List.range j) s)
              = run_schedule env K (List.range j) s := by
            unfold search_worker_step
            rw [hj0] at a2 ⊢
            rw [a2]
          rw [e]
          exact ⟨a1, a2, fun w hw hw0 => a3 w (by omega) hw0⟩
        · have hpcj := a3 j (Nat.le_refl _) hj0
          have e : search_worker_step env j (run_schedule env K (List.range j) s)
              = worker_claim j (run_schedule env K (List.range j) s) := by
            unfold search_worker_step
            rw [hpcj]
          have hge : (run_schedule env K (List.range j) s).queue.next_task
              ≥ (run_schedule env K (List.range j) s).queue.count := by
            have : (run_schedule env K (List.range j) s).queue.count = T0.length := hinv.len
            omega
          obtain ⟨p, q⟩ := worker_claim_exit j _ hge
          rw [e, p, q]
          refine ⟨a1, ?_, ?_⟩
          · rw [set_pc_ne _ _ _ _ (fun h => hj0 h.symm)]
            exact a2
          · intro w hw hw0
            rw [set_pc_ne _ _ _ _ (by omega)]
            exact a3 w (by omega) hw0
    intro w hw
    obtain ⟨a1, a2, a3⟩ := hgen k (by omega)
    have hinv := runinv_run env T0 K fs0 tm0 (List.range k) s h
    rw [List.range_succ, run_schedule_append, run_schedule_cons env K k (by omega)]
    show (search_worker_step env k (run_schedule env K (List.range k) s)).pc w = WorkerPc.exited
    by_cases hk0 : k = 0
    · have hw0 : w = 0 := by omega
      have e : search_worker_step env k (run_schedule env K (List.range k) s)
          = run_schedule env K (List.range k) s := by
        unfold search_worker_step
        rw [hk0] at a2 ⊢
        rw [a2]
      rw [e, hw0]
      exact a2
    · have hpck := a3 k (Nat.le_refl _) hk0
      have e : search_worker_step env k (run_schedule env K (List.range k) s)
          = worker_claim k (run_schedule env K (List.range k) s) := by
        unfold search_worker_step
        rw [hpck]
      have hge : (run_schedule env K (List.range k) s).queue.next_task
          ≥ (run_schedule env K (List.range k) s).queue.count := by
        have : (run_schedule env K (List.range k) s).queue.count = T0.length := hinv.len
        omega
      obtain ⟨p, _⟩ := worker_claim_exit k _ hge
      rw [e, p]
      by_cases hwk : w = k
      · rw [hwk, set_pc_same]
      · rw [set_pc_ne _ _ _ _ hwk]
        exact ih s (by omega) h hnext h0 hrest w (by omega)

/-- Under the sequential schedule `search_context_run` returns, provided every
scan returns. -/
theorem search_context_run_sequential (env : ScanEnv) (context : SearchContext)
    (hK : 0 < context.num_threads) (T0 : List SearchTask) (cap : Nat)
    (hscan : ∀ i (hi : i < T0.length), scan_task env T0[i] ≠ none) :
    (search_context_run env context ⟨T0, cap, 0⟩
      (sequential_schedule context.num_threads T0.length)).isSome = true := by
  have hinit := runinv_init env T0 context.num_threads context.files_searched
    context.total_matches cap
  obtain ⟨hp, hn⟩ := sequential_rounds env T0 context.num_threads context.files_searched
    context.total_matches hK hscan T0.length _ hinit (fun _ => rfl) (by simp)
  have hinv1 := runinv_run env T0 context.num_threads context.files_searched
    context.total_matches (List.replicate (3 * T0.length) 0) _ hinit
  have hge : (run_schedule env context.num_threads (List.replicate (3 * T0.length) 0)
      ⟨⟨T0, cap, 0⟩, context.files_searched, context.total_matches,
        fun _ => WorkerPc.claim⟩).queue.next_task
      ≥ (run_schedule env context.num_threads (List.replicate (3 * T0.length) 0)
      ⟨⟨T0, cap, 0⟩, context.files_searched, context.total_matches,
        fun _ => WorkerPc.claim⟩).queue.count := by
    have : (run_schedule env context.num_threads (List.replicate (3 * T0.length) 0)
      ⟨⟨T0, cap, 0⟩, context.files_searched, context.total_matches,
        fun _ => WorkerPc.claim⟩).queue.count = T0.length := hinv1.len
    omega
  obtain ⟨p, q⟩ := worker_claim_exit 0 _ hge
  have e : search_worker_step env 0
      (run_schedule env context.num_threads (List.replicate (3 * T0.length) 0)
        ⟨⟨T0, cap, 0⟩, context.files_searched, context.total_matches,
          fun _ => WorkerPc.claim⟩)
      = worker_claim 0 (run_schedule env context.num_threads (List.replicate (3 * T0.length) 0)
        ⟨⟨T0, cap, 0⟩, context.files_searched, context.total_matches,
          fun _ => WorkerPc.claim⟩) := by
    unfold search_worker_step
    rw [hp 0]
  have hinv2 := runinv_step env T0 context.num_threads context.files_searched
    context.total_matches _ 0 hK hinv1
  rw [e] at hinv2
  have hall := sequential_exits env T0 context.num_threads context.files_searched
    context.total_matches context.num_threads _ (Nat.le_refl _) hinv2
    (by rw [q]; exact hn) (by rw [p, set_pc_same])
    (by
      intro w hw
      rw [p, set_pc_ne _ _ _ _ hw]
      exact hp w)
  have hsched : run_schedule env context.num_threads
      (sequential_schedule context.num_threads T0.length)
      ⟨⟨T0, cap, 0⟩, context.files_searched, context.total_matches, fun _ => WorkerPc.claim⟩
      = run_schedule env context.num_threads (List.range context.num_threads)
          (worker_claim 0 (run_schedule env context.num_threads
            (List.replicate (3 * T0.length) 0)
            ⟨⟨T0, cap, 0⟩, context.files_searched, context.total_matches,
              fun _ => WorkerPc.claim⟩)) := by
    unfold sequential_schedule
    rw [List.replicate_succ', run_schedule_append, run_schedule_append,
      run_schedule_cons env _ 0 hK, e]
    rfl
  unfold search_context_run
  simp only
  rw [hsched]
  have hcond : ((List.range context.num_threads).all (fun w =>
      (run_schedule env context.num_threads (List.range context.num_threads)
        (worker_claim 0 (run_schedule env context.num_threads
          (List.replicate (3 * T0.length) 0)
          ⟨⟨T0, cap, 0⟩, context.files_searched, context.total_matches,
            fun _ => WorkerPc.claim⟩))).pc w == WorkerPc.exited)) = true := by
    rw [List.all_eq_true]
    intro w hw
    exact beq_iff_eq.2 (hall w (List.mem_range.1 hw))
  rw [if_pos hcond]
  rfl

theorem enqueue_files_tasks (pattern : Pattern) (files : List (List Byte)) :
    (enqueue_files pattern files).tasks
        = (List.range files.length).map
            (fun i => ⟨pattern, files.getD i [], matchlist_create, to_int i⟩) ∧
      enqueue_files pattern files
        = ⟨(enqueue_files pattern files).tasks, (enqueue_files pattern files).capacity, 0⟩ := by
  constructor
  · unfold enqueue_files
    rw [(enqueue_fold pattern files (List.range files.length) taskqueue_create).1]
    rfl
  · have hn := (enqueue_files_count pattern files).2
    cases hq : enqueue_files pattern files with
    | mk tasks capacity next_task =>
      rw [hq] at hn
      simp only at hn
      rw [hn]

theorem to_int_small (i : Nat) (h : i < 2 ^ 31) : to_int i = (i : Int) := by
  unfold to_int
  have h1 : ((i : Int) + 2 ^ 31) % 2 ^ 32 = (i : Int) + 2 ^ 31 := by
    apply Int.emod_eq_of_lt <;> omega
  rw [h1]
  omega

/-- A call of `search_multiple_files` that returns: it returns 1 and one
MatchSet per file, the `i`-th being what `search_pattern` leaves in a fresh
MatchSet for the `i`-th file. -/
theorem search_multiple_files_spec (env : ScanEnv) (pattern : Pattern)
    (files : List (List Byte)) (n : Nat) (sched : List Nat) (r : Int × List MatchList)
    (h : search_multiple_files env pattern files n sched = some r) :
    r.1 = 1 ∧ r.2.length = files.length ∧
      ∀ i (hi : i < files.length), ∃ res,
        search_pattern env.avx2 env.sse42 env.alloc env.beyond env.fuel pattern files[i]
          matchlist_create = some res ∧ r.2[i]? = some res.2 := by
  obtain ⟨htasks, hform⟩ := enqueue_files_tasks pattern files
  have hK : 0 < (search_context_create n).num_threads := by
    unfold search_context_create
    simp only
    split <;> omega
  have hlen : (enqueue_files pattern files).tasks.length = files.length :=
    (enqueue_files_count pattern files).1
  unfold search_multiple_files at h
  rw [hform] at h
  cases hrun : search_context_run env (search_context_create n)
      ⟨(enqueue_files pattern files).tasks, (enqueue_files pattern files).capacity, 0⟩ sched with
  | none =>
    rw [hrun] at h
    exact absurd h (by simp)
  | some rc =>
    rw [hrun] at h
    obtain ⟨h1, _, q, hq, hqlen, _, hdone⟩ :=
      search_context_run_spec env _ hK _ _ sched rc hrun
    simp only [hq] at h
    have hr := (Option.some.inj h).symm
    subst hr
    refine ⟨h1, ?_, ?_⟩
    · show (q.tasks.map (fun task => task.matches_)).length = files.length
      rw [List.length_map, hqlen, hlen]
    · intro i hi
      obtain ⟨res, hres, htask⟩ := hdone i (by omega)
      have hiT : i < (enqueue_files pattern files).tasks.length := by omega
      have hT : (enqueue_files pattern files).tasks[i]
          = ⟨pattern, files[i], matchlist_create, to_int i⟩ := by
        have hi2 : i < ((List.range files.length).map
            (fun i => (⟨pattern, files.getD i [], matchlist_create, to_int i⟩ :
              SearchTask))).length := by
          rw [List.length_map, List.length_range]
          exact hi
        have : (enqueue_files pattern files).tasks[i]
            = ((List.range files.length).map
              (fun i => (⟨pattern, files.getD i [], matchlist_create, to_int i⟩ :
                SearchTask)))[i] := by
          congr 1
        rw [this, List.getElem_map, List.getElem_range, List.getD_eq_getElem?_getD,
          List.getElem?_eq_getElem hi]
        rfl
      rw [hT] at hres htask
      refine ⟨res, hres, ?_⟩
      show (q.tasks.map (fun task => task.matches_))[i]? = some res.2
      rw [List.getElem?_map, htask]
      rfl

theorem search_pattern_ascii_type_returns (avx2 sse42 : Bool) (alloc : Nat → Bool)
    (beyond : Nat → Byte) (fuel : Nat) (pattern : Pattern) (data : List Byte) (list : MatchList)
    (htype : pattern.type = MatchType.MATCH_ASCII) :
    search_pattern avx2 sse42 alloc beyond fuel pattern data list ≠ none := by
  unfold search_pattern
  simp only [htype, if_true]
  split_ifs <;> simp

/-- Under the sequential schedule `search_multiple_files` returns, provided
the scan of every file returns. -/
theorem search_multiple_files_sequential (env : ScanEnv) (pattern : Pattern)
    (files : List (List Byte)) (n : Nat)
    (hscan : ∀ f, search_pattern env.avx2 env.sse42 env.alloc env.beyond env.fuel pattern f
      matchlist_create ≠ none) :
    (search_multiple_files env pattern files n
      (sequential_schedule (search_context_create n).num_threads files.length)).isSome
        = true := by
  obtain ⟨htasks, hform⟩ := enqueue_files_tasks pattern files
  have hK : 0 < (search_context_create n).num_threads := by
    unfold search_context_create
    simp only
    split <;> omega
  have hlen : (enqueue_files pattern files).tasks.length = files.length :=
    (enqueue_files_count pattern files).1
  have hsc : ∀ i (hi : i < (enqueue_files pattern files).tasks.length),
      scan_task env (enqueue_files pattern files).tasks[i] ≠ none := by
    intro i hi
    have hmem : (enqueue_files pattern files).tasks[i] ∈ (List.range files.length).map
        (fun i => (⟨pattern, files.getD i [], matchlist_create, to_int i⟩ : SearchTask)) := by
      rw [← htasks]
      exact List.getElem_mem _
    rw [List.mem_map] at hmem
    obtain ⟨j, _, hj⟩ := hmem
    rw [← hj]
    exact hscan _
  have hrun := search_context_run_sequential env (search_context_create n) hK
    (enqueue_files pattern files).tasks (enqueue_files pattern files).capacity hsc
  rw [hlen] at hrun
  unfold search_multiple_files
  rw [hform]
  cases hr : search_context_run env (search_context_create n)
      ⟨(enqueue_files pattern files).tasks, (enqueue_files pattern files).capacity, 0⟩
      (sequential_schedule (search_context_create n).num_threads files.length) with
  | none =>
    rw [hr] at hrun
    exact absurd hrun (by simp)
  | some rc =>
    obtain ⟨_, _, q, hq, _⟩ := search_context_run_spec env _ hK _ _ _ rc hr
    simp only [hq]
    rfl

/-- C11: determinism across thread counts. For a fixed pattern and list of
buffers, any two calls of `search_multiple_files` that return, with any numbers
of threads and under any interleavings of the threads' atomic steps, return the
same value and the same MatchSets in the same order; the MatchSet of a file is
what `search_pattern` leaves in a fresh MatchSet for that file and the pattern;
and for a literal pattern the call does return, for every number of threads,
under the schedule that lets thread 0 take every task. -/
theorem search_multiple_files_deterministic (env : ScanEnv) (pattern : Pattern)
    (files : List (List Byte)) :
    (∀ (n1 n2 : Nat) (sched1 sched2 : List Nat) (r1 r2 : Int × List MatchList),
        search_multiple_files env pattern files n1 sched1 = some r1 →
        search_multiple_files env pattern files n2 sched2 = some r2 → r1 = r2) ∧
      (∀ (n : Nat) (sched : List Nat) (r : Int × List MatchList),
        search_multiple_files env pattern files n sched = some r →
          r.2.map some = files.map (fun f =>
            (search_pattern env.avx2 env.sse42 env.alloc env.beyond env.fuel pattern f
              matchlist_create).map Prod.snd)) ∧
      (pattern.type = MatchType.MATCH_ASCII → ∀ n : Nat,
        (search_multiple_files env pattern files n
          (sequential_schedule (search_context_create n).num_threads files.length)).isSome
            = true) := by
  have hcanon : ∀ (n : Nat) (sched : List Nat) (r : Int × List MatchList),
      search_multiple_files env pattern files n sched = some r →
        r.2.map some = files.map (fun f =>
          (search_pattern env.avx2 env.sse42 env.alloc env.beyond env.fuel pattern f
            matchlist_create).map Prod.snd) := by
    intro n sched r h
    obtain ⟨_, hlen, hall⟩ := search_multiple_files_spec env pattern files n sched r h
    apply List.ext_getElem
    · rw [List.length_map, List.length_map, hlen]
    · intro i hi1 hi2
      rw [List.length_map] at hi2
      obtain ⟨res, hres, hri⟩ := hall i hi2
      have hi3 : i < r.2.length := by omega
      rw [List.getElem?_eq_getElem hi3] at hri
      rw [List.getElem_map, List.getElem_map, hres, Option.some.inj hri]
      rfl
  refine ⟨?_, hcanon, ?_⟩
  · intro n1 n2 sched1 sched2 r1 r2 h1 h2
    have e1 := (search_multiple_files_spec env pattern files n1 sched1 r1 h1).1
    have e2 := (search_multiple_files_spec env pattern files n2 sched2 r2 h2).1
    have c1 := hcanon n1 sched1 r1 h1
    have c2 := hcanon n2 sched2 r2 h2
    have hlist : r1.2 = r2.2 := by
      apply List.map_injective_iff.2 (Option.some_injective _)
      rw [c1, c2]
    exact Prod.ext (e1.trans e2.symm) hlist
  · intro htype n
    exact search_multiple_files_sequential env pattern files n
      (fun f => search_pattern_ascii_type_returns _ _ _ _ _ _ _ _ htype)

theorem search_multiple_files_deterministic_witness :
    search_multiple_files scalar_env (literal (bytes "a") 0) [bytes "aXa", bytes "b\na"] 2
        [0, 1, 1, 0, 1, 0, 0, 1]
        = some (1, [⟨[⟨0, 1, 1⟩, ⟨2, 3, 1⟩], 1024⟩, ⟨[⟨2, 3, 2⟩], 1024⟩]) ∧
      search_multiple_files scalar_env (literal (bytes "a") 0) [bytes "aXa", bytes "b\na"] 8
        (sequential_schedule 8 2)
        = some (1, [⟨[⟨0, 1, 1⟩, ⟨2, 3, 1⟩], 1024⟩, ⟨[⟨2, 3, 2⟩], 1024⟩]) ∧
      ((1 : Int), [(⟨[⟨0, 1, 1⟩, ⟨2, 3, 1⟩], 1024⟩ : MatchList), ⟨[⟨2, 3, 2⟩], 1024⟩])
        = (1, [⟨[⟨0, 1, 1⟩, ⟨2, 3, 1⟩], 1024⟩, ⟨[⟨2, 3, 2⟩], 1024⟩]) :=
  ⟨by decide, by decide,
    (search_multiple_files_deterministic scalar_env (literal (bytes "a") 0)
      [bytes "aXa", bytes "b\na"]).1 2 8 [0, 1, 1, 0, 1, 0, 0, 1] (sequential_schedule 8 2)
      _ _ (by decide) (by decide)⟩

/-- C12 (counterexample): in a list of `2^31 + 1` files the task at index
`2^31` has `file_index = (int)2^31 = -2147483648`, not `2^31`. -/
theorem enqueue_files_index_wraps :
    ((enqueue_files (literal [] 0) (List.replicate (2 ^ 31 + 1) [])).tasks[2 ^ 31]?).map
      (fun task => task.file_index) = some (-2147483648) := by
  rw [(enqueue_files_tasks _ _).1, List.length_replicate, List.getElem?_map,
    List.getElem?_range (by norm_num)]
  simp only [Option.map_some']
  norm_num [to_int]

/-- C12 (amended): `search_multiple_files` returns one MatchSet per input
buffer in submission order. The queue it builds for `n` files has `n` tasks;
task `i` refers to `files[i]`, has a fresh MatchSet and `file_index = (int)i`,
which is `i` for every `i < 2^31`; a call that returns, under any interleaving
of any number of threads, returns 1 and `n` MatchSets, the `i`-th being what
`search_pattern` leaves in a fresh MatchSet for `files[i]`. -/
theorem search_multiple_files_in_order (env : ScanEnv) (pattern : Pattern)
    (files : List (List Byte)) :
    (enqueue_files pattern files).count = files.length ∧
      (enqueue_files pattern files).tasks
        = (List.range files.length).map
            (fun i => ⟨pattern, files.getD i [], matchlist_create, to_int i⟩) ∧
      (∀ i : Nat, i < 2 ^ 31 → to_int i = (i : Int)) ∧
      (∀ (n : Nat) (sched : List Nat) (r : Int × List MatchList),
        search_multiple_files env pattern files n sched = some r →
          r.1 = 1 ∧ r.2.length = files.length ∧
            ∀ i (hi : i < files.length), ∃ res,
              search_pattern env.avx2 env.sse42 env.alloc env.beyond env.fuel pattern files[i]
                matchlist_create = some res ∧ r.2[i]? = some res.2) :=
  ⟨(enqueue_files_count pattern files).1, (enqueue_files_tasks pattern files).1, to_int_small,
    search_multiple_files_spec env pattern files⟩

theorem search_multiple_files_in_order_witness :
    search_multiple_files scalar_env (literal (bytes "ab") 0) [bytes "xab", bytes "", bytes "abab"]
        1 (sequential_schedule 1 3)
        = some (1, [⟨[⟨1, 3, 1⟩], 1024⟩, ⟨[], 1024⟩, ⟨[⟨0, 2, 1⟩, ⟨2, 4, 1⟩], 1024⟩]) ∧
      [(⟨[⟨1, 3, 1⟩], 1024⟩ : MatchList), ⟨[], 1024⟩, ⟨[⟨0, 2, 1⟩, ⟨2, 4, 1⟩], 1024⟩].length
        = [bytes "xab", bytes "", bytes "abab"].length :=
  ⟨by decide,
    ((search_multiple_files_in_order scalar_env (literal (bytes "ab") 0)
      [bytes "xab", bytes "", bytes "abab"]).2.2.2 1 (sequential_schedule 1 3)
      (1, [⟨[⟨1, 3, 1⟩], 1024⟩, ⟨[], 1024⟩, ⟨[⟨0, 2, 1⟩, ⟨2, 4, 1⟩], 1024⟩]) (by decide)).2.1⟩

/-- C13: aggregate counters. A context from `search_context_create` has both
counters at 0. When `search_context_run` on a queue of `N` tasks (cursor 0)
returns, with any number of threads and under any interleaving of their atomic
claim, scan and counter-update steps, `files_searched = N` and `total_matches`
is the sum over the `N` tasks of the count of the task's MatchSet; and the run
does return under the schedule that lets thread 0 take every task, when every
scan returns. -/
theorem search_context_run_counters (env : ScanEnv) (tasks : List SearchTask) (cap n : Nat) :
    (search_context_create n).files_searched = 0 ∧
      (search_context_create n).total_matches = 0 ∧
      (∀ (sched : List Nat) (r : Int × SearchContext),
        search_context_run env (search_context_create n) ⟨tasks, cap, 0⟩ sched = some r →
          r.2.files_searched = tasks.length ∧
            ∃ q, r.2.queue = some q ∧ q.tasks.length = tasks.length ∧
              r.2.total_matches = (q.tasks.map (fun task => task.matches_.count)).sum) ∧
      ((∀ i (hi : i < tasks.length), scan_task env tasks[i] ≠ none) →
        (search_context_run env (search_context_create n) ⟨tasks, cap, 0⟩
          (sequential_schedule (search_context_create n).num_threads tasks.length)).isSome
            = true) := by
  have hK : 0 < (search_context_create n).num_threads := by
    unfold search_context_create
    simp only
    split <;> omega
  refine ⟨rfl, rfl, ?_, ?_⟩
  · intro sched r hrun
    obtain ⟨_, hfs, q, hq, hlen, htm, _⟩ := search_context_run_spec env _ hK tasks cap sched r hrun
    refine ⟨?_, q, hq, hlen, ?_⟩
    · rw [hfs]
      show 0 + tasks.length = tasks.length
      omega
    · rw [htm]
      show 0 + _ = _
      omega
  · intro hscan
    exact search_context_run_sequential env _ hK tasks cap hscan

theorem search_context_run_counters_witness :
    ∃ r, search_context_run scalar_env (search_context_create 2)
        ⟨[⟨literal (bytes "a") 0, bytes "aXa", matchlist_create, 0⟩,
          ⟨literal (bytes "a") 0, bytes "b\na", matchlist_create, 1⟩], 16, 0⟩
        [0, 1, 1, 0, 1, 0, 0, 1] = some r ∧ r.2.files_searched = 2 :=
  have hs : (search_context_run scalar_env (search_context_create 2)
      ⟨[⟨literal (bytes "a") 0, bytes "aXa", matchlist_create, 0⟩,
        ⟨literal (bytes "a") 0, bytes "b\na", matchlist_create, 1⟩], 16, 0⟩
      [0, 1, 1, 0, 1, 0, 0, 1]).isSome = true := by decide
  ⟨_, (Option.some_get hs).symm,
    ((search_context_run_counters scalar_env
      [⟨literal (bytes "a") 0, bytes "aXa", matchlist_create, 0⟩,
        ⟨literal (bytes "a") 0, bytes "b\na", matchlist_create, 1⟩] 16 2).2.2.1
      [0, 1, 1, 0, 1, 0, 0, 1] _ (Option.some_get hs).symm).1⟩

/-! ## Line lookup: order and agreement with the line count -/

theorem count_take_le (B : List Byte) (p q : Nat) (hpq : p ≤ q) :
    (B.take p).count 10 ≤ (B.take q).count 10 := by
  have h : B.take p = (B.take q).take p := by
    rw [List.take_take, Nat.min_eq_left hpq]
  rw [h]
  exact List.Sublist.count_le (List.take_sublist _ _) _

/-- C21 (counterexample): in the one-byte buffer `"a"` offset 0 is on line 1
and the one-past-the-end offset 1 gets 0, so the lookup decreases from
`p = 0` to `q = |B|`. -/
theorem get_line_number_not_monotone_at_end :
    get_line_number (bytes "a") 0 = 1 ∧
      get_line_number (bytes "a") (bytes "a").length = 0 ∧
      ¬ get_line_number (bytes "a") 0 ≤ get_line_number (bytes "a") (bytes "a").length := by
  decide

/-- C21 (amended): for offsets `p ≤ q` inside the buffer (`q < |B|`) the line
of `p` is at most the line of `q`; for every offset at or past the end of the
buffer `get_line_number` returns 0. -/
theorem get_line_number_monotone (B : List Byte) (p q : Nat) (hpq : p ≤ q)
    (hq : q < B.length) :
    get_line_number B p ≤ get_line_number B q ∧
      ∀ r, B.length ≤ r → get_line_number B r = 0 := by
  constructor
  · rw [(get_line_number_spec B p (by omega)).1, (get_line_number_spec B q hq).1]
    have := count_take_le B p q hpq
    omega
  · intro r hr
    unfold get_line_number
    rw [if_pos hr]

theorem get_line_number_monotone_witness :
    (6 ≤ 12 ∧ 12 < (bytes "line1\nline2\nline3\nline4").length) ∧
      get_line_number (bytes "line1\nline2\nline3\nline4") 6
        ≤ get_line_number (bytes "line1\nline2\nline3\nline4") 12 :=
  ⟨by decide,
    (get_line_number_monotone (bytes "line1\nline2\nline3\nline4") 6 12 (by decide)
      (by decide)).1⟩

/-- C27: the two line helpers agree. For a non-empty buffer the line number
of the last byte is the line count, whether or not the buffer ends with a
newline; hence every offset inside the buffer has a line number between 1 and
the line count. -/
theorem get_line_number_le_count_lines (B : List Byte) (hB : B ≠ []) :
    get_line_number B (B.length - 1) = count_lines B ∧
      ∀ pos, pos < B.length →
        1 ≤ get_line_number B pos ∧ get_line_number B pos ≤ count_lines B := by
  have hlen : 0 < B.length := List.length_pos.2 hB
  have hlast : get_line_number B (B.length - 1) = count_lines B := by
    rw [(get_line_number_spec B (B.length - 1) (by omega)).1, (count_lines_spec B).1, if_neg hB,
      ← List.dropLast_eq_take]
    have hsplit : B.count 10 = B.dropLast.count 10 + (if B.getLast hB = 10 then 1 else 0) := by
      conv_lhs => rw [← List.dropLast_append_getLast hB]
      rw [List.count_append, List.count_singleton]
      by_cases h : B.getLast hB = 10
      · simp [h]
      · have h2 : ¬ (10 : Byte) = B.getLast hB := fun e => h e.symm
        simp [h, h2]
    rw [hsplit, List.getLast?_eq_getLast B hB]
    by_cases h : B.getLast hB = 10
    · simp [h]
      omega
    · simp [h]
      omega
  refine ⟨hlast, ?_⟩
  intro pos hpos
  constructor
  · rw [(get_line_number_spec B pos hpos).1]
    omega
  · rw [← hlast]
    exact (get_line_number_monotone B pos (B.length - 1) (by omega) (by omega)).1

theorem get_line_number_le_count_lines_witness :
    bytes "line1\nline2\n" ≠ [] ∧
      get_line_number (bytes "line1\nline2\n") ((bytes "line1\nline2\n").length - 1)
        = count_lines (bytes "line1\nline2\n") :=
  ⟨by decide, (get_line_number_le_count_lines (bytes "line1\nline2\n") (by decide)).1⟩

/-! ## The capacity of a MatchSet -/

theorem matchlist_reachable_inv (list : MatchList) (h : MatchListReachable list) :
    list.count ≤ list.capacity ∧ ∃ k, list.capacity = 1024 * 2 ^ k := by
  induction h with
  | create => exact ⟨by decide, 0, rfl⟩
  | add alloc list s e n _ ih =>
    obtain ⟨hle, k, hk⟩ := ih
    unfold MatchList.count at hle
    unfold matchlist_add MatchList.count
    by_cases hc : list.matches_.length ≥ list.capacity
    · rw [if_pos hc]
      by_cases ha : alloc (list.capacity * 2) = true
      · simp only [ha, if_true]
        refine ⟨?_, k + 1, ?_⟩
        · simp only [List.length_append, List.length_cons, List.length_nil]
          have hpos : 0 < list.capacity := by
            rw [hk]
            positivity
          clear hk
          omega
        · show list.capacity * 2 = 1024 * 2 ^ (k + 1)
          rw [hk, Nat.pow_succ]
          omega
      · simp only [ha]
        exact ⟨hle, k, hk⟩
    · rw [if_neg hc]
      refine ⟨?_, k, hk⟩
      simp only [List.length_append, List.length_cons, List.length_nil]
      clear hk
      omega

/-- Appending the same match `n ≤ 1024` times to a fresh list, without a
reallocation, reaches the list of `n` copies with the initial capacity. -/
theorem matchlist_replicate_reachable (m : Match) :
    ∀ n, n ≤ 1024 → MatchListReachable ⟨List.replicate n m, 1024⟩ := by
  intro n
  induction n with
  | zero => intro _; exact MatchListReachable.create
  | succ n ih =>
    intro hn
    have h := MatchListReachable.add alloc_ok ⟨List.replicate n m, 1024⟩ m.start m.end_
      m.line_num (ih (by omega))
    have hadd : (matchlist_add alloc_ok ⟨List.replicate n m, 1024⟩ m.start m.end_ m.line_num).2
        = ⟨List.replicate (n + 1) m, 1024⟩ := by
      unfold matchlist_add MatchList.count
      have hc : ¬ (List.replicate n m).length ≥ 1024 := by
        rw [List.length_replicate]
        omega
      simp only [hc, if_false]
      rw [List.replicate_succ']
    rw [hadd] at h
    exact h

theorem matchlist_full_reachable : MatchListReachable matchlist_full :=
  matchlist_replicate_reachable ⟨0, 1, 1⟩ 1024 (Nat.le_refl _)

theorem matchlist_full_count : matchlist_full.count ≥ matchlist_full.capacity := by
  show (List.replicate 1024 _).length ≥ 1024
  rw [List.length_replicate]

/-- An append to a full list turns on the outcome of the reallocation. -/
theorem matchlist_add_full (alloc : Nat → Bool) (list : MatchList) (s e n : Nat)
    (hfull : list.count ≥ list.capacity) :
    matchlist_add alloc list s e n
      = if alloc (list.capacity * 2) then
          (1, ⟨list.matches_ ++ [⟨s, e, n⟩], list.capacity * 2⟩)
        else (0, list) := by
  unfold matchlist_add
  rw [if_pos hfull]

/-- C24: the capacity invariant. Every list reachable from `matchlist_create`
by `matchlist_add` calls has `count ≤ capacity` and `capacity = 1024 * 2^k`.
On such a list an append leaves the capacity as it was, or `count = capacity`
held before the call and the capacity is exactly doubled; it either returns 1,
having written the new match at index `count`, which is below the capacity
after the call, or returns 0, the growth allocation having failed at
`count = capacity`, and leaves the list (count, capacity and stored matches)
unchanged. -/
theorem matchlist_capacity_invariant (list : MatchList) (h : MatchListReachable list)
    (alloc : Nat → Bool) (s e n : Nat) :
    list.count ≤ list.capacity ∧ (∃ k, list.capacity = 1024 * 2 ^ k) ∧
      ((matchlist_add alloc list s e n).2.capacity = list.capacity ∨
        (list.count = list.capacity ∧
          (matchlist_add alloc list s e n).2.capacity = 2 * list.capacity)) ∧
      (((matchlist_add alloc list s e n).1 = 1 ∧
          (matchlist_add alloc list s e n).2.matches_ = list.matches_ ++ [⟨s, e, n⟩] ∧
          list.count < (matchlist_add alloc list s e n).2.capacity) ∨
        ((matchlist_add alloc list s e n).1 = 0 ∧
          (matchlist_add alloc list s e n).2 = list ∧
          list.count = list.capacity ∧ alloc (list.capacity * 2) = false)) := by
  obtain ⟨hle, k, hk⟩ := matchlist_reachable_inv list h
  have hpos : 0 < list.capacity := by
    rw [hk]
    positivity
  refine ⟨hle, ⟨k, hk⟩, ?_, ?_⟩
  · unfold matchlist_add
    by_cases hc : list.count ≥ list.capacity
    · rw [if_pos hc]
      by_cases ha : alloc (list.capacity * 2) = true
      · right
        simp only [ha, if_true]
        exact ⟨by omega, by omega⟩
      · left
        simp only [ha]
        rfl
    · rw [if_neg hc]
      left
      rfl
  · unfold matchlist_add
    by_cases hc : list.count ≥ list.capacity
    · rw [if_pos hc]
      by_cases ha : alloc (list.capacity * 2) = true
      · left
        refine ⟨by simp [ha], by simp [ha], ?_⟩
        simp only [ha, if_true]
        show list.count < list.capacity * 2
        omega
      · right
        exact ⟨by simp [ha], by simp [ha], by omega, by simpa using ha⟩
    · rw [if_neg hc]
      left
      refine ⟨rfl, rfl, ?_⟩
      show list.count < list.capacity
      omega

theorem matchlist_capacity_invariant_witness :
    MatchListReachable matchlist_full ∧
      matchlist_add (fun _ => false) matchlist_full 7 9 3 = (0, matchlist_full) ∧
      matchlist_add alloc_ok matchlist_full 7 9 3
        = (1, ⟨List.replicate 1024 ⟨0, 1, 1⟩ ++ [⟨7, 9, 3⟩], 2048⟩) ∧
      (matchlist_full.count ≤ matchlist_full.capacity ∧
        (∃ k, matchlist_full.capacity = 1024 * 2 ^ k) ∧
        ((matchlist_add (fun _ => false) matchlist_full 7 9 3).2.capacity
            = matchlist_full.capacity ∨
          (matchlist_full.count = matchlist_full.capacity ∧
            (matchlist_add (fun _ => false) matchlist_full 7 9 3).2.capacity
              = 2 * matchlist_full.capacity)) ∧
        (((matchlist_add (fun _ => false) matchlist_full 7 9 3).1 = 1 ∧
            (matchlist_add (fun _ => false) matchlist_full 7 9 3).2.matches_
              = matchlist_full.matches_ ++ [⟨7, 9, 3⟩] ∧
            matchlist_full.count
              < (matchlist_add (fun _ => false) matchlist_full 7 9 3).2.capacity) ∨
          ((matchlist_add (fun _ => false) matchlist_full 7 9 3).1 = 0 ∧
            (matchlist_add (fun _ => false) matchlist_full 7 9 3).2 = matchlist_full ∧
            matchlist_full.count = matchlist_full.capacity ∧
            (fun _ => false) (matchlist_full.capacity * 2) = false))) ∧
      (matchlist_full.count ≤ matchlist_full.capacity ∧
        (∃ k, matchlist_full.capacity = 1024 * 2 ^ k) ∧
        ((matchlist_add alloc_ok matchlist_full 7 9 3).2.capacity = matchlist_full.capacity ∨
          (matchlist_full.count = matchlist_full.capacity ∧
            (matchlist_add alloc_ok matchlist_full 7 9 3).2.capacity
              = 2 * matchlist_full.capacity)) ∧
        (((matchlist_add alloc_ok matchlist_full 7 9 3).1 = 1 ∧
            (matchlist_add alloc_ok matchlist_full 7 9 3).2.matches_
              = matchlist_full.matches_ ++ [⟨7, 9, 3⟩] ∧
            matchlist_full.count < (matchlist_add alloc_ok matchlist_full 7 9 3).2.capacity) ∨
          ((matchlist_add alloc_ok matchlist_full 7 9 3).1 = 0 ∧
            (matchlist_add alloc_ok matchlist_full 7 9 3).2 = matchlist_full ∧
            matchlist_full.count = matchlist_full.capacity ∧
            alloc_ok (matchlist_full.capacity * 2) = false))) :=
  ⟨matchlist_full_reachable,
    by rw [matchlist_add_full _ _ _ _ _ matchlist_full_count]; rfl,
    by rw [matchlist_add_full _ _ _ _ _ matchlist_full_count]; rfl,
    matchlist_capacity_invariant matchlist_full matchlist_full_reachable (fun _ => false) 7 9 3,
    matchlist_capacity_invariant matchlist_full matchlist_full_reachable alloc_ok 7 9 3⟩

/-! ## Allocation failure during a scan -/

theorem found_flag (pattern : Pattern) (data : List Byte) (pos : Nat) :
    ((if pattern.case_insensitive ≠ 0 then pattern_match_ascii_case pattern data pos
      else pattern_match_ascii pattern data pos) ≠ 0) ↔ found_at pattern data pos = true := by
  unfold found_at
  split <;> simp

theorem ascii_loop_found (alloc : Nat → Bool) (pattern : Pattern) (data : List Byte)
    (fuel pos line_num : Nat) (list : MatchList) (hlt : pos < data.length)
    (hf : found_at pattern data pos = true) :
    search_pattern_ascii_loop alloc pattern data (fuel + 1) pos line_num list
      = search_pattern_ascii_loop alloc pattern data fuel (pos + 1) line_num
          (matchlist_add alloc list pos (pos + pattern.pattern_len) line_num).2 := by
  rw [search_pattern_ascii_loop, if_pos hlt]
  simp only
  rw [if_pos ((found_flag pattern data pos).2 hf)]

theorem ascii_loop_miss (alloc : Nat → Bool) (pattern : Pattern) (data : List Byte)
    (fuel pos line_num : Nat) (list : MatchList) (hlt : pos < data.length)
    (hf : ¬ found_at pattern data pos = true) :
    search_pattern_ascii_loop alloc pattern data (fuel + 1) pos line_num list
      = search_pattern_ascii_loop alloc pattern data fuel (pos + 1)
          (if data.getD pos 0 = 10 then line_num + 1 else line_num) list := by
  rw [search_pattern_ascii_loop, if_pos hlt]
  simp only
  rw [if_neg (fun h => hf ((found_flag pattern data pos).1 h))]
  split <;> rfl

theorem ascii_loop_end (alloc : Nat → Bool) (pattern : Pattern) (data : List Byte)
    (fuel pos line_num : Nat) (list : MatchList) (hlt : ¬ pos < data.length) :
    search_pattern_ascii_loop alloc pattern data fuel pos line_num list = list := by
  cases fuel with
  | zero => rfl
  | succ fuel => rw [search_pattern_ascii_loop, if_neg hlt]

/-- Without allocation failure the scalar loop appends its trace. -/
theorem ascii_loop_trace (pattern : Pattern) (data : List Byte) :
    ∀ (fuel pos line_num : Nat) (list : MatchList),
      (search_pattern_ascii_loop alloc_ok pattern data fuel pos line_num list).matches_
        = list.matches_ ++ ascii_trace pattern data fuel pos line_num := by
  intro fuel
  induction fuel with
  | zero => intro pos line_num list; simp [search_pattern_ascii_loop, ascii_trace]
  | succ fuel ih =>
    intro pos line_num list
    by_cases hlt : pos < data.length
    · by_cases hf : found_at pattern data pos = true
      · rw [ascii_loop_found _ _ _ _ _ _ _ hlt hf, ih, matchlist_add_ok, ascii_trace, if_pos hlt,
          if_pos hf, List.append_assoc]
        rfl
      · rw [ascii_loop_miss _ _ _ _ _ _ _ hlt hf, ih, ascii_trace, if_pos hlt, if_neg hf]
    · rw [ascii_loop_end _ _ _ _ _ _ _ hlt, ascii_trace, if_neg hlt, List.append_nil]

theorem matchlist_add_stuck (alloc : Nat → Bool) (list : MatchList) (s e n : Nat)
    (hfull : list.count ≥ list.capacity) (hfail : alloc (list.capacity * 2) = false) :
    matchlist_add alloc list s e n = (0, list) := by
  unfold matchlist_add
  rw [if_pos hfull]
  simp [hfail]

theorem matchlist_add_not_stuck (alloc : Nat → Bool) (list : MatchList) (s e n : Nat)
    (h : ¬ (list.count ≥ list.capacity ∧ alloc (list.capacity * 2) = false)) :
    (matchlist_add alloc list s e n).2.matches_ = list.matches_ ++ [⟨s, e, n⟩] := by
  unfold matchlist_add
  by_cases hc : list.count ≥ list.capacity
  · have ha : alloc (list.capacity * 2) = true := by
      by_contra hne
      exact h ⟨hc, by simpa using hne⟩
    rw [if_pos hc]
    simp [ha]
  · rw [if_neg hc]

/-- Once an append has failed on a full list, every later append of the scan
fails too: the loop leaves the list as it is. -/
theorem ascii_loop_stuck (alloc : Nat → Bool) (pattern : Pattern) (data : List Byte)
    (list : MatchList) (hfull : list.count ≥ list.capacity)
    (hfail : alloc (list.capacity * 2) = false) :
    ∀ (fuel pos line_num : Nat),
      search_pattern_ascii_loop alloc pattern data fuel pos line_num list = list := by
  intro fuel
  induction fuel with
  | zero => intro pos line_num; rfl
  | succ fuel ih =>
    intro pos line_num
    by_cases hlt : pos < data.length
    · by_cases hf : found_at pattern data pos = true
      · rw [ascii_loop_found _ _ _ _ _ _ _ hlt hf, matchlist_add_stuck _ _ _ _ _ hfull hfail]
        exact ih _ _
      · rw [ascii_loop_miss _ _ _ _ _ _ _ hlt hf]
        exact ih _ _
    · exact ascii_loop_end _ _ _ _ _ _ _ hlt

/-- With an allocator whose outcome depends on the requested size alone, a
failure repeats at every later call, and the scalar loop appends an initial
part of its trace. -/
theorem ascii_loop_take (alloc : Nat → Bool) (pattern : Pattern) (data : List Byte) :
    ∀ (fuel pos line_num : Nat) (list : MatchList), ∃ k,
      (search_pattern_ascii_loop alloc pattern data fuel pos line_num list).matches_
        = list.matches_ ++ (ascii_trace pattern data fuel pos line_num).take k := by
  intro fuel
  induction fuel with
  | zero => intro pos line_num list; exact ⟨0, by simp [search_pattern_ascii_loop]⟩
  | succ fuel ih =>
    intro pos line_num list
    by_cases hlt : pos < data.length
    · by_cases hf : found_at pattern data pos = true
      · rw [ascii_loop_found _ _ _ _ _ _ _ hlt hf, ascii_trace, if_pos hlt, if_pos hf]
        by_cases hst : list.count ≥ list.capacity ∧ alloc (list.capacity * 2) = false
        · refine ⟨0, ?_⟩
          rw [matchlist_add_stuck _ _ _ _ _ hst.1 hst.2,
            ascii_loop_stuck _ _ _ _ hst.1 hst.2]
          simp
        · obtain ⟨k, hk⟩ := ih (pos + 1) line_num
            (matchlist_add alloc list pos (pos + pattern.pattern_len) line_num).2
          refine ⟨k + 1, ?_⟩
          rw [hk, matchlist_add_not_stuck _ _ _ _ _ hst, List.take_succ_cons,
            List.append_assoc]
          rfl
      · rw [ascii_loop_miss _ _ _ _ _ _ _ hlt hf, ascii_trace, if_pos hlt, if_neg hf]
        exact ih _ _ _
    · exact ⟨0, by rw [ascii_loop_end _ _ _ _ _ _ _ hlt]; simp⟩

/-- When every reallocation fails the scalar loop keeps what fits in the
capacity. -/
theorem ascii_loop_no_growth (pattern : Pattern) (data : List Byte) :
    ∀ (fuel pos line_num : Nat) (list : MatchList), list.count ≤ list.capacity →
      (search_pattern_ascii_loop (fun _ => false) pattern data fuel pos line_num list).matches_
        = (list.matches_ ++ ascii_trace pattern data fuel pos line_num).take list.capacity := by
  intro fuel
  induction fuel with
  | zero =>
    intro pos line_num list h
    unfold MatchList.count at h
    simp [search_pattern_ascii_loop, ascii_trace, List.take_of_length_le h]
  | succ fuel ih =>
    intro pos line_num list h
    unfold MatchList.count at h
    by_cases hlt : pos < data.length
    · by_cases hf : found_at pattern data pos = true
      · rw [ascii_loop_found _ _ _ _ _ _ _ hlt hf, ascii_trace, if_pos hlt, if_pos hf]
        by_cases hfull : list.count ≥ list.capacity
        · have hlen : list.matches_.length = list.capacity := by
            unfold MatchList.count at hfull
            omega
          rw [matchlist_add_stuck _ _ _ _ _ hfull rfl,
            ascii_loop_stuck _ _ _ _ hfull rfl, List.take_append_of_le_length (by omega),
            List.take_of_length_le (by omega)]
        · have hadd : matchlist_add (fun _ => false) list pos (pos + pattern.pattern_len) line_num
              = (1, ⟨list.matches_ ++ [⟨pos, pos + pattern.pattern_len, line_num⟩],
                  list.capacity⟩) := by
            unfold matchlist_add
            rw [if_neg hfull]
          rw [hadd, ih]
          · simp only [List.append_assoc, List.singleton_append]
          · unfold MatchList.count at hfull ⊢
            simp only [List.length_append, List.length_cons, List.length_nil]
            omega
      · rw [ascii_loop_miss _ _ _ _ _ _ _ hlt hf, ascii_trace, if_pos hlt, if_neg hf]
        exact ih _ _ _ h
    · rw [ascii_loop_end _ _ _ _ _ _ _ hlt, ascii_trace, if_neg hlt, List.append_nil,
        List.take_of_length_le h]

theorem search_pattern_ascii_ret (alloc : Nat → Bool) (pattern : Pattern) (data : List Byte)
    (list : MatchList) :
    (search_pattern_ascii alloc pattern data list).1
      = if (search_pattern_ascii alloc pattern data list).2.count > 0 then 1 else 0 := rfl

theorem ascii_trace_length_replicate (c : Byte) (n : Nat) (hn : 1 ≤ n) :
    (ascii_trace (literal (List.replicate 1 c) 0) (List.replicate n c)
      (List.replicate n c).length 0 1).length = n := by
  have h1 := ascii_loop_trace (literal (List.replicate 1 c) 0) (List.replicate n c)
    (List.replicate n c).length 0 1 matchlist_create
  have h2 := ascii_spans_literal (List.replicate 1 c) (List.replicate n c)
  unfold search_pattern_ascii at h2
  simp only at h2
  rw [h1, brute_force_replicate c 1 n (Nat.le_refl 1) hn] at h2
  have h3 := congrArg List.length h2
  rw [List.length_map, List.length_map, List.length_range, List.length_append] at h3
  have h4 : matchlist_create.matches_.length = 0 := rfl
  omega

theorem count_no_growth_replicate (c : Byte) (n : Nat) (hn : 1 ≤ n) :
    (search_pattern_ascii (fun _ => false) (literal (List.replicate 1 c) 0) (List.replicate n c)
      matchlist_create).2.count = min 1024 n := by
  have hcap : matchlist_create.count ≤ matchlist_create.capacity := by decide
  have h4 : matchlist_create.matches_.length = 0 := rfl
  have h5 : matchlist_create.capacity = 1024 := rfl
  unfold search_pattern_ascii MatchList.count
  simp only
  rw [ascii_loop_no_growth _ _ _ _ _ _ hcap, List.length_take, List.length_append,
    ascii_trace_length_replicate c n hn, h4, h5, Nat.zero_add]

/-- C22 (counterexample): the pattern `a` over 1025 bytes `a` when the
reallocation fails. The reference holds 1025 occurrences; the scan returns its
ordinary value 1 with a MatchSet of 1024 matches. -/
theorem search_pattern_ascii_swallows_failure :
    (search_pattern_ascii (fun _ => false) (literal (List.replicate 1 97) 0)
        (List.replicate 1025 97) matchlist_create).1 = 1 ∧
      (search_pattern_ascii (fun _ => false) (literal (List.replicate 1 97) 0)
        (List.replicate 1025 97) matchlist_create).2.count = 1024 ∧
      (brute_force (List.replicate 1 97) (List.replicate 1025 97)).length = 1025 := by
  have hcount := count_no_growth_replicate 97 1025 (by decide)
  refine ⟨?_, ?_, ?_⟩
  · rw [search_pattern_ascii_ret, hcount]
    decide
  · rw [hcount]
    decide
  · rw [brute_force_replicate 97 1 1025 (by decide) (by decide), List.length_map,
      List.length_range]

theorem realloc_loop_found (realloc : Nat → Nat → Bool) (pattern : Pattern) (data : List Byte)
    (fuel pos line_num : Nat) (list : MatchList) (hlt : pos < data.length)
    (hf : found_at pattern data pos = true) :
    search_pattern_ascii_realloc_loop realloc pattern data (fuel + 1) pos line_num list
      = search_pattern_ascii_realloc_loop realloc pattern data fuel (pos + 1) line_num
          (matchlist_add (realloc pos) list pos (pos + pattern.pattern_len) line_num).2 := by
  rw [search_pattern_ascii_realloc_loop, if_pos hlt]
  simp only
  rw [if_pos ((found_flag pattern data pos).2 hf)]

theorem realloc_loop_miss (realloc : Nat → Nat → Bool) (pattern : Pattern) (data : List Byte)
    (fuel pos line_num : Nat) (list : MatchList) (hlt : pos < data.length)
    (hf : ¬ found_at pattern data pos = true) :
    search_pattern_ascii_realloc_loop realloc pattern data (fuel + 1) pos line_num list
      = search_pattern_ascii_realloc_loop realloc pattern data fuel (pos + 1)
          (if data.getD pos 0 = 10 then line_num + 1 else line_num) list := by
  rw [search_pattern_ascii_realloc_loop, if_pos hlt]
  simp only
  rw [if_neg (fun h => hf ((found_flag pattern data pos).1 h))]
  split <;> rfl

theorem realloc_loop_end (realloc : Nat → Nat → Bool) (pattern : Pattern) (data : List Byte)
    (fuel pos line_num : Nat) (list : MatchList) (hlt : ¬ pos < data.length) :
    search_pattern_ascii_realloc_loop realloc pattern data fuel pos line_num list = list := by
  cases fuel with
  | zero => rfl
  | succ fuel => rw [search_pattern_ascii_realloc_loop, if_neg hlt]

/-- With a `realloc` whose outcome depends on the requested size alone the
scan is `search_pattern_ascii` with that allocator. -/
theorem realloc_loop_const (alloc : Nat → Bool) (pattern : Pattern) (data : List Byte) :
    ∀ (fuel pos line_num : Nat) (list : MatchList),
      search_pattern_ascii_realloc_loop (fun _ => alloc) pattern data fuel pos line_num list
        = search_pattern_ascii_loop alloc pattern data fuel pos line_num list := by
  intro fuel
  induction fuel with
  | zero => intro pos line_num list; rfl
  | succ fuel ih =>
    intro pos line_num list
    by_cases hlt : pos < data.length
    · by_cases hf : found_at pattern data pos = true
      · rw [realloc_loop_found _ _ _ _ _ _ _ hlt hf, ascii_loop_found _ _ _ _ _ _ _ hlt hf, ih]
      · rw [realloc_loop_miss _ _ _ _ _ _ _ hlt hf, ascii_loop_miss _ _ _ _ _ _ _ hlt hf, ih]
    · rw [realloc_loop_end _ _ _ _ _ _ _ hlt, ascii_loop_end _ _ _ _ _ _ _ hlt]

/-- What one append does: it returns 1 with the match appended, or it returns
0 on a full list and leaves the list as it was. -/
theorem matchlist_add_cases (alloc : Nat → Bool) (list : MatchList) (s e n : Nat) :
    ((matchlist_add alloc list s e n).1 = 1 ∧
        (matchlist_add alloc list s e n).2.matches_ = list.matches_ ++ [⟨s, e, n⟩]) ∨
      (matchlist_add alloc list s e n = (0, list) ∧ list.count ≥ list.capacity) := by
  by_cases hc : list.count ≥ list.capacity
  · rw [matchlist_add_full alloc list s e n hc]
    by_cases ha : alloc (list.capacity * 2) = true
    · left
      rw [if_pos ha]
      exact ⟨rfl, rfl⟩
    · right
      rw [if_neg ha]
      exact ⟨rfl, hc⟩
  · left
    unfold matchlist_add
    rw [if_neg hc]
    exact ⟨rfl, rfl⟩

/-- Whatever the reallocations do, the scalar loop appends, in order, some of
the matches of its trace. -/
theorem realloc_loop_sublist (realloc : Nat → Nat → Bool) (pattern : Pattern)
    (data : List Byte) :
    ∀ (fuel pos line_num : Nat) (list : MatchList), ∃ S,
      (search_pattern_ascii_realloc_loop realloc pattern data fuel pos line_num list).matches_
          = list.matches_ ++ S ∧
        S.Sublist (ascii_trace pattern data fuel pos line_num) := by
  intro fuel
  induction fuel with
  | zero =>
    intro pos line_num list
    exact ⟨[], by simp [search_pattern_ascii_realloc_loop], List.nil_sublist _⟩
  | succ fuel ih =>
    intro pos line_num list
    by_cases hlt : pos < data.length
    · by_cases hf : found_at pattern data pos = true
      · rw [realloc_loop_found _ _ _ _ _ _ _ hlt hf, ascii_trace, if_pos hlt, if_pos hf]
        obtain ⟨S, h1, h2⟩ := ih (pos + 1) line_num
          (matchlist_add (realloc pos) list pos (pos + pattern.pattern_len) line_num).2
        rcases matchlist_add_cases (realloc pos) list pos (pos + pattern.pattern_len) line_num
          with ⟨_, ha⟩ | ⟨ha, _⟩
        · refine ⟨⟨pos, pos + pattern.pattern_len, line_num⟩ :: S, ?_, List.Sublist.cons₂ _ h2⟩
          rw [h1, ha, List.append_assoc]
          rfl
        · refine ⟨S, ?_, List.Sublist.cons _ h2⟩
          rw [h1, ha]
      · rw [realloc_loop_miss _ _ _ _ _ _ _ hlt hf, ascii_trace, if_pos hlt, if_neg hf]
        exact ih _ _ _
    · exact ⟨[], by rw [realloc_loop_end _ _ _ _ _ _ _ hlt]; simp, List.nil_sublist _⟩

/-- An append can fail only on a full list, so the matches that fit in the
capacity the scan started with are never lost. -/
theorem realloc_loop_first (realloc : Nat → Nat → Bool) (pattern : Pattern)
    (data : List Byte) :
    ∀ (fuel pos line_num : Nat) (list : MatchList), list.count ≤ list.capacity →
      (search_pattern_ascii_realloc_loop realloc pattern data fuel pos line_num
          list).matches_.take list.capacity
        = (list.matches_ ++ ascii_trace pattern data fuel pos line_num).take list.capacity := by
  intro fuel
  induction fuel with
  | zero =>
    intro pos line_num list h
    simp [search_pattern_ascii_realloc_loop, ascii_trace]
  | succ fuel ih =>
    intro pos line_num list h
    unfold MatchList.count at h
    by_cases hlt : pos < data.length
    · by_cases hf : found_at pattern data pos = true
      · rw [realloc_loop_found _ _ _ _ _ _ _ hlt hf, ascii_trace, if_pos hlt, if_pos hf]
        by_cases hfull : list.count ≥ list.capacity
        · have hlen : list.matches_.length = list.capacity := by
            unfold MatchList.count at hfull
            omega
          obtain ⟨S, h1, _⟩ := realloc_loop_sublist realloc pattern data fuel (pos + 1) line_num
            (matchlist_add (realloc pos) list pos (pos + pattern.pattern_len) line_num).2
          have hext : ∃ X, (matchlist_add (realloc pos) list pos (pos + pattern.pattern_len)
              line_num).2.matches_ = list.matches_ ++ X := by
            rcases matchlist_add_cases (realloc pos) list pos (pos + pattern.pattern_len)
              line_num with ⟨_, ha⟩ | ⟨ha, _⟩
            · exact ⟨_, ha⟩
            · exact ⟨[], by rw [ha, List.append_nil]⟩
          obtain ⟨X, hX⟩ := hext
          rw [h1, hX, List.append_assoc, List.take_append_of_le_length (by omega),
            List.take_append_of_le_length (by omega)]
        · have hadd : matchlist_add (realloc pos) list pos (pos + pattern.pattern_len) line_num
              = (1, ⟨list.matches_ ++ [⟨pos, pos + pattern.pattern_len, line_num⟩],
                  list.capacity⟩) := by
            unfold matchlist_add
            rw [if_neg hfull]
          rw [hadd]
          have h3 := ih (pos + 1) line_num
            ⟨list.matches_ ++ [⟨pos, pos + pattern.pattern_len, line_num⟩], list.capacity⟩
            (by
              unfold MatchList.count at hfull ⊢
              simp only [List.length_append, List.length_cons, List.length_nil]
              omega)
          simpa only [List.append_assoc, List.singleton_append] using h3
      · rw [realloc_loop_miss _ _ _ _ _ _ _ hlt hf, ascii_trace, if_pos hlt, if_neg hf]
        exact ih _ _ _ h
    · rw [realloc_loop_end _ _ _ _ _ _ _ hlt, ascii_trace, if_neg hlt, List.append_nil]

/-- The pattern `a` over `"aa"` on a full list, when the reallocation fails
at the first occurrence and succeeds at the second: the first occurrence is
lost, the second is stored. -/
theorem realloc_fails_once_scan (list : MatchList) (hfull : list.count ≥ list.capacity) :
    search_pattern_ascii_realloc realloc_fails_once (literal (bytes "a") 0) (bytes "aa") list
        = (1, ⟨list.matches_ ++ [⟨1, 2, 1⟩], list.capacity * 2⟩) ∧
      (search_pattern_ascii alloc_ok (literal (bytes "a") 0) (bytes "aa") list).2.matches_
        = list.matches_ ++ [⟨0, 1, 1⟩, ⟨1, 2, 1⟩] := by
  have h0 : found_at (literal (bytes "a") 0) (bytes "aa") 0 = true := by decide
  have h1 : found_at (literal (bytes "a") 0) (bytes "aa") 1 = true := by decide
  have hlen : (bytes "aa").length = 1 + 1 := by decide
  have hl0 : 0 < (bytes "aa").length := by decide
  have hl1 : 0 + 1 < (bytes "aa").length := by decide
  constructor
  · have hloop : search_pattern_ascii_realloc_loop realloc_fails_once (literal (bytes "a") 0)
        (bytes "aa") (1 + 1) 0 1 list = ⟨list.matches_ ++ [⟨1, 2, 1⟩], list.capacity * 2⟩ := by
      rw [realloc_loop_found _ _ _ _ _ _ _ hl0 h0, matchlist_add_full _ _ _ _ _ hfull]
      have r0 : realloc_fails_once 0 (list.capacity * 2) = false := rfl
      rw [r0]
      simp only [Bool.false_eq_true, if_false]
      rw [realloc_loop_found _ _ _ _ _ _ _ hl1 h1, matchlist_add_full _ _ _ _ _ hfull]
      have r1 : realloc_fails_once (0 + 1) (list.capacity * 2) = true := rfl
      rw [r1]
      simp only [if_true]
      rfl
    unfold search_pattern_ascii_realloc
    simp only
    rw [hlen, hloop]
    simp [MatchList.count]
  · unfold search_pattern_ascii
    simp only
    rw [ascii_loop_trace]
    have ht : ascii_trace (literal (bytes "a") 0) (bytes "aa") (bytes "aa").length 0 1
        = [⟨0, 1, 1⟩, ⟨1, 2, 1⟩] := by decide
    rw [ht]

/-- C22 (amended): an append that fails returns 0 and leaves the list as it
was, and `search_pattern_ascii` does not look at that value: it goes on with
the scan and returns its ordinary value, 1 exactly when the MatchSet is not
empty. Whatever the successive reallocations do (`realloc` gives the outcome
of each call of the scan), the MatchSet it leaves holds, in scan order, some of
the matches of the scan without allocation failure, among them the first 1024;
it holds them all when no reallocation fails. A reallocation that fails once
and succeeds at the next call loses one match in the middle: on a full list,
the pattern `a` over `"aa"` stores the second occurrence and not the first. -/
theorem search_pattern_ascii_ignores_failure (realloc : Nat → Nat → Bool) (P B : List Byte)
    (ci : Int) :
    (∀ (alloc : Nat → Bool) (list : MatchList) (s e n : Nat),
        ((matchlist_add alloc list s e n).1 = 1 ∧
            (matchlist_add alloc list s e n).2.matches_ = list.matches_ ++ [⟨s, e, n⟩]) ∨
          (matchlist_add alloc list s e n = (0, list) ∧ list.count ≥ list.capacity)) ∧
      (search_pattern_ascii_realloc realloc (literal P ci) B matchlist_create).1
        = (if (search_pattern_ascii_realloc realloc (literal P ci) B matchlist_create).2.count > 0
          then 1 else 0) ∧
      ((search_pattern_ascii_realloc realloc (literal P ci) B matchlist_create).2.matches_).Sublist
        (search_pattern_ascii alloc_ok (literal P ci) B matchlist_create).2.matches_ ∧
      (search_pattern_ascii_realloc realloc (literal P ci) B matchlist_create).2.matches_.take 1024
        = (search_pattern_ascii alloc_ok (literal P ci) B matchlist_create).2.matches_.take
            1024 ∧
      (∀ alloc : Nat → Bool,
        search_pattern_ascii_realloc (fun _ => alloc) (literal P ci) B matchlist_create
          = search_pattern_ascii alloc (literal P ci) B matchlist_create) ∧
      search_pattern_ascii_realloc realloc_fails_once (literal (bytes "a") 0) (bytes "aa")
          matchlist_full
        = (1, ⟨matchlist_full.matches_ ++ [⟨1, 2, 1⟩], 2048⟩) ∧
      (search_pattern_ascii alloc_ok (literal (bytes "a") 0) (bytes "aa")
          matchlist_full).2.matches_
        = matchlist_full.matches_ ++ [⟨0, 1, 1⟩, ⟨1, 2, 1⟩] := by
  refine ⟨matchlist_add_cases, rfl, ?_, ?_, ?_, (realloc_fails_once_scan matchlist_full
    matchlist_full_count).1, (realloc_fails_once_scan matchlist_full matchlist_full_count).2⟩
  · obtain ⟨S, h1, h2⟩ := realloc_loop_sublist realloc (literal P ci) B B.length 0 1
      matchlist_create
    unfold search_pattern_ascii_realloc search_pattern_ascii
    simp only
    rw [h1, ascii_loop_trace]
    exact List.Sublist.append (List.Sublist.refl _) h2
  · have h := realloc_loop_first realloc (literal P ci) B B.length 0 1 matchlist_create
      (by decide)
    unfold search_pattern_ascii_realloc search_pattern_ascii
    simp only
    rw [ascii_loop_trace]
    exact h
  · intro alloc
    unfold search_pattern_ascii_realloc search_pattern_ascii
    simp only
    rw [realloc_loop_const]

/-! ## A match and the line around it -/

theorem find_line_start_loop_spec (data : List Byte) :
    ∀ (fuel i : Nat), i ≤ fuel →
      find_line_start_loop data fuel i ≤ i ∧
        (find_line_start_loop data fuel i = 0 ∨
          data.getD (find_line_start_loop data fuel i - 1) 0 = 10) ∧
        ∀ j, find_line_start_loop data fuel i ≤ j → j < i → data.getD j 0 ≠ 10 := by
  intro fuel
  induction fuel with
  | zero =>
    intro i hi
    have h0 : i = 0 := by omega
    subst h0
    exact ⟨Nat.le_refl _, Or.inl rfl, fun j _ hj => absurd hj (Nat.not_lt_zero _)⟩
  | succ fuel ih =>
    intro i hi
    rw [find_line_start_loop]
    by_cases hc : i > 0 ∧ data.getD (i - 1) 0 ≠ 10
    · rw [if_pos hc]
      obtain ⟨h1, h2, h3⟩ := ih (i - 1) (by omega)
      refine ⟨by omega, h2, ?_⟩
      intro j hj1 hj2
      by_cases hj : j = i - 1
      · rw [hj]
        exact hc.2
      · exact h3 j hj1 (by omega)
    · rw [if_neg hc]
      refine ⟨Nat.le_refl _, ?_, fun j h1 h2 => absurd h2 (by omega)⟩
      by_cases h0 : i = 0
      · exact Or.inl h0
      · right
        by_contra hne
        exact hc ⟨by omega, hne⟩

theorem find_line_end_loop_spec (data : List Byte) :
    ∀ (fuel i : Nat), i ≤ data.length → data.length ≤ i + fuel →
      i ≤ find_line_end_loop data fuel i ∧ find_line_end_loop data fuel i ≤ data.length ∧
        (find_line_end_loop data fuel i = data.length ∨
          data.getD (find_line_end_loop data fuel i) 0 = 10) ∧
        ∀ j, i ≤ j → j < find_line_end_loop data fuel i → data.getD j 0 ≠ 10 := by
  intro fuel
  induction fuel with
  | zero =>
    intro i hi hf
    have h0 : i = data.length := by omega
    exact ⟨Nat.le_refl _, hi, Or.inl h0, fun j h1 h2 => absurd h2 (by
      show ¬ j < i
      omega)⟩
  | succ fuel ih =>
    intro i hi hf
    rw [find_line_end_loop]
    by_cases hc : i < data.length ∧ data.getD i 0 ≠ 10
    · rw [if_pos hc]
      obtain ⟨h1, h2, h3, h4⟩ := ih (i + 1) (by omega) (by omega)
      refine ⟨by omega, h2, h3, ?_⟩
      intro j hj1 hj2
      by_cases hj : j = i
      · rw [hj]
        exact hc.2
      · exact h4 j (by omega) hj2
    · rw [if_neg hc]
      refine ⟨Nat.le_refl _, hi, ?_, fun j h1 h2 => absurd h2 (by omega)⟩
      by_cases h0 : i = data.length
      · exact Or.inl h0
      · right
        by_contra hne
        exact hc ⟨by omega, hne⟩

theorem fold_byte_eq_newline (ci : Int) (c : Byte) : fold_byte ci c = 10 ↔ c = 10 := by
  unfold fold_byte
  split
  · exact tolower_eq_newline c
  · exact Iff.rfl

/-- Where a literal without newline occurs there is no newline. -/
theorem literal_occurs_no_newline (P B : List Byte) (ci : Int) (hP : (10 : Byte) ∉ P) (p : Nat)
    (h : literal_occurs P B ci p) : ∀ i < P.length, B.getD (p + i) 0 ≠ 10 := by
  intro i hi hnl
  have h1 := h.2.2 i hi
  rw [hnl] at h1
  have h2 : fold_byte ci (P.getD i 0) = 10 := by
    rw [h1]
    exact (fold_byte_eq_newline ci 10).2 rfl
  have h3 := (fold_byte_eq_newline ci _).1 h2
  rw [getD_eq_getElem_byte P i hi] at h3
  apply hP
  rw [← h3]
  exact List.getElem_mem _

/-- Every match the scalar scan leaves, with any allocator, is the span of an
occurrence of the literal. -/
theorem ascii_match_occurs (alloc : Nat → Bool) (P B : List Byte) (ci : Int) (m : Match)
    (hm : m ∈ (search_pattern_ascii alloc (literal P ci) B matchlist_create).2.matches_) :
    m.end_ = m.start + P.length ∧ literal_occurs P B ci m.start := by
  obtain ⟨k, hk⟩ := ascii_loop_take alloc (literal P ci) B B.length 0 1 matchlist_create
  have hm2 : m ∈ (search_pattern_ascii alloc_ok (literal P ci) B matchlist_create).2.matches_ := by
    unfold search_pattern_ascii at hm ⊢
    simp only at hm ⊢
    rw [hk] at hm
    rw [ascii_loop_trace]
    rcases List.mem_append.1 hm with h | h
    · exact List.mem_append_left _ h
    · exact List.mem_append_right _ (List.mem_of_mem_take h)
  have hspan : m.span ∈ (search_pattern_ascii alloc_ok (literal P ci) B
      matchlist_create).2.matches_.map Match.span := List.mem_map_of_mem _ hm2
  rw [ascii_spans] at hspan
  simp only [List.mem_map, List.mem_filter, List.mem_range] at hspan
  obtain ⟨p, ⟨_, hf⟩, hp⟩ := hspan
  have h1 : m.start = p := (congrArg Prod.fst hp).symm
  have h2 : m.end_ = p + P.length := (congrArg Prod.snd hp).symm
  rw [h1]
  exact ⟨h2, (found_at_iff_literal_occurs P B ci p).1 hf⟩

/-- C26: a literal match stays inside one line. For a literal `P` without
newline byte (either flag) and every buffer, each match of
`search_pattern_ascii` (with any allocator) has `start < |B|`, `end ≤ |B|`,
`find_line_start(start) ≤ start` and `end ≤ find_line_end(start)`;
`find_line_start` is the nearest offset at or before `start` that is 0 or
follows a newline, `find_line_end` the nearest offset at or after `start` that
is `|B|` or holds a newline; so the three lengths `output_match` computes are
not negative. -/
theorem match_within_line (alloc : Nat → Bool) (P B : List Byte) (ci : Int)
    (hP : (10 : Byte) ∉ P) (m : Match)
    (hm : m ∈ (search_pattern_ascii alloc (literal P ci) B matchlist_create).2.matches_) :
    m.start < B.length ∧ m.end_ ≤ B.length ∧
      find_line_start B m.start ≤ m.start ∧ m.end_ ≤ find_line_end B m.start ∧
      (find_line_start B m.start = 0 ∨ B.getD (find_line_start B m.start - 1) 0 = 10) ∧
      (∀ j, find_line_start B m.start ≤ j → j < m.start → B.getD j 0 ≠ 10) ∧
      (find_line_end B m.start = B.length ∨ B.getD (find_line_end B m.start) 0 = 10) ∧
      (∀ j, m.start ≤ j → j < find_line_end B m.start → B.getD j 0 ≠ 10) ∧
      0 ≤ (output_match_lengths B m).1 ∧ 0 ≤ (output_match_lengths B m).2.1 ∧
      0 ≤ (output_match_lengths B m).2.2 := by
  obtain ⟨hend, hocc⟩ := ascii_match_occurs alloc P B ci m hm
  have hlt : m.start < B.length := hocc.1
  have hle : m.end_ ≤ B.length := by
    have := hocc.2.1
    omega
  have hs : find_line_start B m.start = find_line_start_loop B m.start m.start := by
    unfold find_line_start
    rw [if_neg (by omega)]
  have he : find_line_end B m.start = find_line_end_loop B B.length m.start := by
    unfold find_line_end
    rw [if_neg (by omega)]
  obtain ⟨s1, s2, s3⟩ := find_line_start_loop_spec B m.start m.start (Nat.le_refl _)
  obtain ⟨e1, e2, e3, e4⟩ := find_line_end_loop_spec B B.length m.start (by omega) (by omega)
  rw [← hs] at s1 s2 s3
  rw [← he] at e1 e2 e3 e4
  have hnonl := literal_occurs_no_newline P B ci hP m.start hocc
  have hend2 : m.end_ ≤ find_line_end B m.start := by
    by_contra hcon
    have hlt2 : find_line_end B m.start < m.start + P.length := by omega
    have hne : find_line_end B m.start ≠ B.length := by omega
    have hnl : B.getD (find_line_end B m.start) 0 = 10 := by
      rcases e3 with h | h
      · exact absurd h hne
      · exact h
    have := hnonl (find_line_end B m.start - m.start) (by omega)
    rw [Nat.add_sub_cancel' e1] at this
    exact this hnl
  refine ⟨hlt, hle, s1, hend2, s2, s3, e3, e4, ?_, ?_, ?_⟩
  · show 0 ≤ (m.start : Int) - (find_line_start B m.start : Int)
    omega
  · show 0 ≤ (m.end_ : Int) - (m.start : Int)
    omega
  · show 0 ≤ ((find_line_end B m.start : Int) - (find_line_start B m.start : Int))
      - ((m.start : Int) - (find_line_start B m.start : Int))
      - ((m.end_ : Int) - (m.start : Int))
    omega

theorem match_within_line_witness :
    ((10 : Byte) ∉ bytes "cd" ∧
        (⟨3, 5, 2⟩ : Match) ∈ (search_pattern_ascii alloc_ok (literal (bytes "cd") 0)
          (bytes "ab\ncd\nef") matchlist_create).2.matches_) ∧
      find_line_start (bytes "ab\ncd\nef") 3 ≤ 3 ∧ 5 ≤ find_line_end (bytes "ab\ncd\nef") 3 :=
  ⟨⟨by decide, by decide⟩,
    (match_within_line alloc_ok (bytes "cd") (bytes "ab\ncd\nef") 0 (by decide) ⟨3, 5, 2⟩
      (by decide)).2.2.1,
    (match_within_line alloc_ok (bytes "cd") (bytes "ab\ncd\nef") 0 (by decide) ⟨3, 5, 2⟩
      (by decide)).2.2.2.1⟩

/-! ## What the regex scan reports -/

theorem to_size_t_add (pos : Nat) (x : Int) (hx : 0 ≤ x) (hlt : pos + x.toNat < 2 ^ 64) :
    to_size_t ((pos : Int) + x) = pos + x.toNat := by
  unfold to_size_t
  have h1 : ((pos : Int) + x) % 2 ^ 64 = (pos : Int) + x := by
    apply Int.emod_eq_of_lt
    · omega
    · have : ((pos + x.toNat : Nat) : Int) < 2 ^ 64 := by exact_mod_cast hlt
      omega
  rw [h1]
  omega

theorem cstring_at_length (data : List Byte) (pos : Nat) :
    pos + (cstring_at data pos).length ≤ max pos data.length := by
  unfold cstring_at
  have h1 := List.Sublist.length_le
    (List.takeWhile_sublist (l := data.drop pos) (fun b => decide (b ≠ (0 : Byte))))
  rw [List.length_drop] at h1
  omega

/-- A string stops at the latest where a NUL byte lies: up to there it is the
string of the memory cut at that place. -/
theorem takeWhile_until_nul (l : List Byte) :
    ∀ k, l.getD k 0 = 0 →
      l.takeWhile (fun b => decide (b ≠ (0 : Byte)))
          = (l.take k).takeWhile (fun b => decide (b ≠ (0 : Byte))) ∧
        (l.takeWhile (fun b => decide (b ≠ (0 : Byte)))).length ≤ k := by
  induction l with
  | nil => intro k _; simp
  | cons a t ih =>
    intro k hk
    cases k with
    | zero =>
      have ha : a = 0 := by simpa using hk
      rw [ha]
      simp
    | succ k =>
      have hk2 : t.getD k 0 = 0 := by simpa using hk
      obtain ⟨h1, h2⟩ := ih k hk2
      rw [List.take_succ_cons, List.takeWhile_cons, List.takeWhile_cons]
      by_cases hp : decide (a ≠ (0 : Byte)) = true
      · rw [if_pos hp, if_pos hp, ← h1]
        exact ⟨rfl, by rw [List.length_cons]; omega⟩
      · rw [if_neg hp, if_neg hp]
        exact ⟨rfl, by simp⟩

theorem getD_drop_sub (mem : List Byte) (pos size : Nat) (hpos : pos ≤ size) :
    (mem.drop pos).getD (size - pos) 0 = mem.getD size 0 := by
  have h : pos + (size - pos) = size := by omega
  rw [List.getD_eq_getElem?_getD, List.getD_eq_getElem?_getD, List.getElem?_drop, h]

/-- When the byte after the buffer is NUL (or the memory ends with the buffer)
the string at a cursor inside the buffer is that of the buffer alone and ends
within it. -/
theorem cstring_at_terminated (mem : List Byte) (size pos : Nat) (hnul : mem.getD size 0 = 0)
    (hpos : pos ≤ size) :
    cstring_at mem pos = cstring_at (mem.take size) pos ∧
      pos + (cstring_at mem pos).length ≤ size := by
  unfold cstring_at
  have h := takeWhile_until_nul (mem.drop pos) (size - pos)
    (by rw [getD_drop_sub mem pos size hpos]; exact hnul)
  rw [List.drop_take]
  refine ⟨h.1, ?_⟩
  have := h.2
  omega

/-- Over a buffer that is followed by a NUL byte the scan of the memory is the
scan of the buffer alone. -/
theorem search_pattern_regex_mem_loop_terminated (alloc : Nat → Bool) (pattern : Pattern)
    (mem : List Byte) (size : Nat) (hnul : mem.getD size 0 = 0) (hsize : size ≤ mem.length) :
    ∀ (fuel pos line_num : Nat) (list : MatchList),
      search_pattern_regex_mem_loop alloc pattern mem size fuel pos line_num list
        = search_pattern_regex_loop alloc pattern (mem.take size) fuel pos line_num list := by
  intro fuel
  induction fuel with
  | zero =>
    intro pos line_num list
    rw [search_pattern_regex_mem_loop, search_pattern_regex_loop]
  | succ fuel ih =>
    intro pos line_num list
    rw [search_pattern_regex_mem_loop, search_pattern_regex_loop, List.length_take,
      Nat.min_eq_left hsize]
    by_cases hpos : pos ≤ size
    · rw [if_pos hpos, if_pos hpos, (cstring_at_terminated mem size pos hnul hpos).1]
      simp only [ih]
    · rw [if_neg hpos, if_neg hpos]

/-- A regex scan that returns has appended, with the line number it holds,
the spans of the engine's hits, when the engine reports matches that lie
within the string it searched. -/
theorem regex_loop_hits (pattern : Pattern) (mem : List Byte) (size : Nat)
    (hvalid : ∀ s, (pattern.regex_compiled s).result = 0 → (pattern.regex_compiled s).rm_so ≠ -1 →
      0 ≤ (pattern.regex_compiled s).rm_so ∧
        (pattern.regex_compiled s).rm_so ≤ (pattern.regex_compiled s).rm_eo ∧
        (pattern.regex_compiled s).rm_eo ≤ s.length)
    (hsize : size ≤ mem.length) (hmem : mem.length < 2 ^ 64) :
    ∀ (fuel pos line_num : Nat) (list out : MatchList),
      search_pattern_regex_mem_loop alloc_ok pattern mem size fuel pos line_num list = some out →
        out.matches_ = list.matches_ ++
          (regex_hit_spans pattern.regex_compiled mem size fuel pos).map
            (fun sp => ⟨sp.1, sp.2, line_num⟩) := by
  intro fuel
  induction fuel with
  | zero =>
    intro pos line_num list out h
    exact absurd h (by simp [search_pattern_regex_mem_loop])
  | succ fuel ih =>
    intro pos line_num list out h
    rw [search_pattern_regex_mem_loop] at h
    rw [regex_hit_spans]
    by_cases hpos : pos ≤ size
    · rw [if_pos hpos] at h
      rw [if_pos hpos]
      simp only at h ⊢
      by_cases hmiss : (pattern.regex_compiled (cstring_at mem pos)).result ≠ 0 ∨
          (pattern.regex_compiled (cstring_at mem pos)).rm_so = -1
      · rw [if_pos hmiss] at h
        rw [if_pos hmiss, ← Option.some.inj h]
        simp
      · rw [if_neg hmiss] at h
        rw [if_neg hmiss]
        have hres : (pattern.regex_compiled (cstring_at mem pos)).result = 0 := by
          by_contra hne
          exact hmiss (Or.inl hne)
        have hso : (pattern.regex_compiled (cstring_at mem pos)).rm_so ≠ -1 :=
          fun he => hmiss (Or.inr he)
        obtain ⟨v1, v2, v3⟩ := hvalid _ hres hso
        have hlen := cstring_at_length mem pos
        have e1 := to_size_t_add pos (pattern.regex_compiled (cstring_at mem pos)).rm_so v1
          (by omega)
        have e2 := to_size_t_add pos (pattern.regex_compiled (cstring_at mem pos)).rm_eo
          (by omega) (by omega)
        rw [e1, e2] at h
        rw [ih _ _ _ _ h, matchlist_add_ok, List.map_cons, List.append_assoc]
        rfl
    · rw [if_neg hpos] at h
      rw [if_neg hpos, ← Option.some.inj h]
      simp

/-- The spans of the hits are in order and do not overlap: each starts at or
after the cursor, ends within the memory read, and starts at or after the end
of every earlier one; when the byte after the buffer is NUL each ends within
the buffer. -/
theorem regex_hit_spans_chain (re : regex_t) (mem : List Byte) (size : Nat)
    (hvalid : ∀ s, (re s).result = 0 → (re s).rm_so ≠ -1 →
      0 ≤ (re s).rm_so ∧ (re s).rm_so ≤ (re s).rm_eo ∧ (re s).rm_eo ≤ s.length)
    (hsize : size ≤ mem.length) :
    ∀ (fuel cursor : Nat),
      (∀ sp ∈ regex_hit_spans re mem size fuel cursor,
        cursor ≤ sp.1 ∧ sp.1 ≤ sp.2 ∧ sp.2 ≤ mem.length ∧
          (mem.getD size 0 = 0 → sp.2 ≤ size)) ∧
      (regex_hit_spans re mem size fuel cursor).Pairwise (fun a b => a.2 ≤ b.1) ∧
      (regex_hit_spans re mem size fuel cursor).Pairwise (fun a b => a.1 ≤ b.1) := by
  intro fuel
  induction fuel with
  | zero =>
    intro cursor
    simp [regex_hit_spans]
  | succ fuel ih =>
    intro cursor
    rw [regex_hit_spans]
    by_cases hpos : cursor ≤ size
    · rw [if_pos hpos]
      simp only
      by_cases hmiss : (re (cstring_at mem cursor)).result ≠ 0 ∨
          (re (cstring_at mem cursor)).rm_so = -1
      · rw [if_pos hmiss]
        simp
      · rw [if_neg hmiss]
        have hres : (re (cstring_at mem cursor)).result = 0 := by
          by_contra hne
          exact hmiss (Or.inl hne)
        have hso : (re (cstring_at mem cursor)).rm_so ≠ -1 := fun he => hmiss (Or.inr he)
        obtain ⟨v1, v2, v3⟩ := hvalid _ hres hso
        have hlen := cstring_at_length mem cursor
        obtain ⟨a1, a2, a3⟩ := ih (if cursor + (re (cstring_at mem cursor)).rm_eo.toNat ≠ 0
          then cursor + (re (cstring_at mem cursor)).rm_eo.toNat else cursor + 1)
        have hnext : cursor + (re (cstring_at mem cursor)).rm_eo.toNat
            ≤ (if cursor + (re (cstring_at mem cursor)).rm_eo.toNat ≠ 0
              then cursor + (re (cstring_at mem cursor)).rm_eo.toNat else cursor + 1) := by
          split <;> omega
        have hle : (re (cstring_at mem cursor)).rm_so.toNat
            ≤ (re (cstring_at mem cursor)).rm_eo.toNat := by omega
        refine ⟨?_, ?_, ?_⟩
        · intro sp hsp
          rcases List.mem_cons.1 hsp with h | h
          · rw [h]
            refine ⟨by omega, by omega, by omega, ?_⟩
            intro hnul
            have hterm := (cstring_at_terminated mem size cursor hnul hpos).2
            show cursor + (re (cstring_at mem cursor)).rm_eo.toNat ≤ size
            omega
          · obtain ⟨b1, b2, b3, b4⟩ := a1 sp h
            exact ⟨by omega, b2, b3, b4⟩
        · rw [List.pairwise_cons]
          refine ⟨?_, a2⟩
          intro sp hsp
          have := (a1 sp hsp).1
          show cursor + (re (cstring_at mem cursor)).rm_eo.toNat ≤ sp.1
          omega
        · rw [List.pairwise_cons]
          refine ⟨?_, a3⟩
          intro sp hsp
          have := (a1 sp hsp).1
          show cursor + (re (cstring_at mem cursor)).rm_so.toNat ≤ sp.1
          omega
    · rw [if_neg hpos]
      simp

/-- When no hit is empty the cursor advances at every hit, and `size + 2`
iterations bring the loop to its exit. -/
theorem regex_loop_returns (pattern : Pattern) (mem : List Byte) (size : Nat)
    (hvalid : ∀ s, (pattern.regex_compiled s).result = 0 → (pattern.regex_compiled s).rm_so ≠ -1 →
      0 ≤ (pattern.regex_compiled s).rm_so ∧
        (pattern.regex_compiled s).rm_so ≤ (pattern.regex_compiled s).rm_eo ∧
        (pattern.regex_compiled s).rm_eo ≤ s.length)
    (hsize : size ≤ mem.length) (hmem : mem.length < 2 ^ 64)
    (hnz : ∀ s, (pattern.regex_compiled s).result = 0 → (pattern.regex_compiled s).rm_so ≠ -1 →
      1 ≤ (pattern.regex_compiled s).rm_eo) :
    ∀ (fuel pos line_num : Nat) (list : MatchList), size + 1 - pos + 1 ≤ fuel →
      (search_pattern_regex_mem_loop alloc_ok pattern mem size fuel pos line_num list).isSome
        = true := by
  intro fuel
  induction fuel with
  | zero =>
    intro pos line_num list h
    omega
  | succ fuel ih =>
    intro pos line_num list h
    rw [search_pattern_regex_mem_loop]
    by_cases hpos : pos ≤ size
    · rw [if_pos hpos]
      simp only
      by_cases hmiss : (pattern.regex_compiled (cstring_at mem pos)).result ≠ 0 ∨
          (pattern.regex_compiled (cstring_at mem pos)).rm_so = -1
      · rw [if_pos hmiss]
        rfl
      · rw [if_neg hmiss]
        have hres : (pattern.regex_compiled (cstring_at mem pos)).result = 0 := by
          by_contra hne
          exact hmiss (Or.inl hne)
        have hso : (pattern.regex_compiled (cstring_at mem pos)).rm_so ≠ -1 :=
          fun he => hmiss (Or.inr he)
        obtain ⟨v1, v2, v3⟩ := hvalid _ hres hso
        have v4 := hnz _ hres hso
        have hlen := cstring_at_length mem pos
        have e2 := to_size_t_add pos (pattern.regex_compiled (cstring_at mem pos)).rm_eo
          (by omega) (by omega)
        rw [e2, if_pos (by omega)]
        exact ih _ _ _ (by omega)
    · rw [if_neg hpos]
      rfl

theorem regex_first_b_valid (s : List Byte) (h1 : (regex_first_b s).result = 0)
    (_h2 : (regex_first_b s).rm_so ≠ -1) :
    0 ≤ (regex_first_b s).rm_so ∧ (regex_first_b s).rm_so ≤ (regex_first_b s).rm_eo ∧
      (regex_first_b s).rm_eo ≤ s.length := by
  unfold regex_first_b at h1 ⊢
  by_cases h : s.indexOf 98 < s.length
  · rw [if_pos h]
    simp only
    omega
  · rw [if_neg h] at h1
    exact absurd h1 (by decide)

theorem regex_first_b_nonempty (s : List Byte) (h1 : (regex_first_b s).result = 0)
    (_h2 : (regex_first_b s).rm_so ≠ -1) : 1 ≤ (regex_first_b s).rm_eo := by
  unfold regex_first_b at h1 ⊢
  by_cases h : s.indexOf 98 < s.length
  · rw [if_pos h]
    simp only
    omega
  · rw [if_neg h] at h1
    exact absurd h1 (by decide)

/-- C23: what the regex scan reports. `mem` is the memory at `data`, of which
the first `size` bytes are the buffer; the engine is given the string from the
cursor to the first NUL byte of the memory. For a compiled pattern whose
engine reports matches that lie within the string it searched
(`0 ≤ rm_so ≤ rm_eo ≤` its length): a scan that returns has reported, from
cursor 0 on and up to the first miss, exactly one match per hit, with the span
`(cursor + rm_so, cursor + rm_eo)`; the spans of the hits, for any number of
iterations, have non-decreasing starts, each starts at or after the end of
every earlier one, and each ends within the buffer when the byte after the
buffer is NUL; the scan does return, within `size + 2` iterations, when no hit
is empty; over a buffer followed by NUL it is the scan of the buffer alone;
with an engine for `error[0-9]+` the scan of the string
`"error123 error456 error789"` reports exactly `[0,8)`, `[9,17)` and
`[18,26)`, and it reports the same three when only the first 17 bytes of that
text are the buffer, the last one lying past the end of the buffer. -/
theorem search_pattern_regex_reports_hits (pattern : Pattern) (mem : List Byte) (size : Nat)
    (hcomp : pattern.is_regex_compiled ≠ 0)
    (hvalid : ∀ s, (pattern.regex_compiled s).result = 0 → (pattern.regex_compiled s).rm_so ≠ -1 →
      0 ≤ (pattern.regex_compiled s).rm_so ∧
        (pattern.regex_compiled s).rm_so ≤ (pattern.regex_compiled s).rm_eo ∧
        (pattern.regex_compiled s).rm_eo ≤ s.length)
    (hsize : size ≤ mem.length) (hmem : mem.length < 2 ^ 64) :
    (∀ (fuel : Nat) (out : Int × MatchList),
        search_pattern_regex_mem alloc_ok fuel pattern mem size matchlist_create = some out →
          out.2.matches_ = (regex_hit_spans pattern.regex_compiled mem size fuel 0).map
              (fun sp => ⟨sp.1, sp.2, 1⟩) ∧
            out.2.count = (regex_hit_spans pattern.regex_compiled mem size fuel 0).length) ∧
      (∀ fuel : Nat,
        (regex_hit_spans pattern.regex_compiled mem size fuel 0).Pairwise
            (fun a b => a.1 ≤ b.1) ∧
          (regex_hit_spans pattern.regex_compiled mem size fuel 0).Pairwise
            (fun a b => a.2 ≤ b.1) ∧
          ∀ sp ∈ regex_hit_spans pattern.regex_compiled mem size fuel 0,
            sp.1 ≤ sp.2 ∧ sp.2 ≤ mem.length ∧ (mem.getD size 0 = 0 → sp.2 ≤ size)) ∧
      ((∀ s, (pattern.regex_compiled s).result = 0 → (pattern.regex_compiled s).rm_so ≠ -1 →
          1 ≤ (pattern.regex_compiled s).rm_eo) →
        (search_pattern_regex_mem alloc_ok (size + 2) pattern mem size matchlist_create).isSome
          = true) ∧
      (mem.getD size 0 = 0 → ∀ (alloc : Nat → Bool) (fuel : Nat) (list : MatchList),
        search_pattern_regex_mem alloc fuel pattern mem size list
          = search_pattern_regex alloc fuel pattern (mem.take size) list) ∧
      search_pattern_regex_mem alloc_ok 4 (regex_pattern (bytes "error[0-9]+") regex_error_digits)
        (bytes "error123 error456 error789" ++ [0]) 26 matchlist_create
        = some (1, ⟨[⟨0, 8, 1⟩, ⟨9, 17, 1⟩, ⟨18, 26, 1⟩], 1024⟩) ∧
      search_pattern_regex_mem alloc_ok 4 (regex_pattern (bytes "error[0-9]+") regex_error_digits)
        (bytes "error123 error456 error789" ++ [0]) 17 matchlist_create
        = some (1, ⟨[⟨0, 8, 1⟩, ⟨9, 17, 1⟩, ⟨18, 26, 1⟩], 1024⟩) := by
  refine ⟨?_, ?_, ?_, ?_, by decide, by decide⟩
  · intro fuel out h
    unfold search_pattern_regex_mem at h
    rw [if_neg hcomp, Option.map_eq_some'] at h
    obtain ⟨o, ho, hout⟩ := h
    have hm := regex_loop_hits pattern mem size hvalid hsize hmem fuel 0 1 matchlist_create o ho
    have hm2 : o.matches_ = (regex_hit_spans pattern.regex_compiled mem size fuel 0).map
        (fun sp => ⟨sp.1, sp.2, 1⟩) := by
      rw [hm]
      rfl
    rw [← hout]
    refine ⟨hm2, ?_⟩
    show o.matches_.length = _
    rw [hm2, List.length_map]
  · intro fuel
    obtain ⟨a1, a2, a3⟩ := regex_hit_spans_chain pattern.regex_compiled mem size hvalid hsize
      fuel 0
    exact ⟨a3, a2, fun sp hsp => (a1 sp hsp).2⟩
  · intro hnz
    unfold search_pattern_regex_mem
    rw [if_neg hcomp, Option.isSome_map']
    exact regex_loop_returns pattern mem size hvalid hsize hmem hnz _ 0 1 matchlist_create
      (by omega)
  · intro hnul alloc fuel list
    unfold search_pattern_regex_mem search_pattern_regex
    rw [search_pattern_regex_mem_loop_terminated alloc pattern mem size hnul hsize]

theorem search_pattern_regex_reports_hits_witness :
    ((regex_pattern (bytes "b") regex_first_b).is_regex_compiled ≠ 0 ∧
        6 ≤ (bytes "abcbdb" ++ [0]).length ∧ (bytes "abcbdb" ++ [0]).length < 2 ^ 64) ∧
      regex_hit_spans (regex_pattern (bytes "b") regex_first_b).regex_compiled
        (bytes "abcbdb" ++ [0]) 6 4 0 = [(1, 2), (3, 4), (5, 6)] ∧
      (regex_hit_spans (regex_pattern (bytes "b") regex_first_b).regex_compiled
        (bytes "abcbdb" ++ [0]) 6 4 0).Pairwise (fun a b => a.2 ≤ b.1) ∧
      (search_pattern_regex_mem alloc_ok (6 + 2) (regex_pattern (bytes "b") regex_first_b)
        (bytes "abcbdb" ++ [0]) 6 matchlist_create).isSome = true :=
  ⟨⟨by decide, by decide, by decide⟩, by decide,
    ((search_pattern_regex_reports_hits (regex_pattern (bytes "b") regex_first_b)
      (bytes "abcbdb" ++ [0]) 6 (by decide) regex_first_b_valid (by decide)
      (by decide)).2.1 4).2.1,
    (search_pattern_regex_reports_hits (regex_pattern (bytes "b") regex_first_b)
      (bytes "abcbdb" ++ [0]) 6 (by decide) regex_first_b_valid (by decide)
      (by decide)).2.2.1 regex_first_b_nonempty⟩

/-! ## The vectorized kernels report occurrences only -/

theorem confirmed_literal (P B : List Byte) (q : Nat) (h : confirmed (literal P 0) B q = true) :
    occurs P B q = true := by
  unfold confirmed at h
  unfold occurs
  have hlen : (literal P 0).pattern_len = P.length := rfl
  have hpat : (literal P 0).pattern = P := rfl
  rw [hlen, hpat] at h
  simp only [Bool.and_eq_true, decide_eq_true_eq] at h ⊢
  exact ⟨h.1, (slice_eq_iff B P q h.1).2 ((memcmp_eq_zero_iff _ _ _ _).1 h.2)⟩

theorem simd_lane_cases (alloc : Nat → Bool) (pattern : Pattern) (data : List Byte)
    (vec : Nat → Byte) (pos line_num : Nat) (acc : MatchList) (i : Nat) :
    simd_lane alloc pattern data vec pos line_num acc i = acc ∨
      (confirmed pattern data (pos + i) = true ∧
        simd_lane alloc pattern data vec pos line_num acc i
          = (matchlist_add alloc acc (pos + i) (pos + i + pattern.pattern_len) line_num).2) := by
  unfold simd_lane
  by_cases h1 : data.getD (pos + i) 0 = vec i
  · rw [if_pos h1]
    by_cases h2 : pos + i + pattern.pattern_len ≤ data.length
    · rw [if_pos h2]
      by_cases h3 : memcmp data (pos + i) pattern.pattern pattern.pattern_len = 0
      · rw [if_pos h3]
        right
        exact ⟨by simp [confirmed, h2, h3], rfl⟩
      · rw [if_neg h3]
        exact Or.inl rfl
    · rw [if_neg h2]
      exact Or.inl rfl
  · rw [if_neg h1]
    exact Or.inl rfl

theorem occ_spans_append (P B : List Byte) (a k1 k2 : Nat) :
    occ_spans P B a k1 ++ occ_spans P B (a + k1) k2 = occ_spans P B a (k1 + k2) := by
  unfold occ_spans
  rw [← List.map_append, ← List.filter_append, List.range'_append_1, Nat.add_comm k2 k1]

theorem occ_spans_past_end (P B : List Byte) (a k : Nat) (h : B.length ≤ a) :
    occ_spans P B a k = [] := by
  unfold occ_spans
  rw [List.map_eq_nil_iff, List.filter_eq_nil_iff]
  intro p hp
  rw [List.mem_range'_1] at hp
  have : ¬ p < B.length := by omega
  simp [this]

theorem occ_spans_all (P B : List Byte) (k : Nat) :
    occ_spans P B 0 (B.length + k) = brute_force P B := by
  rw [← occ_spans_append, Nat.zero_add, occ_spans_past_end P B B.length k (Nat.le_refl _),
    List.append_nil]
  unfold occ_spans brute_force
  rw [List.range_eq_range']
  congr 1
  apply List.filter_congr
  intro p hp
  rw [List.mem_range'_1] at hp
  have : p < B.length := by omega
  simp [this, occurs]

theorem occ_spans_le (P B : List Byte) (a k1 k2 : Nat) (h : k1 ≤ k2) :
    (occ_spans P B a k1).Sublist (occ_spans P B a k2) := by
  have : k2 = k1 + (k2 - k1) := by omega
  rw [this, ← occ_spans_append]
  exact List.sublist_append_left _ _

/-- The lanes of one block append spans of occurrences at the lanes' offsets,
in the order of the lanes. -/
theorem simd_lanes_sublist (P B : List Byte) (vec : Nat → Byte) (pos line_num : Nat) :
    ∀ (l : List Nat) (acc : MatchList), (∀ i ∈ l, pos + i < B.length) →
      ∃ S, (l.foldl (simd_lane alloc_ok (literal P 0) B vec pos line_num) acc).matches_.map
          Match.span = acc.matches_.map Match.span ++ S ∧
        S.Sublist ((l.filter (fun i => decide (pos + i < B.length) && occurs P B (pos + i))).map
          (fun i => (pos + i, pos + i + P.length))) := by
  intro l
  induction l with
  | nil => intro acc _; exact ⟨[], by simp, List.Sublist.refl _⟩
  | cons i l ih =>
    intro acc hl
    have hi : pos + i < B.length := hl i (List.mem_cons_self _ _)
    have hl2 : ∀ j ∈ l, pos + j < B.length := fun j hj => hl j (List.mem_cons_of_mem _ hj)
    rw [List.foldl_cons, List.filter_cons]
    rcases simd_lane_cases alloc_ok (literal P 0) B vec pos line_num acc i with h | ⟨hc, h⟩
    · rw [h]
      obtain ⟨S, h1, h2⟩ := ih acc hl2
      refine ⟨S, h1, ?_⟩
      split
      · rw [List.map_cons]
        exact List.Sublist.cons _ h2
      · exact h2
    · rw [h]
      obtain ⟨S, h1, h2⟩ := ih _ hl2
      have hocc := confirmed_literal P B (pos + i) hc
      refine ⟨(pos + i, pos + i + P.length) :: S, ?_, ?_⟩
      · rw [h1, matchlist_add_ok, List.map_append, List.append_assoc]
        rfl
      · have hg : (decide (pos + i < B.length) && occurs P B (pos + i)) = true := by
          simp [hi, hocc]
        rw [if_pos hg, List.map_cons]
        exact List.Sublist.cons₂ _ h2

theorem simd_block_sublist (P B : List Byte) (vec : Nat → Byte) (width pos line_num : Nat)
    (list : MatchList) (hpos : pos + width ≤ B.length) :
    ∃ S, (simd_block alloc_ok (literal P 0) B vec width pos line_num list).matches_.map
        Match.span = list.matches_.map Match.span ++ S ∧
      S.Sublist (occ_spans P B pos width) := by
  rw [simd_block_eq_foldl]
  obtain ⟨S, h1, h2⟩ := simd_lanes_sublist P B vec pos line_num (List.range width) list
    (fun i hi => by
      rw [List.mem_range] at hi
      omega)
  refine ⟨S, h1, ?_⟩
  have heq : ((List.range width).filter
      (fun i => decide (pos + i < B.length) && occurs P B (pos + i))).map
        (fun i => (pos + i, pos + i + P.length)) = occ_spans P B pos width := by
    unfold occ_spans
    rw [List.range'_eq_map_range, List.filter_map, List.map_map]
    rfl
  rw [← heq]
  exact h2

theorem simd_block_loop_sublist (P B : List Byte) (vec : Nat → Byte) (width : Nat) :
    ∀ (fuel pos line_num : Nat) (list : MatchList),
      ∃ S, (simd_block_loop alloc_ok (literal P 0) B vec width fuel pos line_num
            list).2.2.matches_.map Match.span = list.matches_.map Match.span ++ S ∧
        pos ≤ (simd_block_loop alloc_ok (literal P 0) B vec width fuel pos line_num list).1 ∧
        S.Sublist (occ_spans P B pos
          ((simd_block_loop alloc_ok (literal P 0) B vec width fuel pos line_num list).1
            - pos)) := by
  intro fuel
  induction fuel with
  | zero =>
    intro pos line_num list
    exact ⟨[], by simp [simd_block_loop], Nat.le_refl _, List.nil_sublist _⟩
  | succ fuel ih =>
    intro pos line_num list
    rw [simd_block_loop]
    by_cases hpos : pos + width ≤ B.length
    · rw [if_pos hpos]
      obtain ⟨S1, a1, a2⟩ := simd_block_sublist P B vec width pos line_num list hpos
      obtain ⟨S2, b1, b2, b3⟩ := ih (pos + width) (simd_block_lines B width pos line_num)
        (simd_block alloc_ok (literal P 0) B vec width pos line_num list)
      refine ⟨S1 ++ S2, ?_, by omega, ?_⟩
      · rw [b1, a1, List.append_assoc]
      · have hsplit : (simd_block_loop alloc_ok (literal P 0) B vec width fuel (pos + width)
            (simd_block_lines B width pos line_num)
            (simd_block alloc_ok (literal P 0) B vec width pos line_num list)).1 - pos
            = width + ((simd_block_loop alloc_ok (literal P 0) B vec width fuel (pos + width)
            (simd_block_lines B width pos line_num)
            (simd_block alloc_ok (literal P 0) B vec width pos line_num list)).1
              - (pos + width)) := by omega
        rw [hsplit, ← occ_spans_append]
        exact List.Sublist.append a2 b3
    · rw [if_neg hpos]
      exact ⟨[], by simp, Nat.le_refl _, List.nil_sublist _⟩

theorem simd_tail_loop_sublist (P B : List Byte) :
    ∀ (fuel pos line_num : Nat) (list : MatchList),
      ∃ S, (simd_tail_loop alloc_ok (literal P 0) B fuel pos line_num list).matches_.map
          Match.span = list.matches_.map Match.span ++ S ∧
        S.Sublist (occ_spans P B pos fuel) := by
  intro fuel
  induction fuel with
  | zero =>
    intro pos line_num list
    exact ⟨[], by simp [simd_tail_loop], List.nil_sublist _⟩
  | succ fuel ih =>
    intro pos line_num list
    rw [simd_tail_loop]
    by_cases hpos : pos < B.length
    · rw [if_pos hpos]
      have hsplit : occ_spans P B pos (fuel + 1)
          = occ_spans P B pos 1 ++ occ_spans P B (pos + 1) fuel := by
        rw [occ_spans_append, Nat.add_comm]
      by_cases hf : pattern_match_ascii (literal P 0) B pos ≠ 0
      · rw [if_pos hf]
        obtain ⟨S, h1, h2⟩ := ih (pos + 1) (if B.getD pos 0 = 10 then line_num + 1 else line_num)
          (matchlist_add alloc_ok list pos (pos + (literal P 0).pattern_len) line_num).2
        have hfa : found_at (literal P 0) B pos = true := by
          unfold found_at
          have hci : ¬ (literal P 0).case_insensitive ≠ 0 := fun h => h rfl
          rw [if_neg hci]
          exact decide_eq_true hf
        have hocc : occurs P B pos = true := by
          rw [← found_at_literal P B pos hpos]
          exact hfa
        have hone : occ_spans P B pos 1 = [(pos, pos + P.length)] := by
          unfold occ_spans
          simp [hpos, hocc]
        refine ⟨(pos, pos + P.length) :: S, ?_, ?_⟩
        · rw [h1, matchlist_add_ok, List.map_append, List.append_assoc]
          rfl
        · rw [hsplit, hone]
          exact List.Sublist.cons₂ _ h2
      · rw [if_neg hf]
        obtain ⟨S, h1, h2⟩ := ih (pos + 1) (if B.getD pos 0 = 10 then line_num + 1 else line_num)
          list
        refine ⟨S, h1, ?_⟩
        rw [hsplit]
        exact List.Sublist.trans h2 (List.sublist_append_right _ _)
    · rw [if_neg hpos]
      exact ⟨[], by simp, List.nil_sublist _⟩

/-- With any width and any memory after the pattern string, the spans a kernel
leaves in a fresh MatchSet are, in order, spans of the brute-force reference. -/
theorem search_pattern_simd_sublist (width : Nat) (beyond : Nat → Byte) (P B : List Byte) :
    ((search_pattern_simd width alloc_ok beyond (literal P 0) B matchlist_create).2.matches_.map
      Match.span).Sublist (brute_force P B) := by
  unfold search_pattern_simd
  by_cases h0 : (literal P 0).pattern_len = 0
  · rw [if_pos h0]
    exact List.nil_sublist _
  · rw [if_neg h0]
    by_cases hw : (literal P 0).pattern_len > width
    · rw [if_pos hw, ascii_spans_literal]
    · rw [if_neg hw]
      simp only
      obtain ⟨S1, a1, a2, a3⟩ := simd_block_loop_sublist P B (load_pattern (literal P 0) beyond)
        width B.length 0 1 matchlist_create
      obtain ⟨S2, b1, b2⟩ := simd_tail_loop_sublist P B B.length
        (simd_block_loop alloc_ok (literal P 0) B (load_pattern (literal P 0) beyond) width
          B.length 0 1 matchlist_create).1
        (simd_block_loop alloc_ok (literal P 0) B (load_pattern (literal P 0) beyond) width
          B.length 0 1 matchlist_create).2.1
        (simd_block_loop alloc_ok (literal P 0) B (load_pattern (literal P 0) beyond) width
          B.length 0 1 matchlist_create).2.2
      rw [b1, a1]
      have hnil : matchlist_create.matches_.map Match.span = [] := rfl
      rw [hnil, List.nil_append]
      have hcat := List.Sublist.append a3 b2
      rw [Nat.sub_zero] at hcat
      have hjoin := occ_spans_append P B 0
        (simd_block_loop alloc_ok (literal P 0) B (load_pattern (literal P 0) beyond) width
          B.length 0 1 matchlist_create).1 B.length
      rw [Nat.zero_add] at hjoin
      rw [hjoin] at hcat
      have hle := occ_spans_le P B 0
        ((simd_block_loop alloc_ok (literal P 0) B (load_pattern (literal P 0) beyond) width
          B.length 0 1 matchlist_create).1 + B.length)
        (B.length + (simd_block_loop alloc_ok (literal P 0) B
          (load_pattern (literal P 0) beyond) width B.length 0 1 matchlist_create).1)
        (by omega)
      rw [occ_spans_all] at hle
      exact List.Sublist.trans hcat hle

theorem brute_force_pairwise (P B : List Byte) :
    (brute_force P B).Pairwise (fun a b => a.1 < b.1) := by
  unfold brute_force
  rw [List.pairwise_map]
  exact List.Pairwise.sublist (List.filter_sublist _) (List.pairwise_lt_range B.length)

theorem mem_brute_force (P B : List Byte) (sp : Nat × Nat) (h : sp ∈ brute_force P B) :
    sp.2 = sp.1 + P.length ∧ sp.2 ≤ B.length ∧ (B.drop sp.1).take P.length = P := by
  unfold brute_force at h
  rw [List.mem_map] at h
  obtain ⟨p, hp, rfl⟩ := h
  rw [List.mem_filter] at hp
  have h2 := hp.2
  simp only [Bool.and_eq_true, decide_eq_true_eq] at h2
  exact ⟨rfl, h2.1, h2.2⟩

/-- What a kernel of any width leaves in a fresh MatchSet: every match is an
occurrence of the pattern, the starts increase strictly, and every span is one
of the scalar scan. -/
theorem search_pattern_simd_sound (width : Nat) (beyond : Nat → Byte) (P B : List Byte) :
    (∀ m ∈ (search_pattern_simd width alloc_ok beyond (literal P 0) B
        matchlist_create).2.matches_,
      m.end_ = m.start + P.length ∧ m.end_ ≤ B.length ∧
        (B.drop m.start).take P.length = P) ∧
    (search_pattern_simd width alloc_ok beyond (literal P 0) B
        matchlist_create).2.matches_.Pairwise (fun a b => a.start < b.start) ∧
    (∀ m ∈ (search_pattern_simd width alloc_ok beyond (literal P 0) B
        matchlist_create).2.matches_,
      m.span ∈ (search_pattern_ascii alloc_ok (literal P 0) B
        matchlist_create).2.matches_.map Match.span) := by
  have hsub := search_pattern_simd_sublist width beyond P B
  refine ⟨?_, ?_, ?_⟩
  · intro m hm
    exact mem_brute_force P B m.span (hsub.subset (List.mem_map_of_mem Match.span hm))
  · have h1 := List.Pairwise.sublist hsub (brute_force_pairwise P B)
    rw [List.pairwise_map] at h1
    exact h1
  · intro m hm
    rw [ascii_spans_literal]
    exact hsub.subset (List.mem_map_of_mem Match.span hm)

/-- C25: the vectorized kernels never report a false match. For every literal
pattern `P` (in particular for `1 ≤ |P| ≤ width`), every buffer `B` and every
content `beyond` of the memory after the pattern string, which fills the vector
lanes past the pattern, the matches that `search_pattern_sse42` (width 16) and
`search_pattern_avx2` (width 32) append to a fresh MatchSet satisfy: the spans
are, in order, a sublist of the occurrences of `P` in `B`; each match is a span
`(p, p + |P|)` with `p + |P| ≤ |B|` and `B[p, p + |P|) = P`; the starts increase
strictly; and each span is among those of `search_pattern_ascii` on the same
input. The last two conjuncts show that the kernels do report: an occurrence at
the start of a block is appended by either kernel. -/
theorem simd_kernels_no_false_match (beyond : Nat → Byte) (P B : List Byte) :
    (((search_pattern_sse42 alloc_ok beyond (literal P 0) B matchlist_create).2.matches_.map
        Match.span).Sublist (brute_force P B) ∧
      (∀ m ∈ (search_pattern_sse42 alloc_ok beyond (literal P 0) B matchlist_create).2.matches_,
        m.end_ = m.start + P.length ∧ m.end_ ≤ B.length ∧
          (B.drop m.start).take P.length = P) ∧
      (search_pattern_sse42 alloc_ok beyond (literal P 0) B
        matchlist_create).2.matches_.Pairwise (fun a b => a.start < b.start) ∧
      (∀ m ∈ (search_pattern_sse42 alloc_ok beyond (literal P 0) B matchlist_create).2.matches_,
        m.span ∈ (search_pattern_ascii alloc_ok (literal P 0) B
          matchlist_create).2.matches_.map Match.span)) ∧
    (((search_pattern_avx2 alloc_ok beyond (literal P 0) B matchlist_create).2.matches_.map
        Match.span).Sublist (brute_force P B) ∧
      (∀ m ∈ (search_pattern_avx2 alloc_ok beyond (literal P 0) B matchlist_create).2.matches_,
        m.end_ = m.start + P.length ∧ m.end_ ≤ B.length ∧
          (B.drop m.start).take P.length = P) ∧
      (search_pattern_avx2 alloc_ok beyond (literal P 0) B
        matchlist_create).2.matches_.Pairwise (fun a b => a.start < b.start) ∧
      (∀ m ∈ (search_pattern_avx2 alloc_ok beyond (literal P 0) B matchlist_create).2.matches_,
        m.span ∈ (search_pattern_ascii alloc_ok (literal P 0) B
          matchlist_create).2.matches_.map Match.span)) ∧
    search_pattern_sse42 alloc_ok beyond (literal (bytes "ab") 0) (bytes "abxxxxxxxxxxxxxx")
      matchlist_create = (1, ⟨[⟨0, 2, 1⟩], 1024⟩) ∧
    search_pattern_avx2 alloc_ok beyond (literal (bytes "ab") 0)
      (bytes "abxxxxxxxxxxxxxxxxxxxxxxxxxxxxxx") matchlist_create
        = (1, ⟨[⟨0, 2, 1⟩], 1024⟩) := by
  refine ⟨⟨?_, ?_⟩, ⟨?_, ?_⟩, ?_, ?_⟩
  · exact search_pattern_simd_sublist 16 beyond P B
  · exact search_pattern_simd_sound 16 beyond P B
  · exact search_pattern_simd_sublist 32 beyond P B
  · exact search_pattern_simd_sound 32 beyond P B
  · unfold search_pattern_sse42
    rw [search_pattern_simd_beyond 16 _ _ (by decide)]
    decide
  · unfold search_pattern_avx2
    rw [search_pattern_simd_beyond 32 _ _ (by decide)]
    decide

end Fastgrep
